import Mathlib

/-!
# Verification of the pocketbase-query expression accumulator and normalizer

Shallow embedding of `src/index.ts`: the builder methods (`addExpression`,
`and`, `or`, `openBracket`, `closeBracket`, `in`, `customFilter`, `build`)
and the build-time normalizer `cleanupQuery`, a fixed-point iteration of
twelve ordered regex rewrites.  Strings are modelled as `List Char`; each
JavaScript regex replacement is modelled as a left-to-right scanner that at
each position either fires the (deterministic, max-munch) match and
continues after it, or copies one character — exactly the semantics of
`String.prototype.replace` with the `g` flag for these patterns (none of
which can match the empty string, and in none of which backtracking can
produce a different match than greedy maximal munch, because every
quantified class is disjoint from the token that follows it).
-/

namespace PBQuery

abbrev Str := List Char

/-- ECMAScript `\s` (WhiteSpace ∪ LineTerminator), also the set used by
`String.prototype.trim`; stated on code points. -/
def isWs (c : Char) : Bool :=
  c.toNat = 32 || c.toNat = 9 || c.toNat = 10 || c.toNat = 11 || c.toNat = 12
    || c.toNat = 13 || c.toNat = 160 || c.toNat = 5760
    || (8192 ≤ c.toNat && c.toNat ≤ 8202)
    || c.toNat = 8232 || c.toNat = 8233 || c.toNat = 8239
    || c.toNat = 8287 || c.toNat = 12288 || c.toNat = 65279

/-- `[a-zA-Z]`. -/
def isAz (c : Char) : Bool :=
  (97 ≤ c.toNat && c.toNat ≤ 122) || (65 ≤ c.toNat && c.toNat ≤ 90)

/-- `[a-zA-Z_]`. -/
def isWordStart (c : Char) : Bool := isAz c || c.toNat = 95

/-- `[a-zA-Z0-9_]`. -/
def isWordCh (c : Char) : Bool := isWordStart c || (48 ≤ c.toNat && c.toNat ≤ 57)

/-- `[=!<>~?]`. -/
def isOpCh (c : Char) : Bool :=
  c.toNat = 61 || c.toNat = 33 || c.toNat = 60 || c.toNat = 62
    || c.toNat = 126 || c.toNat = 63

/-- `(` or `)`. -/
def isParenCh (c : Char) : Bool := c.toNat = 40 || c.toNat = 41

/-- `(`. -/
def isOpenCh (c : Char) : Bool := c.toNat = 40

/-- `)`. -/
def isCloseCh (c : Char) : Bool := c.toNat = 41

/-- `&` or `|` (the characters connectives are made of). -/
def isAmpCh (c : Char) : Bool := c.toNat = 38 || c.toNat = 124

/-- Greedy run of characters satisfying `p`: returns the maximal `p`-run
and the remainder. -/
def grab (p : Char → Bool) : Str → Str × Str
  | [] => ([], [])
  | c :: cs =>
    if p c then
      let (a, b) := grab p cs
      (c :: a, b)
    else ([], c :: cs)

/-- `(&&|\|\|)`: the alternation tries `&&` first, then `||` (the two are
disjoint, so the order is immaterial). -/
def readConn : Str → Option (Str × Str)
  | c1 :: c2 :: r =>
    if c1 = '&' ∧ c2 = '&' then some (['&', '&'], r)
    else if c1 = '|' ∧ c2 = '|' then some (['|', '|'], r)
    else none
  | _ => none

/-- A matcher attempts a regex match anchored at the head of the string and
returns `(replacement text, remainder after the match)`. -/
abbrev Matcher := Str → Option (Str × Str)

/-- `/\(\s*\)/ → ''` (rules 1 and 9: remove empty brackets). -/
def m1 : Matcher := fun s =>
  match s with
  | c :: t =>
    if c = '(' then
      match (grab isWs t).2 with
      | d :: r => if d = ')' then some ([], r) else none
      | [] => none
    else none
  | [] => none

/-- `/\s*(&&|\|\|)\s*\)/ → ')'` (rule 2: operators before closing brackets). -/
def m2 : Matcher := fun s =>
  match readConn (grab isWs s).2 with
  | some (_, s2) =>
    match (grab isWs s2).2 with
    | d :: r => if d = ')' then some ([')'], r) else none
    | [] => none
  | none => none

/-- `/\(\s*(&&|\|\|)\s*/ → '('` (rule 3: operators after opening brackets). -/
def m3 : Matcher := fun s =>
  match s with
  | c :: t =>
    if c = '(' then
      match readConn (grab isWs t).2 with
      | some (_, s2) => some (['('], (grab isWs s2).2)
      | none => none
    else none
  | [] => none

/-- `/\s*(&&|\|\|)\s+(&&|\|\|)\s*/ → ' $2 '` (rule 4: double operators). -/
def m4 : Matcher := fun s =>
  match readConn (grab isWs s).2 with
  | some (_, s2) =>
    if (grab isWs s2).1.isEmpty then none
    else
      match readConn (grab isWs s2).2 with
      | some (c2, s4) => some (' ' :: (c2 ++ [' ']), (grab isWs s4).2)
      | none => none
  | none => none

/-- `/\s*(&&|\|\|)\s*$/ → ''` (rule 5: trailing operators; the `$` anchor is
the requirement that the remainder after the match is empty). -/
def m5 : Matcher := fun s =>
  match readConn (grab isWs s).2 with
  | some (_, s2) =>
    if (grab isWs s2).2.isEmpty then some ([], []) else none
  | none => none

/-- `/^\s*(&&|\|\|)\s*/ → ''` (rule 6: leading operators, anchored at the
start). -/
def m6 : Matcher := fun s =>
  match readConn (grab isWs s).2 with
  | some (_, s2) => some ([], (grab isWs s2).2)
  | none => none

/-- `/\)([a-zA-Z_][a-zA-Z0-9_]*[=!<>~?]+)/ → ') && $1'` (rule 7: insert a
default `&&` between a closing bracket and a following condition). -/
def m7 : Matcher := fun s =>
  match s with
  | a :: c :: t =>
    if a = ')' && isWordStart c then
      if (grab isOpCh (grab isWordCh t).2).1.isEmpty then none
      else
        some (')' :: ' ' :: '&' :: '&' :: ' ' :: c ::
            ((grab isWordCh t).1 ++ (grab isOpCh (grab isWordCh t).2).1),
          (grab isOpCh (grab isWordCh t).2).2)
    else none
  | _ => none

/-- `/\s*(&&|\|\|)\s*/ → ' $1 '` (rule 8: normalize spacing around
operators). -/
def m8 : Matcher := fun s =>
  match readConn (grab isWs s).2 with
  | some (c, s2) => some (' ' :: (c ++ [' ']), (grab isWs s2).2)
  | none => none

/-- `/\(\)\s*([a-zA-Z])/ → '$1'` (rule 10). -/
def m10 : Matcher := fun s =>
  match s with
  | a :: b :: t =>
    if a = '(' && b = ')' then
      match (grab isWs t).2 with
      | c :: r => if isAz c then some ([c], r) else none
      | [] => none
    else none
  | _ => none

/-- `/([a-zA-Z\)"])\s*\(\)/ → '$1'` (rule 11). -/
def m11 : Matcher := fun s =>
  match s with
  | c :: t =>
    if isAz c || c = ')' || c = '"' then
      match (grab isWs t).2 with
      | a :: b :: r => if a = '(' && b = ')' then some ([c], r) else none
      | _ => none
    else none
  | [] => none

/-- `/\s+/ → ' '` (rule 12: collapse whitespace runs). -/
def m12 : Matcher := fun s =>
  match s with
  | c :: t => if isWs c then some ([' '], (grab isWs t).2) else none
  | [] => none

/-- Global replace: scan left to right; at each position fire the match and
continue after it, or copy one character.  Fuel-driven so that the kernel
can evaluate it; called with fuel = length, which always suffices because
every matcher consumes at least one character. -/
def scanIter (m : Matcher) : Nat → Str → Str
  | 0, s => s
  | _ + 1, [] => []
  | n + 1, c :: cs =>
    match m (c :: cs) with
    | some (e, r) => e ++ scanIter m n r
    | none => c :: scanIter m n cs

/-- `String.replace` with the `g` flag. -/
def applyRep (m : Matcher) (s : Str) : Str := scanIter m s.length s

/-- First-occurrence scan for the non-global rule 5. -/
def firstIter (m : Matcher) : Nat → Str → Str
  | 0, s => s
  | _ + 1, [] => []
  | n + 1, c :: cs =>
    match m (c :: cs) with
    | some (e, r) => e ++ r
    | none => c :: firstIter m n cs

/-- `String.replace` without the `g` flag (leftmost match only). -/
def applyFirst (m : Matcher) (s : Str) : Str := firstIter m s.length s

/-- Rule 5: remove a trailing operator (non-global replace). -/
def rule5 (s : Str) : Str := applyFirst m5 s

/-- Rule 6: remove a leading operator (`^`-anchored, so only position 0 is
tried). -/
def rule6 (s : Str) : Str :=
  match m6 s with
  | some (_, r) => r
  | none => s

/-- `String.prototype.trim`. -/
def trimStr (s : Str) : Str :=
  ((s.dropWhile isWs).reverse.dropWhile isWs).reverse

/-- One iteration of the `while` body of `cleanupQuery`: the twelve ordered
replacements followed by the trailing `.trim()`. -/
def passOnce (s : Str) : Str :=
  let s1 := applyRep m1 s
  let s2 := applyRep m2 s1
  let s3 := applyRep m3 s2
  let s4 := applyRep m4 s3
  let s5 := rule5 s4
  let s6 := rule6 s5
  let s7 := applyRep m7 s6
  let s8 := applyRep m8 s7
  let s9 := applyRep m1 s8
  let s10 := applyRep m10 s9
  let s11 := applyRep m11 s10
  let s12 := applyRep m12 s11
  trimStr s12

/-- `cleanupQuery`: iterate `passOnce` to a fixed point.  The JavaScript
`while (result !== prevResult)` loop is partial, so the embedding carries
fuel and returns `none` when the fuel runs out before stabilization. -/
def cleanupFuel : Nat → Str → Option Str
  | 0, _ => none
  | n + 1, s => if passOnce s = s then some s else cleanupFuel n (passOnce s)

/-! ## The builder -/

/-- A condition value as passed to the builder: JavaScript `null`,
`undefined`, a boolean, or a string. -/
inductive Value where
  | vNull
  | vUndefined
  | vBool (b : Bool)
  | vStr (s : Str)
deriving DecidableEq

/-- `value !== null && value !== undefined && value !== ''` (strict
equality, so booleans always pass). -/
def isValidValue : Value → Bool
  | .vNull => false
  | .vUndefined => false
  | .vBool _ => true
  | .vStr s => !s.isEmpty

/-- `typeof value === "boolean"`. -/
def isBoolV : Value → Bool
  | .vBool _ => true
  | _ => false

/-- The text a value contributes (`value.toString()` for booleans, the
string itself otherwise). -/
def valText : Value → Str
  | .vNull => "null".toList
  | .vUndefined => "undefined".toList
  | .vBool true => "true".toList
  | .vBool false => "false".toList
  | .vStr s => s

/-- The accumulator state: the `query` buffer and `lastQueryValue`. -/
structure QState where
  query : Str
  lastQueryValue : Str
deriving DecidableEq

/-- The state of a fresh (or just-reset) handle. -/
def initState : QState := ⟨[], []⟩

/-- `addExpression`: boolean values are appended unquoted and always;
other values are appended in double quotes only when valid; invalid
values change nothing. -/
def addExpression (field op : Str) (v : Value) (st : QState) : QState :=
  if isBoolV v then
    { query := st.query ++ field ++ op ++ valText v, lastQueryValue := valText v }
  else if isValidValue v then
    { query := st.query ++ field ++ op ++ '"' :: (valText v ++ ['"'])
      lastQueryValue := valText v }
  else st

/-- `and()`. -/
def andOp (st : QState) : QState :=
  { query := st.query ++ " && ".toList, lastQueryValue := [] }

/-- `or()`. -/
def orOp (st : QState) : QState :=
  { query := st.query ++ " || ".toList, lastQueryValue := [] }

/-- `openBracket()`. -/
def openBracket (st : QState) : QState :=
  { st with query := st.query ++ ['('] }

/-- `closeBracket()`. -/
def closeBracket (st : QState) : QState :=
  { st with query := st.query ++ [')'] }

/-- `customFilter(filter)`: sets `lastQueryValue` first, appends only when
non-empty. -/
def customFilter (f : Str) (st : QState) : QState :=
  { query := if f.isEmpty then st.query else st.query ++ f, lastQueryValue := f }

/-- Operator symbols from `OperatorEnum`. -/
def opEqual : Str := "=".toList
def opNotEqual : Str := "!=".toList
def opGreaterThan : Str := ">".toList
def opGreaterThanOrEqual : Str := ">=".toList
def opLessThan : Str := "<".toList
def opLessThanOrEqual : Str := "<=".toList
def opLike : Str := "~".toList
def opNotLike : Str := "!~".toList
def opAnyEqual : Str := "?=".toList
def opAnyNotEqual : Str := "?!=".toList
def opAnyGreaterThan : Str := "?>".toList
def opAnyGreaterThanOrEqual : Str := "?>=".toList
def opAnyLessThan : Str := "?<".toList
def opAnyLessThanOrEqual : Str := "?<=".toList
def opAnyLike : Str := "?~".toList
def opAnyNotLike : Str := "?!~".toList

/-- `equal(field, value)`. -/
def equalOp (field : Str) (v : Value) (st : QState) : QState :=
  addExpression field opEqual v st

/-- `notEqual(field, value)`. -/
def notEqualOp (field : Str) (v : Value) (st : QState) : QState :=
  addExpression field opNotEqual v st

/-- `greaterThan(field, value)`. -/
def greaterThanOp (field : Str) (v : Value) (st : QState) : QState :=
  addExpression field opGreaterThan v st

/-- `like(field, value)`. -/
def likeOp (field : Str) (v : Value) (st : QState) : QState :=
  addExpression field opLike v st

/-- `notLike(field, value)`. -/
def notLikeOp (field : Str) (v : Value) (st : QState) : QState :=
  addExpression field opNotLike v st

/-- The `forEach` body of `in`: a like-condition per value, with `or()`
after every value except the last (`index < validValues.length - 1`). -/
def inGo (field : Str) : List Value → QState → QState
  | [], st => st
  | [v], st => addExpression field opLike v st
  | v :: v2 :: rest, st =>
    inGo field (v2 :: rest) (orOp (addExpression field opLike v st))

/-- `in(field, values)`: filter by the validity rule; no-op when nothing
survives. -/
def inOp (field : Str) (values : List Value) (st : QState) : QState :=
  let validValues := values.filter fun v => isValidValue v
  if validValues.isEmpty then st else inGo field validValues st

/-- `getQuery()`. -/
def getQuery (st : QState) : Str := st.query

/-- `getLastQueryValue()`. -/
def getLastQueryValue (st : QState) : Str := st.lastQueryValue

/-- `build()`: trim, normalize (with fuel), reset the state, return the
trimmed result. -/
def buildFuel (n : Nat) (st : QState) : Option (Str × QState) :=
  match cleanupFuel n (trimStr st.query) with
  | some r => some (trimStr r, initState)
  | none => none

/-! ## Output-shape predicates used by the claims -/

/-- A connective literal: `&&` or `||`. -/
def isConnPair (c : Str) : Prop := c = ['&', '&'] ∨ c = ['|', '|']

/-- Every character of `w` is whitespace. -/
def allWs (w : Str) : Prop := ∀ c ∈ w, isWs c = true

/-- The string starts with a connective. -/
def StartsWithConn (r : Str) : Prop := ∃ c b, isConnPair c ∧ r = c ++ b

/-- The string ends with a connective. -/
def EndsWithConn (r : Str) : Prop := ∃ a c, isConnPair c ∧ r = a ++ c

/-- The string contains `(&&` or `(||` with only whitespace between the
bracket and the connective. -/
def HasConnAfterOpen (r : Str) : Prop :=
  ∃ a w c b, isConnPair c ∧ allWs w ∧ r = a ++ '(' :: (w ++ c ++ b)

/-- The string contains `&&)` or `||)` with only whitespace between the
connective and the bracket. -/
def HasConnBeforeClose (r : Str) : Prop :=
  ∃ a c w b, isConnPair c ∧ allWs w ∧ r = a ++ c ++ w ++ ')' :: b

/-- The string contains two connectives separated only by (possibly zero)
whitespace. -/
def HasAdjConns (r : Str) : Prop :=
  ∃ a c1 w c2 b, isConnPair c1 ∧ isConnPair c2 ∧ allWs w ∧
    r = a ++ c1 ++ w ++ c2 ++ b

/-- The string contains `()` with only whitespace inside. -/
def HasEmptyGroup (r : Str) : Prop :=
  ∃ a w b, allWs w ∧ r = a ++ '(' :: (w ++ ')' :: b)

/-- Whether the string starts with a word-start character (`[a-zA-Z_]`),
the kind of character that can begin rule 7's condition token. -/
def headWS (l : Str) : Bool :=
  match l with
  | c :: _ => isWordStart c
  | [] => false

/-- Whether the string ends with `)`. -/
def lastClose (l : Str) : Bool :=
  match l.getLast? with
  | some c => c = ')'
  | none => false

/-- The junction count: the number of positions where a `)` is immediately
followed by a word-start character — exactly the anchors at which rule 7
can fire. -/
def junc : Str → Nat
  | a :: b :: t => (if a = ')' ∧ isWordStart b = true then 1 else 0) + junc (b :: t)
  | _ => 0

/-- The junction contribution of the boundary between two adjacent strings. -/
def bd (a b : Str) : Nat :=
  if lastClose a = true ∧ headWS b = true then 1 else 0

/-- Whether the string is empty or starts with whitespace. -/
def wsOrEnd : Str → Bool
  | [] => true
  | d :: _ => isWs d

/-- Every occurrence of a connective (`&&` or `||`) is immediately followed
by whitespace or the end of the string.  This is an invariant of the image
of the spacing rule (rule 8) that survives whitespace collapsing (rule 12)
and trimming, and it rules out a connective immediately followed by another
connective. -/
def rightSpaced : Str → Bool
  | a :: b :: t =>
    (if (a = '&' ∧ b = '&') ∨ (a = '|' ∧ b = '|') then wsOrEnd t else true)
      && rightSpaced (b :: t)
  | _ => true

/-- Whether two characters form a connective pair. -/
def connB (a b : Char) : Bool := (a = '&' && b = '&') || (a = '|' && b = '|')

/-- The string begins with a connective pair. -/
def startsConn : Str → Bool
  | a :: b :: _ => connB a b
  | _ => false

/-- The string ends with a connective pair. -/
def endsConn : Str → Bool
  | [a, b] => connB a b
  | _ :: b :: t => endsConn (b :: t)
  | _ => false

/-- Every connective pair is immediately preceded by whitespace or the start
of the string; the boolean argument records whether the previous character
(if any) was whitespace. -/
def lSp : Bool → Str → Bool
  | ok, a :: b :: t =>
    (if connB a b = true then ok else true) && lSp (isWs a) (b :: t)
  | _, _ => true

/-- `leftSpaced`: connectives only after whitespace or at the start. -/
def leftSpaced (s : Str) : Bool := lSp true s

/-- Every whitespace character is the single space `' '` and is never
followed by further whitespace. -/
def singleWs : Str → Bool
  | a :: b :: t =>
    (if isWs a = true then (if a = ' ' ∧ isWs b = false then true else false)
      else true) && singleWs (b :: t)
  | [a] => if isWs a = true then (if a = ' ' then true else false) else true
  | [] => true

/-- Whether the string starts with whitespace. -/
def headWsB : Str → Bool
  | d :: _ => isWs d
  | [] => false

/-- Whether the string ends with whitespace. -/
def lastWsB (s : Str) : Bool :=
  match s.getLast? with
  | some d => isWs d
  | none => false

/-- Neither end of the string is whitespace. -/
def noBoundWs (s : Str) : Bool := !headWsB s && !lastWsB s

/-- The single space that rules 8+12 leave in front of a leading connective
before the trim removes it. -/
def padL (s : Str) : Str := if startsConn s = true then [' '] else []

/-- The single space that rules 8+12 leave behind a trailing connective
before the trim removes it. -/
def padR (s : Str) : Str := if endsConn s = true then [' '] else []

/-- A perfectly spaced string: all whitespace is the single space `' '`,
never doubled and never at the ends, and every connective is spaced or at a
boundary.  Rules 8 + 12 + trim act as the identity exactly on these. -/
def SweakB (s : Str) : Bool :=
  singleWs s && noBoundWs s && rightSpaced s && leftSpaced s

/-- The "like" fragment `field~"value"` emitted for one surviving value of
`in`. -/
def likeFrag (field : Str) (v : Value) : Str :=
  field ++ opLike ++ '"' :: (valText v ++ ['"'])

/-- Join fragments with ` || ` between consecutive ones (none after the
last). -/
def orJoin : List Str → Str
  | [] => []
  | [x] => x
  | x :: y :: rest => x ++ " || ".toList ++ orJoin (y :: rest)

/-! ## Theorems -/

/-! ### Generic facts about the scanners -/

theorem grab_append (p : Char → Bool) : ∀ s : Str, (grab p s).1 ++ (grab p s).2 = s := by
  intro s
  induction s with
  | nil => rfl
  | cons c cs ih =>
    by_cases hc : p c
    · simp only [grab, if_pos hc]
      cases hgr : grab p cs with
      | mk a b =>
        rw [hgr] at ih
        simpa using ih
    · simp [grab, hc]

theorem grab_all (p : Char → Bool) (w t : Str)
    (hw : ∀ c ∈ w, p c = true)
    (ht : ∀ c ts, t = c :: ts → p c = false) :
    grab p (w ++ t) = (w, t) := by
  induction w with
  | nil =>
    cases t with
    | nil => rfl
    | cons c ts => simp [grab, ht c ts rfl]
  | cons c w2 ih =>
    have hc : p c = true := hw c (by simp)
    have ih2 := ih (fun d hd => hw d (List.mem_cons_of_mem _ hd))
    simp [grab, hc, ih2]

theorem grab_none (p : Char → Bool) (t : Str)
    (ht : ∀ c ts, t = c :: ts → p c = false) :
    grab p t = ([], t) :=
  grab_all p [] t (by simp) ht

theorem readConn_none (t : Str)
    (h : ∀ c ts, t = c :: ts → (c ≠ '&' ∧ c ≠ '|')) :
    readConn t = none := by
  cases t with
  | nil => rfl
  | cons c1 rest =>
    cases rest with
    | nil => rfl
    | cons c2 r =>
      have hc := h c1 (c2 :: r) rfl
      simp [readConn, hc.1, hc.2]

theorem scanIter_cons_none (m : Matcher) (n : Nat) (c : Char) (cs : Str)
    (h : m (c :: cs) = none) :
    scanIter m (n + 1) (c :: cs) = c :: scanIter m n cs := by
  simp [scanIter, h]

theorem scanIter_cons_some (m : Matcher) (n : Nat) (c : Char) (cs e r : Str)
    (h : m (c :: cs) = some (e, r)) :
    scanIter m (n + 1) (c :: cs) = e ++ scanIter m n r := by
  simp [scanIter, h]

theorem scanIter_none_of (m : Matcher) : ∀ (n : Nat) (s : Str),
    (∀ i, m (s.drop i) = none) → scanIter m n s = s := by
  intro n
  induction n with
  | zero => intro s _; rfl
  | succ n ih =>
    intro s H
    cases s with
    | nil => rfl
    | cons c cs =>
      have h0 := H 0
      simp only [List.drop] at h0
      rw [scanIter_cons_none m n c cs h0]
      rw [ih cs (fun i => H (i + 1))]

theorem scanIter_copy (m : Matcher) : ∀ (x tail : Str) (k : Nat),
    (∀ i, i < x.length → m (x.drop i ++ tail) = none) →
    scanIter m (x.length + k) (x ++ tail) = x ++ scanIter m k tail := by
  intro x
  induction x with
  | nil => intro tail k _; simp
  | cons c x2 ih =>
    intro tail k H
    have h0 : m (c :: (x2 ++ tail)) = none := by
      have := H 0 (by simp)
      simpa using this
    have hfuel : (c :: x2).length + k = (x2.length + k) + 1 := by
      simp [List.length_cons]
      omega
    rw [hfuel]
    show scanIter m ((x2.length + k) + 1) (c :: (x2 ++ tail)) = _
    rw [scanIter_cons_none m _ c _ h0]
    rw [ih tail k (fun i hi => by
      have := H (i + 1) (by simpa using Nat.succ_lt_succ hi)
      simpa using this)]
    rfl

/-! ### Character-class facts -/

theorem char_eq_of_toNat (c d : Char) (h : c.toNat = d.toNat) : c = d :=
  Char.ext (UInt32.ext h)

theorem ws_facts (c : Char) (h : isWs c = true) :
    isParenCh c = false ∧ isAmpCh c = false ∧ isWordStart c = false
      ∧ isOpCh c = false ∧ isAz c = false ∧ isWordCh c = false
      ∧ c.toNat ≠ 34 ∧ c.toNat ≠ 40 ∧ c.toNat ≠ 41 := by
  simp [isWs] at h
  simp [isParenCh, isAmpCh, isWordStart, isOpCh, isAz, isWordCh]
  omega

theorem wordCh_facts (c : Char) (h : isWordCh c = true) :
    isWs c = false ∧ isParenCh c = false ∧ isAmpCh c = false ∧ isOpCh c = false := by
  simp [isWordCh, isWordStart, isAz] at h
  simp [isWs, isParenCh, isAmpCh, isOpCh]
  omega

theorem opCh_facts (c : Char) (h : isOpCh c = true) :
    isWs c = false ∧ isParenCh c = false ∧ isAmpCh c = false ∧ isWordStart c = false := by
  simp [isOpCh] at h
  simp [isWs, isParenCh, isAmpCh, isWordStart, isAz]
  omega

theorem countP_ws_zero (p : Char → Bool) (hp : ∀ c, isWs c = true → p c = false)
    (w : Str) (hw : allWs w) : w.countP p = 0 :=
  List.countP_eq_zero.mpr fun a ha => by rw [hp a (hw a ha)]; simp

/-! ### Generic counting lemmas for the scanners -/

theorem scan_cP_le (m : Matcher) (p : Char → Bool)
    (H : ∀ s e r, m s = some (e, r) → ∃ u, s = u ++ r ∧ e.countP p ≤ u.countP p) :
    ∀ (n : Nat) (s : Str), (scanIter m n s).countP p ≤ s.countP p := by
  intro n
  induction n with
  | zero => intro s; exact le_refl _
  | succ n ih =>
    intro s
    cases s with
    | nil => simp [scanIter]
    | cons c cs =>
      cases hm : m (c :: cs) with
      | none =>
        rw [scanIter_cons_none m n c cs hm]
        simp only [List.countP_cons]
        exact Nat.add_le_add_right (ih cs) _
      | some er =>
        obtain ⟨e, r⟩ := er
        rw [scanIter_cons_some m n c cs e r hm]
        obtain ⟨u, hu, hle⟩ := H _ _ _ hm
        rw [hu]
        simp only [List.countP_append]
        exact Nat.add_le_add hle (ih r)

theorem scan_cP_eq (m : Matcher) (p : Char → Bool)
    (H : ∀ s e r, m s = some (e, r) → ∃ u, s = u ++ r ∧ e.countP p = u.countP p) :
    ∀ (n : Nat) (s : Str), (scanIter m n s).countP p = s.countP p := by
  intro n
  induction n with
  | zero => intro s; rfl
  | succ n ih =>
    intro s
    cases s with
    | nil => rfl
    | cons c cs =>
      cases hm : m (c :: cs) with
      | none =>
        rw [scanIter_cons_none m n c cs hm]
        simp only [List.countP_cons]
        rw [ih cs]
      | some er =>
        obtain ⟨e, r⟩ := er
        rw [scanIter_cons_some m n c cs e r hm]
        obtain ⟨u, hu, heq⟩ := H _ _ _ hm
        rw [hu]
        simp only [List.countP_append]
        rw [heq, ih r]

theorem scan_cP_cross (m : Matcher) (p q : Char → Bool)
    (H : ∀ s e r, m s = some (e, r) →
      ∃ u, s = u ++ r ∧ u.countP p + e.countP q = u.countP q + e.countP p) :
    ∀ (n : Nat) (s : Str),
      s.countP p + (scanIter m n s).countP q = s.countP q + (scanIter m n s).countP p := by
  intro n
  induction n with
  | zero => intro s; simp [scanIter]; omega
  | succ n ih =>
    intro s
    cases s with
    | nil => rfl
    | cons c cs =>
      cases hm : m (c :: cs) with
      | none =>
        rw [scanIter_cons_none m n c cs hm]
        simp only [List.countP_cons]
        have := ih cs
        omega
      | some er =>
        obtain ⟨e, r⟩ := er
        rw [scanIter_cons_some m n c cs e r hm]
        obtain ⟨u, hu, heq⟩ := H _ _ _ hm
        rw [hu]
        simp only [List.countP_append]
        have := ih r
        omega

theorem scan_id_or_lt (m : Matcher) (p : Char → Bool)
    (H : ∀ s e r, m s = some (e, r) → ∃ u, s = u ++ r ∧ e.countP p < u.countP p) :
    ∀ (n : Nat) (s : Str),
      scanIter m n s = s ∨ (scanIter m n s).countP p < s.countP p := by
  intro n
  induction n with
  | zero => intro s; exact Or.inl rfl
  | succ n ih =>
    intro s
    cases s with
    | nil => exact Or.inl rfl
    | cons c cs =>
      cases hm : m (c :: cs) with
      | none =>
        rw [scanIter_cons_none m n c cs hm]
        rcases ih cs with h | h
        · rw [h]
          exact Or.inl rfl
        · right
          simp only [List.countP_cons]
          exact Nat.add_lt_add_right h _
      | some er =>
        obtain ⟨e, r⟩ := er
        rw [scanIter_cons_some m n c cs e r hm]
        right
        obtain ⟨u, hu, hlt⟩ := H _ _ _ hm
        rw [hu]
        simp only [List.countP_append]
        have hrest : (scanIter m n r).countP p ≤ r.countP p :=
          scan_cP_le m p (fun s2 e2 r2 h2 => by
            obtain ⟨u2, hu2, hlt2⟩ := H s2 e2 r2 h2
            exact ⟨u2, hu2, Nat.le_of_lt hlt2⟩) n r
        omega

theorem scan_id_no_match (m : Matcher) (p : Char → Bool)
    (H : ∀ s e r, m s = some (e, r) → ∃ u, s = u ++ r ∧ e.countP p < u.countP p)
    (Hnil : m [] = none) :
    ∀ (n : Nat) (s : Str), s.length ≤ n → scanIter m n s = s →
      ∀ i, m (s.drop i) = none := by
  intro n
  induction n with
  | zero =>
    intro s hlen _ i
    have : s = [] := List.length_eq_zero.mp (Nat.le_zero.mp hlen)
    subst this
    simpa using Hnil
  | succ n ih =>
    intro s hlen hid i
    cases s with
    | nil => simpa using Hnil
    | cons c cs =>
      cases hm : m (c :: cs) with
      | some er =>
        obtain ⟨e, r⟩ := er
        rw [scanIter_cons_some m n c cs e r hm] at hid
        exfalso
        obtain ⟨u, hu, hlt⟩ := H _ _ _ hm
        have hrest : (scanIter m n r).countP p ≤ r.countP p :=
          scan_cP_le m p (fun s2 e2 r2 h2 => by
            obtain ⟨u2, hu2, hlt2⟩ := H s2 e2 r2 h2
            exact ⟨u2, hu2, Nat.le_of_lt hlt2⟩) n r
        have hcnt := congrArg (List.countP p) hid
        rw [hu] at hcnt
        simp only [List.countP_append] at hcnt
        omega
      | none =>
        rw [scanIter_cons_none m n c cs hm] at hid
        have htail : scanIter m n cs = cs := by
          have := List.cons.injEq c (scanIter m n cs) c cs ▸ hid
          exact (List.cons.inj hid).2
        cases i with
        | zero => simpa using hm
        | succ j =>
          have hlen2 : cs.length ≤ n := by simpa using hlen
          exact ih cs hlen2 htail j

theorem scan_id_of_matches_id (m : Matcher)
    (H : ∀ s e r, m s = some (e, r) → ∃ u, s = u ++ r ∧ e = u) :
    ∀ (n : Nat) (s : Str), scanIter m n s = s := by
  intro n
  induction n with
  | zero => intro s; rfl
  | succ n ih =>
    intro s
    cases s with
    | nil => rfl
    | cons c cs =>
      cases hm : m (c :: cs) with
      | none => rw [scanIter_cons_none m n c cs hm, ih cs]
      | some er =>
        obtain ⟨e, r⟩ := er
        rw [scanIter_cons_some m n c cs e r hm]
        obtain ⟨u, hu, heq⟩ := H _ _ _ hm
        rw [heq, ih r, ← hu]

/-! ### Matcher decompositions -/

theorem grab_cons_pos (p : Char → Bool) (d : Char) (ds : Str) (h : p d = true) :
    grab p (d :: ds) = (d :: (grab p ds).1, (grab p ds).2) := by
  simp [grab, h]

theorem grab_cons_neg (p : Char → Bool) (d : Char) (ds : Str) (h : p d = false) :
    grab p (d :: ds) = ([], d :: ds) := by
  simp [grab, h]

theorem grab_sat (p : Char → Bool) : ∀ (s : Str) (c : Char), c ∈ (grab p s).1 → p c = true := by
  intro s
  induction s with
  | nil => intro c hc; simp [grab] at hc
  | cons d ds ih =>
    intro c hc
    by_cases hp : p d
    · rw [grab_cons_pos p d ds hp] at hc
      rcases List.mem_cons.mp hc with rfl | hc2
      · exact hp
      · exact ih c hc2
    · rw [grab_cons_neg p d ds (by simpa using hp)] at hc
      simp at hc

theorem grab_rest_head (p : Char → Bool) :
    ∀ (s : Str) (c : Char) (ts : Str), (grab p s).2 = c :: ts → p c = false := by
  intro s
  induction s with
  | nil => intro c ts h; simp [grab] at h
  | cons d ds ih =>
    intro c ts h
    by_cases hp : p d
    · rw [grab_cons_pos p d ds hp] at h
      exact ih c ts h
    · rw [grab_cons_neg p d ds (by simpa using hp)] at h
      cases h
      simpa using hp

theorem grab_eq_facts (p : Char → Bool) (s w t : Str) (h : grab p s = (w, t)) :
    (∀ c ∈ w, p c = true) ∧ s = w ++ t ∧ (∀ c ts, t = c :: ts → p c = false) := by
  refine ⟨?_, ?_, ?_⟩
  · intro c hc
    refine grab_sat p s c ?_
    rw [h]
    exact hc
  · have := grab_append p s
    rw [h] at this
    exact this.symm
  · intro c ts hts
    refine grab_rest_head p s c ts ?_
    rw [h]
    exact hts

theorem readConn_some (t c r : Str) (h : readConn t = some (c, r)) :
    isConnPair c ∧ t = c ++ r := by
  cases t with
  | nil => simp [readConn] at h
  | cons c1 rest =>
    cases rest with
    | nil => simp [readConn] at h
    | cons c2 r2 =>
      simp only [readConn] at h
      split_ifs at h with h1 h2
      · obtain ⟨rfl, rfl⟩ : c = ['&', '&'] ∧ r2 = r := by
          simpa [eq_comm] using h
        exact ⟨Or.inl rfl, by simp [h1.1, h1.2]⟩
      · obtain ⟨rfl, rfl⟩ : c = ['|', '|'] ∧ r2 = r := by
          simpa [eq_comm] using h
        exact ⟨Or.inr rfl, by simp [h2.1, h2.2]⟩

theorem m1_decomp (s e r : Str) (h : m1 s = some (e, r)) :
    ∃ w, allWs w ∧ s = ('(' :: (w ++ [')'])) ++ r ∧ e = [] := by
  cases s with
  | nil => simp [m1] at h
  | cons a t =>
    simp only [m1] at h
    split_ifs at h with ha
    · subst ha
      obtain ⟨w, t1, hg⟩ : ∃ u v, grab isWs t = (u, v) := ⟨_, _, rfl⟩
      obtain ⟨hw, ht, _⟩ := grab_eq_facts _ _ _ _ hg
      rw [hg] at h
      simp only at h
      cases t1 with
      | nil => simp at h
      | cons d ds =>
        simp only at h
        split_ifs at h with hd
        · subst hd
          obtain ⟨rfl, rfl⟩ : ([] : Str) = e ∧ ds = r := by simpa using h
          exact ⟨w, hw, by rw [ht]; simp, rfl⟩

theorem m2_decomp (s e r : Str) (h : m2 s = some (e, r)) :
    ∃ w1 c w2, allWs w1 ∧ isConnPair c ∧ allWs w2 ∧
      s = (w1 ++ c ++ (w2 ++ [')'])) ++ r ∧ e = [')'] := by
  simp only [m2] at h
  obtain ⟨w1, t1, hg1⟩ : ∃ u v, grab isWs s = (u, v) := ⟨_, _, rfl⟩
  obtain ⟨hw1, hs1, _⟩ := grab_eq_facts _ _ _ _ hg1
  rw [hg1] at h
  simp only at h
  cases hrc : readConn t1 with
  | none => rw [hrc] at h; simp at h
  | some cs2 =>
    obtain ⟨c, s2⟩ := cs2
    rw [hrc] at h
    simp only at h
    obtain ⟨hcp, ht1⟩ := readConn_some _ _ _ hrc
    obtain ⟨w2, t2, hg2⟩ : ∃ u v, grab isWs s2 = (u, v) := ⟨_, _, rfl⟩
    obtain ⟨hw2, hs2, _⟩ := grab_eq_facts _ _ _ _ hg2
    rw [hg2] at h
    simp only at h
    cases t2 with
    | nil => simp at h
    | cons d ds =>
      simp only at h
      split_ifs at h with hd
      · subst hd
        obtain ⟨rfl, rfl⟩ : ([')'] : Str) = e ∧ ds = r := by simpa using h
        refine ⟨w1, c, w2, hw1, hcp, hw2, ?_, rfl⟩
        rw [hs1, ht1, hs2]
        simp [List.append_assoc]

theorem m3_decomp (s e r : Str) (h : m3 s = some (e, r)) :
    ∃ w1 c w2, allWs w1 ∧ isConnPair c ∧ allWs w2 ∧
      s = ('(' :: (w1 ++ c ++ w2)) ++ r ∧ e = ['('] := by
  cases s with
  | nil => simp [m3] at h
  | cons a t =>
    simp only [m3] at h
    split_ifs at h with ha
    · subst ha
      obtain ⟨w1, t1, hg1⟩ : ∃ u v, grab isWs t = (u, v) := ⟨_, _, rfl⟩
      obtain ⟨hw1, ht, _⟩ := grab_eq_facts _ _ _ _ hg1
      rw [hg1] at h
      simp only at h
      cases hrc : readConn t1 with
      | none => rw [hrc] at h; simp at h
      | some cs2 =>
        obtain ⟨c, s2⟩ := cs2
        rw [hrc] at h
        simp only at h
        obtain ⟨hcp, ht1⟩ := readConn_some _ _ _ hrc
        obtain ⟨w2, t2, hg2⟩ : ∃ u v, grab isWs s2 = (u, v) := ⟨_, _, rfl⟩
        obtain ⟨hw2, hs2, _⟩ := grab_eq_facts _ _ _ _ hg2
        rw [hg2] at h
        simp only at h
        obtain ⟨rfl, rfl⟩ : (['('] : Str) = e ∧ t2 = r := by simpa using h
        refine ⟨w1, c, w2, hw1, hcp, hw2, ?_, rfl⟩
        rw [ht, ht1, hs2]
        simp [List.append_assoc]

theorem m4_decomp (s e r : Str) (h : m4 s = some (e, r)) :
    ∃ w1 c1 w2 c2 w3, allWs w1 ∧ isConnPair c1 ∧ allWs w2 ∧ w2 ≠ [] ∧
      isConnPair c2 ∧ allWs w3 ∧
      s = (w1 ++ c1 ++ w2 ++ c2 ++ w3) ++ r ∧ e = ' ' :: (c2 ++ [' ']) := by
  simp only [m4] at h
  obtain ⟨w1, t1, hg1⟩ : ∃ u v, grab isWs s = (u, v) := ⟨_, _, rfl⟩
  obtain ⟨hw1, hs1, _⟩ := grab_eq_facts _ _ _ _ hg1
  rw [hg1] at h
  simp only at h
  cases hrc : readConn t1 with
  | none => rw [hrc] at h; simp at h
  | some cs2 =>
    obtain ⟨c1, s2⟩ := cs2
    rw [hrc] at h
    simp only at h
    obtain ⟨hcp1, ht1⟩ := readConn_some _ _ _ hrc
    obtain ⟨w2, t2, hg2⟩ : ∃ u v, grab isWs s2 = (u, v) := ⟨_, _, rfl⟩
    obtain ⟨hw2, hs2, _⟩ := grab_eq_facts _ _ _ _ hg2
    rw [hg2] at h
    simp only at h
    split_ifs at h with hw2e
    cases hrc2 : readConn t2 with
    | none => rw [hrc2] at h; simp at h
    | some cs4 =>
      obtain ⟨c2, s4⟩ := cs4
      rw [hrc2] at h
      simp only at h
      obtain ⟨hcp2, ht2⟩ := readConn_some _ _ _ hrc2
      obtain ⟨w3, t4, hg3⟩ : ∃ u v, grab isWs s4 = (u, v) := ⟨_, _, rfl⟩
      obtain ⟨hw3, hs4, _⟩ := grab_eq_facts _ _ _ _ hg3
      rw [hg3] at h
      simp only at h
      obtain ⟨rfl, rfl⟩ : ' ' :: (c2 ++ [' ']) = e ∧ t4 = r := by simpa using h
      refine ⟨w1, c1, w2, c2, w3, hw1, hcp1, hw2, ?_, hcp2, hw3, ?_, rfl⟩
      · intro hnil
        rw [hnil] at hw2e
        simp at hw2e
      · rw [hs1, ht1, hs2, ht2, hs4]
        simp [List.append_assoc]

theorem m5_decomp (s e r : Str) (h : m5 s = some (e, r)) :
    ∃ w1 c w2, allWs w1 ∧ isConnPair c ∧ allWs w2 ∧
      s = w1 ++ c ++ w2 ∧ e = [] ∧ r = [] := by
  simp only [m5] at h
  obtain ⟨w1, t1, hg1⟩ : ∃ u v, grab isWs s = (u, v) := ⟨_, _, rfl⟩
  obtain ⟨hw1, hs1, _⟩ := grab_eq_facts _ _ _ _ hg1
  rw [hg1] at h
  simp only at h
  cases hrc : readConn t1 with
  | none => rw [hrc] at h; simp at h
  | some cs2 =>
    obtain ⟨c, s2⟩ := cs2
    rw [hrc] at h
    simp only at h
    obtain ⟨hcp, ht1⟩ := readConn_some _ _ _ hrc
    obtain ⟨w2, t2, hg2⟩ : ∃ u v, grab isWs s2 = (u, v) := ⟨_, _, rfl⟩
    obtain ⟨hw2, hs2, _⟩ := grab_eq_facts _ _ _ _ hg2
    rw [hg2] at h
    simp only at h
    split_ifs at h with hse
    · obtain ⟨rfl, rfl⟩ : ([] : Str) = e ∧ ([] : Str) = r := by simpa using h
      have hnil : t2 = [] := by rwa [List.isEmpty_iff] at hse
      refine ⟨w1, c, w2, hw1, hcp, hw2, ?_, rfl, rfl⟩
      rw [hs1, ht1, hs2, hnil]
      simp [List.append_assoc]

theorem m6_decomp (s e r : Str) (h : m6 s = some (e, r)) :
    ∃ w1 c w2, allWs w1 ∧ isConnPair c ∧ allWs w2 ∧
      s = (w1 ++ c ++ w2) ++ r ∧ e = [] := by
  simp only [m6] at h
  obtain ⟨w1, t1, hg1⟩ : ∃ u v, grab isWs s = (u, v) := ⟨_, _, rfl⟩
  obtain ⟨hw1, hs1, _⟩ := grab_eq_facts _ _ _ _ hg1
  rw [hg1] at h
  simp only at h
  cases hrc : readConn t1 with
  | none => rw [hrc] at h; simp at h
  | some cs2 =>
    obtain ⟨c, s2⟩ := cs2
    rw [hrc] at h
    simp only at h
    obtain ⟨hcp, ht1⟩ := readConn_some _ _ _ hrc
    obtain ⟨w2, t2, hg2⟩ : ∃ u v, grab isWs s2 = (u, v) := ⟨_, _, rfl⟩
    obtain ⟨hw2, hs2, _⟩ := grab_eq_facts _ _ _ _ hg2
    rw [hg2] at h
    simp only at h
    obtain ⟨rfl, rfl⟩ : ([] : Str) = e ∧ t2 = r := by simpa using h
    refine ⟨w1, c, w2, hw1, hcp, hw2, ?_, rfl⟩
    rw [hs1, ht1, hs2]
    simp [List.append_assoc]

theorem m7_decomp (s e r : Str) (h : m7 s = some (e, r)) :
    ∃ L wrd ops, isWordStart L = true ∧ (∀ c ∈ wrd, isWordCh c = true) ∧
      (∀ c ∈ ops, isOpCh c = true) ∧ ops ≠ [] ∧
      s = (')' :: L :: (wrd ++ ops)) ++ r ∧
      e = ')' :: ' ' :: '&' :: '&' :: ' ' :: L :: (wrd ++ ops) := by
  cases s with
  | nil => simp [m7] at h
  | cons a s1 =>
    cases s1 with
    | nil => simp [m7] at h
    | cons c t =>
      simp only [m7] at h
      obtain ⟨wrd, t1, hg1⟩ : ∃ u v, grab isWordCh t = (u, v) := ⟨_, _, rfl⟩
      obtain ⟨hwrd, ht, _⟩ := grab_eq_facts _ _ _ _ hg1
      obtain ⟨ops, t2, hg2⟩ : ∃ u v, grab isOpCh t1 = (u, v) := ⟨_, _, rfl⟩
      obtain ⟨hops, ht1, _⟩ := grab_eq_facts _ _ _ _ hg2
      rw [hg1] at h
      simp only at h
      rw [hg2] at h
      simp only at h
      split_ifs at h with hac hoe
      · simp only [Bool.and_eq_true] at hac
        have ha : a = ')' := by simpa using hac.1
        subst ha
        obtain ⟨rfl, rfl⟩ :
            ')' :: ' ' :: '&' :: '&' :: ' ' :: c :: (wrd ++ ops) = e ∧ t2 = r := by
          simpa using h
        refine ⟨c, wrd, ops, hac.2, hwrd, hops, ?_, ?_, rfl⟩
        · intro hnil
          rw [hnil] at hoe
          simp at hoe
        · rw [ht, ht1]
          simp [List.append_assoc]

theorem m8_decomp (s e r : Str) (h : m8 s = some (e, r)) :
    ∃ w1 c w2, allWs w1 ∧ isConnPair c ∧ allWs w2 ∧
      s = (w1 ++ c ++ w2) ++ r ∧ e = ' ' :: (c ++ [' ']) := by
  simp only [m8] at h
  obtain ⟨w1, t1, hg1⟩ : ∃ u v, grab isWs s = (u, v) := ⟨_, _, rfl⟩
  obtain ⟨hw1, hs1, _⟩ := grab_eq_facts _ _ _ _ hg1
  rw [hg1] at h
  simp only at h
  cases hrc : readConn t1 with
  | none => rw [hrc] at h; simp at h
  | some cs2 =>
    obtain ⟨c, s2⟩ := cs2
    rw [hrc] at h
    simp only at h
    obtain ⟨hcp, ht1⟩ := readConn_some _ _ _ hrc
    obtain ⟨w2, t2, hg2⟩ : ∃ u v, grab isWs s2 = (u, v) := ⟨_, _, rfl⟩
    obtain ⟨hw2, hs2, _⟩ := grab_eq_facts _ _ _ _ hg2
    rw [hg2] at h
    simp only at h
    obtain ⟨rfl, rfl⟩ : ' ' :: (c ++ [' ']) = e ∧ t2 = r := by simpa using h
    refine ⟨w1, c, w2, hw1, hcp, hw2, ?_, rfl⟩
    rw [hs1, ht1, hs2]
    simp [List.append_assoc]

theorem m10_decomp (s e r : Str) (h : m10 s = some (e, r)) :
    ∃ w L, allWs w ∧ isAz L = true ∧
      s = ('(' :: ')' :: (w ++ [L])) ++ r ∧ e = [L] := by
  cases s with
  | nil => simp [m10] at h
  | cons a s1 =>
    cases s1 with
    | nil => simp [m10] at h
    | cons b t =>
      simp only [m10] at h
      split_ifs at h with hab
      · simp only [Bool.and_eq_true] at hab
        have ha : a = '(' := by simpa using hab.1
        have hb : b = ')' := by simpa using hab.2
        subst ha; subst hb
        obtain ⟨w, t1, hg⟩ : ∃ u v, grab isWs t = (u, v) := ⟨_, _, rfl⟩
        obtain ⟨hw, ht, _⟩ := grab_eq_facts _ _ _ _ hg
        rw [hg] at h
        simp only at h
        cases t1 with
        | nil => simp at h
        | cons L ds =>
          simp only at h
          split_ifs at h with hL
          · obtain ⟨rfl, rfl⟩ : ([L] : Str) = e ∧ ds = r := by simpa using h
            refine ⟨w, L, hw, hL, ?_, rfl⟩
            rw [ht]
            simp [List.append_assoc]

theorem m11_decomp (s e r : Str) (h : m11 s = some (e, r)) :
    ∃ d w, (isAz d || d = ')' || d = '"') = true ∧ allWs w ∧
      s = (d :: (w ++ ['(', ')'])) ++ r ∧ e = [d] := by
  cases s with
  | nil => simp [m11] at h
  | cons d t =>
    simp only [m11] at h
    split_ifs at h with hd
    · obtain ⟨w, t1, hg⟩ : ∃ u v, grab isWs t = (u, v) := ⟨_, _, rfl⟩
      obtain ⟨hw, ht, _⟩ := grab_eq_facts _ _ _ _ hg
      rw [hg] at h
      simp only at h
      cases t1 with
      | nil => simp at h
      | cons a s1 =>
        cases s1 with
        | nil => simp at h
        | cons b ds =>
          simp only at h
          split_ifs at h with hab
          · simp only [Bool.and_eq_true] at hab
            have ha : a = '(' := by simpa using hab.1
            have hb : b = ')' := by simpa using hab.2
            subst ha; subst hb
            obtain ⟨rfl, rfl⟩ : ([d] : Str) = e ∧ ds = r := by simpa using h
            refine ⟨d, w, by simpa using hd, hw, ?_, rfl⟩
            rw [ht]
            simp [List.append_assoc]

theorem m12_decomp (s e r : Str) (h : m12 s = some (e, r)) :
    ∃ d w, isWs d = true ∧ allWs w ∧ s = (d :: w) ++ r ∧ e = [' '] := by
  cases s with
  | nil => simp [m12] at h
  | cons d t =>
    simp only [m12] at h
    split_ifs at h with hd
    · obtain ⟨w, t1, hg⟩ : ∃ u v, grab isWs t = (u, v) := ⟨_, _, rfl⟩
      obtain ⟨hw, ht, _⟩ := grab_eq_facts _ _ _ _ hg
      rw [hg] at h
      simp only at h
      obtain ⟨rfl, rfl⟩ : ([' '] : Str) = e ∧ t1 = r := by simpa using h
      exact ⟨d, w, hd, hw, by simp [ht], rfl⟩

/-! ### Per-rule character counts.

For any character predicate `p` that is false on whitespace (and does not
distinguish `&` from `|`), the count of `p` in the text consumed and
emitted by each rule is determined by `p`'s values on the rule's literal
characters. -/

theorem countP_conn (p : Char → Bool) (hamp : p '&' = p '|') (c : Str)
    (h : isConnPair c) : c.countP p = if p '&' then 2 else 0 := by
  rcases h with rfl | rfl <;> by_cases hA : p '&' = true <;>
    simp [List.countP_cons, ← hamp, hA]

theorem m1_countP (p : Char → Bool) (hp : ∀ c, isWs c = true → p c = false) :
    ∀ s e r, m1 s = some (e, r) → ∃ u, s = u ++ r ∧
      u.countP p = (if p '(' then 1 else 0) + (if p ')' then 1 else 0) ∧
      e.countP p = 0 := by
  intro s e r h
  obtain ⟨w, hw, hs, he⟩ := m1_decomp s e r h
  subst he
  refine ⟨_, hs, ?_, rfl⟩
  have h1 := countP_ws_zero p hp w hw
  by_cases hO : p '(' = true <;> by_cases hC : p ')' = true <;>
    simp [List.countP_append, List.countP_cons, h1, hO, hC]

theorem m2_countP (p : Char → Bool) (hp : ∀ c, isWs c = true → p c = false)
    (hamp : p '&' = p '|') :
    ∀ s e r, m2 s = some (e, r) → ∃ u, s = u ++ r ∧
      u.countP p = (if p '&' then 2 else 0) + (if p ')' then 1 else 0) ∧
      e.countP p = (if p ')' then 1 else 0) := by
  intro s e r h
  obtain ⟨w1, c, w2, hw1, hcp, hw2, hs, he⟩ := m2_decomp s e r h
  subst he
  refine ⟨_, hs, ?_, ?_⟩
  · have h1 := countP_ws_zero p hp w1 hw1
    have h2 := countP_ws_zero p hp w2 hw2
    have h3 := countP_conn p hamp c hcp
    by_cases hA : p '&' = true <;> by_cases hC : p ')' = true <;>
      simp [List.countP_append, List.countP_cons, h1, h2, h3, hA, hC]
  · by_cases hC : p ')' = true <;> simp [List.countP_cons, hC]

theorem m3_countP (p : Char → Bool) (hp : ∀ c, isWs c = true → p c = false)
    (hamp : p '&' = p '|') :
    ∀ s e r, m3 s = some (e, r) → ∃ u, s = u ++ r ∧
      u.countP p = (if p '&' then 2 else 0) + (if p '(' then 1 else 0) ∧
      e.countP p = (if p '(' then 1 else 0) := by
  intro s e r h
  obtain ⟨w1, c, w2, hw1, hcp, hw2, hs, he⟩ := m3_decomp s e r h
  subst he
  refine ⟨_, hs, ?_, ?_⟩
  · have h1 := countP_ws_zero p hp w1 hw1
    have h2 := countP_ws_zero p hp w2 hw2
    have h3 := countP_conn p hamp c hcp
    by_cases hA : p '&' = true <;> by_cases hO : p '(' = true <;>
      simp [List.countP_append, List.countP_cons, h1, h2, h3, hA, hO]
  · by_cases hO : p '(' = true <;> simp [List.countP_cons, hO]

theorem m4_countP (p : Char → Bool) (hp : ∀ c, isWs c = true → p c = false)
    (hamp : p '&' = p '|') :
    ∀ s e r, m4 s = some (e, r) → ∃ u, s = u ++ r ∧
      u.countP p = (if p '&' then 4 else 0) ∧
      e.countP p = (if p '&' then 2 else 0) := by
  intro s e r h
  obtain ⟨w1, c1, w2, c2, w3, hw1, hcp1, hw2, _, hcp2, hw3, hs, he⟩ := m4_decomp s e r h
  subst he
  have hsp : p ' ' = false := hp ' ' (by decide)
  refine ⟨_, hs, ?_, ?_⟩
  · have h1 := countP_ws_zero p hp w1 hw1
    have h2 := countP_ws_zero p hp w2 hw2
    have h3 := countP_ws_zero p hp w3 hw3
    have h4 := countP_conn p hamp c1 hcp1
    have h5 := countP_conn p hamp c2 hcp2
    by_cases hA : p '&' = true <;>
      simp [List.countP_append, List.countP_cons, h1, h2, h3, h4, h5, hA]
  · have h5 := countP_conn p hamp c2 hcp2
    by_cases hA : p '&' = true <;>
      simp [List.countP_append, List.countP_cons, h5, hsp, hA]

theorem m5_countP (p : Char → Bool) (hp : ∀ c, isWs c = true → p c = false)
    (hamp : p '&' = p '|') :
    ∀ s e r, m5 s = some (e, r) → ∃ u, s = u ++ r ∧
      u.countP p = (if p '&' then 2 else 0) ∧
      e.countP p = 0 ∧ r = [] := by
  intro s e r h
  obtain ⟨w1, c, w2, hw1, hcp, hw2, hs, he, hr⟩ := m5_decomp s e r h
  subst he
  subst hr
  refine ⟨w1 ++ c ++ w2, by simpa using hs, ?_, rfl, rfl⟩
  have h1 := countP_ws_zero p hp w1 hw1
  have h2 := countP_ws_zero p hp w2 hw2
  have h3 := countP_conn p hamp c hcp
  by_cases hA : p '&' = true <;>
    simp [List.countP_append, List.countP_cons, h1, h2, h3, hA]

theorem m6_countP (p : Char → Bool) (hp : ∀ c, isWs c = true → p c = false)
    (hamp : p '&' = p '|') :
    ∀ s e r, m6 s = some (e, r) → ∃ u, s = u ++ r ∧
      u.countP p = (if p '&' then 2 else 0) ∧
      e.countP p = 0 := by
  intro s e r h
  obtain ⟨w1, c, w2, hw1, hcp, hw2, hs, he⟩ := m6_decomp s e r h
  subst he
  refine ⟨_, hs, ?_, rfl⟩
  have h1 := countP_ws_zero p hp w1 hw1
  have h2 := countP_ws_zero p hp w2 hw2
  have h3 := countP_conn p hamp c hcp
  by_cases hA : p '&' = true <;>
    simp [List.countP_append, List.countP_cons, h1, h2, h3, hA]

theorem m7_countP (p : Char → Bool) (hp : ∀ c, isWs c = true → p c = false) :
    ∀ s e r, m7 s = some (e, r) → ∃ u, s = u ++ r ∧
      e.countP p = u.countP p + (if p '&' then 2 else 0) := by
  intro s e r h
  obtain ⟨L, wrd, ops, _, _, _, _, hs, he⟩ := m7_decomp s e r h
  subst he
  have hsp : p ' ' = false := hp ' ' (by decide)
  refine ⟨_, hs, ?_⟩
  by_cases hA : p '&' = true <;>
    simp [List.countP_append, List.countP_cons, hsp, hA] <;> omega

theorem m8_countP (p : Char → Bool) (hp : ∀ c, isWs c = true → p c = false)
    (hamp : p '&' = p '|') :
    ∀ s e r, m8 s = some (e, r) → ∃ u, s = u ++ r ∧
      e.countP p = u.countP p := by
  intro s e r h
  obtain ⟨w1, c, w2, hw1, hcp, hw2, hs, he⟩ := m8_decomp s e r h
  subst he
  have hsp : p ' ' = false := hp ' ' (by decide)
  refine ⟨_, hs, ?_⟩
  have h1 := countP_ws_zero p hp w1 hw1
  have h2 := countP_ws_zero p hp w2 hw2
  have h3 := countP_conn p hamp c hcp
  by_cases hA : p '&' = true <;>
    simp [List.countP_append, List.countP_cons, h1, h2, h3, hsp, hA]

theorem m10_countP (p : Char → Bool) (hp : ∀ c, isWs c = true → p c = false) :
    ∀ s e r, m10 s = some (e, r) → ∃ u, s = u ++ r ∧
      u.countP p = e.countP p + (if p '(' then 1 else 0) + (if p ')' then 1 else 0) := by
  intro s e r h
  obtain ⟨w, L, hw, _, hs, he⟩ := m10_decomp s e r h
  subst he
  refine ⟨_, hs, ?_⟩
  have h1 := countP_ws_zero p hp w hw
  by_cases hO : p '(' = true <;> by_cases hC : p ')' = true <;>
    simp [List.countP_append, List.countP_cons, h1, hO, hC] <;> omega

theorem m11_countP (p : Char → Bool) (hp : ∀ c, isWs c = true → p c = false) :
    ∀ s e r, m11 s = some (e, r) → ∃ u, s = u ++ r ∧
      u.countP p = e.countP p + (if p '(' then 1 else 0) + (if p ')' then 1 else 0) := by
  intro s e r h
  obtain ⟨d, w, _, hw, hs, he⟩ := m11_decomp s e r h
  subst he
  refine ⟨_, hs, ?_⟩
  have h1 := countP_ws_zero p hp w hw
  by_cases hO : p '(' = true <;> by_cases hC : p ')' = true <;>
    simp [List.countP_append, List.countP_cons, h1, hO, hC] <;> omega

theorem m12_countP (p : Char → Bool) (hp : ∀ c, isWs c = true → p c = false) :
    ∀ s e r, m12 s = some (e, r) → ∃ u, s = u ++ r ∧
      u.countP p = 0 ∧ e.countP p = 0 := by
  intro s e r h
  obtain ⟨d, w, hd, hw, hs, he⟩ := m12_decomp s e r h
  subst he
  have hsp : p ' ' = false := hp ' ' (by decide)
  refine ⟨_, hs, ?_, ?_⟩
  · have h1 := countP_ws_zero p hp w hw
    have h2 := hp d hd
    simp [List.countP_cons, h1, h2]
  · simp [List.countP_cons, hsp]

/-! ### Rules 5 and 6 and the trim, as whole-string transforms -/

theorem firstIter_id_or (m : Matcher) : ∀ (n : Nat) (s : Str),
    firstIter m n s = s ∨
      ∃ a t e r, s = a ++ t ∧ m t = some (e, r) ∧ firstIter m n s = a ++ (e ++ r) := by
  intro n
  induction n with
  | zero => intro s; exact Or.inl rfl
  | succ n ih =>
    intro s
    cases s with
    | nil => exact Or.inl rfl
    | cons c cs =>
      cases hm : m (c :: cs) with
      | some er =>
        obtain ⟨e, r⟩ := er
        right
        refine ⟨[], c :: cs, e, r, rfl, hm, ?_⟩
        simp [firstIter, hm]
      | none =>
        rcases ih cs with hid | ⟨a, t, e, r, hcs, hm2, hres⟩
        · left
          simp [firstIter, hm, hid]
        · right
          refine ⟨c :: a, t, e, r, by rw [hcs]; rfl, hm2, ?_⟩
          simp [firstIter, hm, hres]

theorem rule5_id_or (s : Str) :
    rule5 s = s ∨
      ∃ a w1 c w2, allWs w1 ∧ isConnPair c ∧ allWs w2 ∧
        s = a ++ (w1 ++ c ++ w2) ∧ rule5 s = a := by
  rcases firstIter_id_or m5 s.length s with hid | ⟨a, t, e, r, hs, hm, hres⟩
  · exact Or.inl hid
  · right
    obtain ⟨w1, c, w2, hw1, hcp, hw2, ht, he, hr⟩ := m5_decomp t e r hm
    subst he; subst hr
    refine ⟨a, w1, c, w2, hw1, hcp, hw2, by rw [hs, ht], ?_⟩
    have h2 : rule5 s = a ++ ([] ++ []) := hres
    simpa using h2

theorem rule6_id_or (s : Str) :
    rule6 s = s ∨
      ∃ w1 c w2, allWs w1 ∧ isConnPair c ∧ allWs w2 ∧
        s = (w1 ++ c ++ w2) ++ rule6 s := by
  cases hm : m6 s with
  | none => left; simp [rule6, hm]
  | some er =>
    obtain ⟨e, r⟩ := er
    right
    obtain ⟨w1, c, w2, hw1, hcp, hw2, hs, _⟩ := m6_decomp s e r hm
    have hr : rule6 s = r := by simp [rule6, hm]
    exact ⟨w1, c, w2, hw1, hcp, hw2, by rw [hr]; exact hs⟩

theorem trim_decomp (s : Str) :
    ∃ w1 w2, allWs w1 ∧ allWs w2 ∧ s = w1 ++ (trimStr s ++ w2) := by
  refine ⟨s.takeWhile isWs, ((s.dropWhile isWs).reverse.takeWhile isWs).reverse,
    ?_, ?_, ?_⟩
  · intro c hc
    exact List.mem_takeWhile_imp hc
  · intro c hc
    rw [List.mem_reverse] at hc
    exact List.mem_takeWhile_imp hc
  · unfold trimStr
    conv_lhs => rw [← List.takeWhile_append_dropWhile isWs s]
    congr 1
    conv_lhs => rw [← List.reverse_reverse (s.dropWhile isWs)]
    conv_lhs =>
      rw [← List.takeWhile_append_dropWhile isWs (s.dropWhile isWs).reverse]
    rw [List.reverse_append]

theorem trim_countP (p : Char → Bool) (hp : ∀ c, isWs c = true → p c = false)
    (s : Str) : (trimStr s).countP p = s.countP p := by
  obtain ⟨w1, w2, hw1, hw2, hs⟩ := trim_decomp s
  conv_rhs => rw [hs]
  simp [List.countP_append, countP_ws_zero p hp w1 hw1, countP_ws_zero p hp w2 hw2]

/-! ### Parenthesis bookkeeping across one pass -/

theorem parenWs : ∀ c, isWs c = true → isParenCh c = false :=
  fun c hc => (ws_facts c hc).1

theorem openWs : ∀ c, isWs c = true → isOpenCh c = false := by
  intro c hc
  have := (ws_facts c hc).2.2.2.2.2.2.2
  simp [isOpenCh]
  omega

theorem closeWs : ∀ c, isWs c = true → isCloseCh c = false := by
  intro c hc
  have := (ws_facts c hc).2.2.2.2.2.2.2
  simp [isCloseCh]
  omega

theorem rule5_countP_eq (p : Char → Bool) (hp : ∀ c, isWs c = true → p c = false)
    (hA : p '&' = false) (hB : p '|' = false) (s : Str) :
    (rule5 s).countP p = s.countP p := by
  rcases rule5_id_or s with hid | ⟨a, w1, c, w2, hw1, hcp, hw2, hs, hres⟩
  · rw [hid]
  · rw [hres, hs]
    have h3 := countP_conn p (by rw [hA, hB]) c hcp
    rw [hA] at h3
    simp [List.countP_append, countP_ws_zero p hp w1 hw1,
      countP_ws_zero p hp w2 hw2, h3]

theorem rule6_countP_eq (p : Char → Bool) (hp : ∀ c, isWs c = true → p c = false)
    (hA : p '&' = false) (hB : p '|' = false) (s : Str) :
    (rule6 s).countP p = s.countP p := by
  rcases rule6_id_or s with hid | ⟨w1, c, w2, hw1, hcp, hw2, hs⟩
  · rw [hid]
  · conv_rhs => rw [hs]
    have h3 := countP_conn p (by rw [hA, hB]) c hcp
    rw [hA] at h3
    simp [List.countP_append, countP_ws_zero p hp w1 hw1,
      countP_ws_zero p hp w2 hw2, h3]

theorem paren_le_m1 (x : Str) :
    (applyRep m1 x).countP isParenCh ≤ x.countP isParenCh :=
  scan_cP_le m1 isParenCh (fun s e r h => by
    obtain ⟨u, hu, h1, h2⟩ := m1_countP isParenCh parenWs s e r h
    exact ⟨u, hu, by simp [h1, h2]⟩) x.length x

theorem paren_le_m2 (x : Str) :
    (applyRep m2 x).countP isParenCh ≤ x.countP isParenCh :=
  scan_cP_le m2 isParenCh (fun s e r h => by
    obtain ⟨u, hu, h1, h2⟩ := m2_countP isParenCh parenWs (by decide) s e r h
    refine ⟨u, hu, ?_⟩
    rw [h1, h2, show isParenCh '&' = false from by decide,
      show isParenCh ')' = true from by decide]
    simp) x.length x

theorem paren_le_m3 (x : Str) :
    (applyRep m3 x).countP isParenCh ≤ x.countP isParenCh :=
  scan_cP_le m3 isParenCh (fun s e r h => by
    obtain ⟨u, hu, h1, h2⟩ := m3_countP isParenCh parenWs (by decide) s e r h
    refine ⟨u, hu, ?_⟩
    rw [h1, h2, show isParenCh '&' = false from by decide,
      show isParenCh '(' = true from by decide]
    simp) x.length x

theorem paren_le_m4 (x : Str) :
    (applyRep m4 x).countP isParenCh ≤ x.countP isParenCh :=
  scan_cP_le m4 isParenCh (fun s e r h => by
    obtain ⟨u, hu, h1, h2⟩ := m4_countP isParenCh parenWs (by decide) s e r h
    refine ⟨u, hu, ?_⟩
    rw [h1, h2, show isParenCh '&' = false from by decide]
    simp) x.length x

theorem paren_le_m7 (x : Str) :
    (applyRep m7 x).countP isParenCh ≤ x.countP isParenCh :=
  scan_cP_le m7 isParenCh (fun s e r h => by
    obtain ⟨u, hu, h1⟩ := m7_countP isParenCh parenWs s e r h
    refine ⟨u, hu, ?_⟩
    rw [h1, show isParenCh '&' = false from by decide]
    simp) x.length x

theorem paren_le_m8 (x : Str) :
    (applyRep m8 x).countP isParenCh ≤ x.countP isParenCh :=
  scan_cP_le m8 isParenCh (fun s e r h => by
    obtain ⟨u, hu, h1⟩ := m8_countP isParenCh parenWs (by decide) s e r h
    exact ⟨u, hu, Nat.le_of_eq h1⟩) x.length x

theorem paren_le_m10 (x : Str) :
    (applyRep m10 x).countP isParenCh ≤ x.countP isParenCh :=
  scan_cP_le m10 isParenCh (fun s e r h => by
    obtain ⟨u, hu, h1⟩ := m10_countP isParenCh parenWs s e r h
    exact ⟨u, hu, by rw [h1]; omega⟩) x.length x

theorem paren_le_m11 (x : Str) :
    (applyRep m11 x).countP isParenCh ≤ x.countP isParenCh :=
  scan_cP_le m11 isParenCh (fun s e r h => by
    obtain ⟨u, hu, h1⟩ := m11_countP isParenCh parenWs s e r h
    exact ⟨u, hu, by rw [h1]; omega⟩) x.length x

theorem paren_le_m12 (x : Str) :
    (applyRep m12 x).countP isParenCh ≤ x.countP isParenCh :=
  scan_cP_le m12 isParenCh (fun s e r h => by
    obtain ⟨u, hu, h1, h2⟩ := m12_countP isParenCh parenWs s e r h
    exact ⟨u, hu, by rw [h1, h2]⟩) x.length x

theorem m1_paren_strict : ∀ s e r, m1 s = some (e, r) →
    ∃ u, s = u ++ r ∧ e.countP isParenCh < u.countP isParenCh := by
  intro s e r h
  obtain ⟨u, hu, h1, h2⟩ := m1_countP isParenCh parenWs s e r h
  refine ⟨u, hu, ?_⟩
  rw [h1, h2, show isParenCh '(' = true from by decide,
    show isParenCh ')' = true from by decide]
  simp

theorem paren_idlt_m1 (x : Str) :
    applyRep m1 x = x ∨ (applyRep m1 x).countP isParenCh < x.countP isParenCh :=
  scan_id_or_lt m1 isParenCh m1_paren_strict x.length x

theorem paren_idlt_m10 (x : Str) :
    applyRep m10 x = x ∨ (applyRep m10 x).countP isParenCh < x.countP isParenCh :=
  scan_id_or_lt m10 isParenCh (fun s e r h => by
    obtain ⟨u, hu, h1⟩ := m10_countP isParenCh parenWs s e r h
    refine ⟨u, hu, ?_⟩
    have e1 : (if isParenCh '(' = true then 1 else 0) = 1 := by decide
    have e2 : (if isParenCh ')' = true then 1 else 0) = 1 := by decide
    rw [h1, e1, e2]
    omega) x.length x

theorem paren_idlt_m11 (x : Str) :
    applyRep m11 x = x ∨ (applyRep m11 x).countP isParenCh < x.countP isParenCh :=
  scan_id_or_lt m11 isParenCh (fun s e r h => by
    obtain ⟨u, hu, h1⟩ := m11_countP isParenCh parenWs s e r h
    refine ⟨u, hu, ?_⟩
    have e1 : (if isParenCh '(' = true then 1 else 0) = 1 := by decide
    have e2 : (if isParenCh ')' = true then 1 else 0) = 1 := by decide
    rw [h1, e1, e2]
    omega) x.length x

/-- At a fixed point of the pass, the empty-bracket rule (rule 1) leaves the
string unchanged: the parenthesis count is non-increasing along the pass and
strictly decreases whenever a paren-removing rule fires. -/
theorem pass_fix_rule1 (r : Str) (h : passOnce r = r) : applyRep m1 r = r := by
  have hpass : trimStr (applyRep m12 (applyRep m11 (applyRep m10 (applyRep m1
      (applyRep m8 (applyRep m7 (rule6 (rule5 (applyRep m4 (applyRep m3
        (applyRep m2 (applyRep m1 r)))))))))))) = r := h
  rcases paren_idlt_m1 r with hid | hlt
  · exact hid
  · exfalso
    have c2 := paren_le_m2 (applyRep m1 r)
    have c3 := paren_le_m3 (applyRep m2 (applyRep m1 r))
    have c4 := paren_le_m4 (applyRep m3 (applyRep m2 (applyRep m1 r)))
    have c5 := rule5_countP_eq isParenCh parenWs (by decide) (by decide)
      (applyRep m4 (applyRep m3 (applyRep m2 (applyRep m1 r))))
    have c6 := rule6_countP_eq isParenCh parenWs (by decide) (by decide)
      (rule5 (applyRep m4 (applyRep m3 (applyRep m2 (applyRep m1 r)))))
    have c7 := paren_le_m7 (rule6 (rule5 (applyRep m4 (applyRep m3 (applyRep m2
      (applyRep m1 r))))))
    have c8 := paren_le_m8 (applyRep m7 (rule6 (rule5 (applyRep m4 (applyRep m3
      (applyRep m2 (applyRep m1 r)))))))
    have c9 := paren_le_m1 (applyRep m8 (applyRep m7 (rule6 (rule5 (applyRep m4
      (applyRep m3 (applyRep m2 (applyRep m1 r))))))))
    have c10 := paren_le_m10 (applyRep m1 (applyRep m8 (applyRep m7 (rule6
      (rule5 (applyRep m4 (applyRep m3 (applyRep m2 (applyRep m1 r)))))))))
    have c11 := paren_le_m11 (applyRep m10 (applyRep m1 (applyRep m8 (applyRep m7
      (rule6 (rule5 (applyRep m4 (applyRep m3 (applyRep m2 (applyRep m1 r))))))))))
    have c12 := paren_le_m12 (applyRep m11 (applyRep m10 (applyRep m1 (applyRep m8
      (applyRep m7 (rule6 (rule5 (applyRep m4 (applyRep m3 (applyRep m2
        (applyRep m1 r)))))))))))
    have c13 := trim_countP isParenCh parenWs (applyRep m12 (applyRep m11
      (applyRep m10 (applyRep m1 (applyRep m8 (applyRep m7 (rule6 (rule5
        (applyRep m4 (applyRep m3 (applyRep m2 (applyRep m1 r))))))))))))
    rw [hpass] at c13
    omega

/-! ### Open/close difference preservation -/

theorem cross_m1 (x : Str) :
    x.countP isOpenCh + (applyRep m1 x).countP isCloseCh
      = x.countP isCloseCh + (applyRep m1 x).countP isOpenCh :=
  scan_cP_cross m1 isOpenCh isCloseCh (fun s e r h => by
    obtain ⟨u, hu, h1, h2⟩ := m1_countP isOpenCh openWs s e r h
    obtain ⟨u2, hu2, h3, h4⟩ := m1_countP isCloseCh closeWs s e r h
    have huu : u2 = u := List.append_cancel_right (hu2.symm.trans hu)
    subst huu
    refine ⟨u2, hu, ?_⟩
    have e1 : (if isOpenCh '(' = true then 1 else 0) = 1 := by decide
    have e2 : (if isOpenCh ')' = true then 1 else 0) = 0 := by decide
    have e3 : (if isCloseCh '(' = true then 1 else 0) = 0 := by decide
    have e4 : (if isCloseCh ')' = true then 1 else 0) = 1 := by decide
    rw [h1, h2, h3, h4, e1, e2, e3, e4]) x.length x

theorem cross_m2 (x : Str) :
    x.countP isOpenCh + (applyRep m2 x).countP isCloseCh
      = x.countP isCloseCh + (applyRep m2 x).countP isOpenCh :=
  scan_cP_cross m2 isOpenCh isCloseCh (fun s e r h => by
    obtain ⟨u, hu, h1, h2⟩ := m2_countP isOpenCh openWs (by decide) s e r h
    obtain ⟨u2, hu2, h3, h4⟩ := m2_countP isCloseCh closeWs (by decide) s e r h
    have huu : u2 = u := List.append_cancel_right (hu2.symm.trans hu)
    subst huu
    refine ⟨u2, hu, ?_⟩
    have e1 : (if isOpenCh '&' = true then 2 else 0) = 0 := by decide
    have e2 : (if isOpenCh ')' = true then 1 else 0) = 0 := by decide
    have e3 : (if isCloseCh '&' = true then 2 else 0) = 0 := by decide
    have e4 : (if isCloseCh ')' = true then 1 else 0) = 1 := by decide
    rw [h1, h2, h3, h4, e1, e2, e3, e4]) x.length x

theorem cross_m3 (x : Str) :
    x.countP isOpenCh + (applyRep m3 x).countP isCloseCh
      = x.countP isCloseCh + (applyRep m3 x).countP isOpenCh :=
  scan_cP_cross m3 isOpenCh isCloseCh (fun s e r h => by
    obtain ⟨u, hu, h1, h2⟩ := m3_countP isOpenCh openWs (by decide) s e r h
    obtain ⟨u2, hu2, h3, h4⟩ := m3_countP isCloseCh closeWs (by decide) s e r h
    have huu : u2 = u := List.append_cancel_right (hu2.symm.trans hu)
    subst huu
    refine ⟨u2, hu, ?_⟩
    have e1 : (if isOpenCh '&' = true then 2 else 0) = 0 := by decide
    have e2 : (if isOpenCh '(' = true then 1 else 0) = 1 := by decide
    have e3 : (if isCloseCh '&' = true then 2 else 0) = 0 := by decide
    have e4 : (if isCloseCh '(' = true then 1 else 0) = 0 := by decide
    rw [h1, h2, h3, h4, e1, e2, e3, e4]) x.length x

theorem cross_m4 (x : Str) :
    x.countP isOpenCh + (applyRep m4 x).countP isCloseCh
      = x.countP isCloseCh + (applyRep m4 x).countP isOpenCh :=
  scan_cP_cross m4 isOpenCh isCloseCh (fun s e r h => by
    obtain ⟨u, hu, h1, h2⟩ := m4_countP isOpenCh openWs (by decide) s e r h
    obtain ⟨u2, hu2, h3, h4⟩ := m4_countP isCloseCh closeWs (by decide) s e r h
    have huu : u2 = u := List.append_cancel_right (hu2.symm.trans hu)
    subst huu
    refine ⟨u2, hu, ?_⟩
    have e1 : (if isOpenCh '&' = true then 4 else 0) = 0 := by decide
    have e2 : (if isOpenCh '&' = true then 2 else 0) = 0 := by decide
    have e3 : (if isCloseCh '&' = true then 4 else 0) = 0 := by decide
    have e4 : (if isCloseCh '&' = true then 2 else 0) = 0 := by decide
    rw [h1, h2, h3, h4, e1, e2, e3, e4]) x.length x

theorem cross_m7 (x : Str) :
    x.countP isOpenCh + (applyRep m7 x).countP isCloseCh
      = x.countP isCloseCh + (applyRep m7 x).countP isOpenCh :=
  scan_cP_cross m7 isOpenCh isCloseCh (fun s e r h => by
    obtain ⟨u, hu, h1⟩ := m7_countP isOpenCh openWs s e r h
    obtain ⟨u2, hu2, h3⟩ := m7_countP isCloseCh closeWs s e r h
    have huu : u2 = u := List.append_cancel_right (hu2.symm.trans hu)
    subst huu
    refine ⟨u2, hu, ?_⟩
    have e1 : (if isOpenCh '&' = true then 2 else 0) = 0 := by decide
    have e2 : (if isCloseCh '&' = true then 2 else 0) = 0 := by decide
    rw [h1, h3, e1, e2]
    omega) x.length x

theorem cross_m8 (x : Str) :
    x.countP isOpenCh + (applyRep m8 x).countP isCloseCh
      = x.countP isCloseCh + (applyRep m8 x).countP isOpenCh :=
  scan_cP_cross m8 isOpenCh isCloseCh (fun s e r h => by
    obtain ⟨u, hu, h1⟩ := m8_countP isOpenCh openWs (by decide) s e r h
    obtain ⟨u2, hu2, h3⟩ := m8_countP isCloseCh closeWs (by decide) s e r h
    have huu : u2 = u := List.append_cancel_right (hu2.symm.trans hu)
    subst huu
    exact ⟨u2, hu, by rw [h1, h3]; omega⟩) x.length x

theorem cross_m10 (x : Str) :
    x.countP isOpenCh + (applyRep m10 x).countP isCloseCh
      = x.countP isCloseCh + (applyRep m10 x).countP isOpenCh :=
  scan_cP_cross m10 isOpenCh isCloseCh (fun s e r h => by
    obtain ⟨u, hu, h1⟩ := m10_countP isOpenCh openWs s e r h
    obtain ⟨u2, hu2, h3⟩ := m10_countP isCloseCh closeWs s e r h
    have huu : u2 = u := List.append_cancel_right (hu2.symm.trans hu)
    subst huu
    refine ⟨u2, hu, ?_⟩
    have e1 : (if isOpenCh '(' = true then 1 else 0) = 1 := by decide
    have e2 : (if isOpenCh ')' = true then 1 else 0) = 0 := by decide
    have e3 : (if isCloseCh '(' = true then 1 else 0) = 0 := by decide
    have e4 : (if isCloseCh ')' = true then 1 else 0) = 1 := by decide
    rw [h1, h3, e1, e2, e3, e4]
    omega) x.length x

theorem cross_m11 (x : Str) :
    x.countP isOpenCh + (applyRep m11 x).countP isCloseCh
      = x.countP isCloseCh + (applyRep m11 x).countP isOpenCh :=
  scan_cP_cross m11 isOpenCh isCloseCh (fun s e r h => by
    obtain ⟨u, hu, h1⟩ := m11_countP isOpenCh openWs s e r h
    obtain ⟨u2, hu2, h3⟩ := m11_countP isCloseCh closeWs s e r h
    have huu : u2 = u := List.append_cancel_right (hu2.symm.trans hu)
    subst huu
    refine ⟨u2, hu, ?_⟩
    have e1 : (if isOpenCh '(' = true then 1 else 0) = 1 := by decide
    have e2 : (if isOpenCh ')' = true then 1 else 0) = 0 := by decide
    have e3 : (if isCloseCh '(' = true then 1 else 0) = 0 := by decide
    have e4 : (if isCloseCh ')' = true then 1 else 0) = 1 := by decide
    rw [h1, h3, e1, e2, e3, e4]
    omega) x.length x

theorem cross_m12 (x : Str) :
    x.countP isOpenCh + (applyRep m12 x).countP isCloseCh
      = x.countP isCloseCh + (applyRep m12 x).countP isOpenCh :=
  scan_cP_cross m12 isOpenCh isCloseCh (fun s e r h => by
    obtain ⟨u, hu, h1, h2⟩ := m12_countP isOpenCh openWs s e r h
    obtain ⟨u2, hu2, h3, h4⟩ := m12_countP isCloseCh closeWs s e r h
    have huu : u2 = u := List.append_cancel_right (hu2.symm.trans hu)
    subst huu
    exact ⟨u2, hu, by rw [h1, h2, h3, h4]⟩) x.length x

/-- One pass preserves the difference between the `(` count and the `)`
count: parentheses are only ever removed in matched pairs. -/
theorem pass_diff (s : Str) :
    s.countP isOpenCh + (passOnce s).countP isCloseCh
      = s.countP isCloseCh + (passOnce s).countP isOpenCh := by
  have hs : passOnce s = trimStr (applyRep m12 (applyRep m11 (applyRep m10
      (applyRep m1 (applyRep m8 (applyRep m7 (rule6 (rule5 (applyRep m4
        (applyRep m3 (applyRep m2 (applyRep m1 s)))))))))))) := rfl
  rw [hs]
  have h1 := cross_m1 s
  have h2 := cross_m2 (applyRep m1 s)
  have h3 := cross_m3 (applyRep m2 (applyRep m1 s))
  have h4 := cross_m4 (applyRep m3 (applyRep m2 (applyRep m1 s)))
  have h5o := rule5_countP_eq isOpenCh openWs (by decide) (by decide)
    (applyRep m4 (applyRep m3 (applyRep m2 (applyRep m1 s))))
  have h5c := rule5_countP_eq isCloseCh closeWs (by decide) (by decide)
    (applyRep m4 (applyRep m3 (applyRep m2 (applyRep m1 s))))
  have h6o := rule6_countP_eq isOpenCh openWs (by decide) (by decide)
    (rule5 (applyRep m4 (applyRep m3 (applyRep m2 (applyRep m1 s)))))
  have h6c := rule6_countP_eq isCloseCh closeWs (by decide) (by decide)
    (rule5 (applyRep m4 (applyRep m3 (applyRep m2 (applyRep m1 s)))))
  have h7 := cross_m7 (rule6 (rule5 (applyRep m4 (applyRep m3 (applyRep m2
    (applyRep m1 s))))))
  have h8 := cross_m8 (applyRep m7 (rule6 (rule5 (applyRep m4 (applyRep m3
    (applyRep m2 (applyRep m1 s)))))))
  have h9 := cross_m1 (applyRep m8 (applyRep m7 (rule6 (rule5 (applyRep m4
    (applyRep m3 (applyRep m2 (applyRep m1 s))))))))
  have h10 := cross_m10 (applyRep m1 (applyRep m8 (applyRep m7 (rule6 (rule5
    (applyRep m4 (applyRep m3 (applyRep m2 (applyRep m1 s)))))))))
  have h11 := cross_m11 (applyRep m10 (applyRep m1 (applyRep m8 (applyRep m7
    (rule6 (rule5 (applyRep m4 (applyRep m3 (applyRep m2 (applyRep m1 s))))))))))
  have h12 := cross_m12 (applyRep m11 (applyRep m10 (applyRep m1 (applyRep m8
    (applyRep m7 (rule6 (rule5 (applyRep m4 (applyRep m3 (applyRep m2
      (applyRep m1 s)))))))))))
  have h13o := trim_countP isOpenCh openWs (applyRep m12 (applyRep m11
    (applyRep m10 (applyRep m1 (applyRep m8 (applyRep m7 (rule6 (rule5
      (applyRep m4 (applyRep m3 (applyRep m2 (applyRep m1 s))))))))))))
  have h13c := trim_countP isCloseCh closeWs (applyRep m12 (applyRep m11
    (applyRep m10 (applyRep m1 (applyRep m8 (applyRep m7 (rule6 (rule5
      (applyRep m4 (applyRep m3 (applyRep m2 (applyRep m1 s))))))))))))
  omega

theorem cleanup_diff (n : Nat) : ∀ x r, cleanupFuel n x = some r →
    x.countP isOpenCh + r.countP isCloseCh
      = x.countP isCloseCh + r.countP isOpenCh := by
  induction n with
  | zero => intro x r h; simp [cleanupFuel] at h
  | succ n ih =>
    intro x r h
    rw [cleanupFuel] at h
    rcases eq_or_ne (passOnce x) x with hp | hp
    · rw [if_pos hp] at h
      obtain rfl : x = r := Option.some.inj h
      omega
    · rw [if_neg hp] at h
      have h1 := pass_diff x
      have h2 := ih (passOnce x) r h
      omega

theorem m1_matches (w b : Str) (hw : allWs w) :
    m1 ('(' :: (w ++ ')' :: b)) = some ([], b) := by
  have hg : grab isWs (w ++ ')' :: b) = (w, ')' :: b) :=
    grab_all isWs w (')' :: b) hw (by intro c ts hh; cases hh; decide)
  simp [m1, hg]

/-- At a fixed point of the pass, the string contains no `(`–`)` pair with
only whitespace inside, else the empty-bracket rule would fire. -/
theorem fix_no_empty_group (r : Str) (h : passOnce r = r) : ¬HasEmptyGroup r := by
  rintro ⟨a, w, b, hw, hr⟩
  have hid := pass_fix_rule1 r h
  have hnm := scan_id_no_match m1 isParenCh m1_paren_strict rfl r.length r
    (le_refl _) hid a.length
  rw [hr, List.drop_left] at hnm
  rw [m1_matches w b hw] at hnm
  exact absurd hnm (by simp)

/-! ### Junction bookkeeping: the anchors of rule 7 -/

theorem junc_cons (c : Char) (l : Str) :
    junc (c :: l) = (if c = ')' ∧ headWS l = true then 1 else 0) + junc l := by
  cases l with
  | nil => simp [junc, headWS]
  | cons b t => rfl

theorem headWS_append (a b : Str) (ha : a ≠ []) : headWS (a ++ b) = headWS a := by
  cases a with
  | nil => exact absurd rfl ha
  | cons c t => rfl

theorem lastClose_append (a b : Str) (hb : b ≠ []) :
    lastClose (a ++ b) = lastClose b := by
  unfold lastClose
  rw [List.getLast?_append_of_ne_nil a hb]

theorem lastClose_cons_cons (c d : Char) (l : Str) :
    lastClose (c :: d :: l) = lastClose (d :: l) := by
  unfold lastClose
  rfl

theorem junc_append : ∀ a b : Str, junc (a ++ b) = junc a + junc b + bd a b := by
  intro a
  induction a with
  | nil =>
    intro b
    simp [junc, bd, lastClose]
  | cons c a2 ih =>
    intro b
    cases a2 with
    | nil =>
      by_cases hc : c = ')' <;> by_cases hb : headWS b = true <;>
        simp [junc_cons, junc, bd, lastClose, hc, hb] <;> omega
    | cons d a3 =>
      have h1 : junc (c :: (d :: a3 ++ b))
          = (if c = ')' ∧ isWordStart d = true then 1 else 0) + junc (d :: a3 ++ b) := by
        rw [junc_cons]
        rw [show headWS (d :: a3 ++ b) = isWordStart d from rfl]
      have h2 := ih b
      have h3 : junc (c :: d :: a3)
          = (if c = ')' ∧ isWordStart d = true then 1 else 0) + junc (d :: a3) := by
        rw [junc_cons]
        rfl
      have h4 : bd (c :: d :: a3) b = bd (d :: a3) b := by
        unfold bd
        rw [lastClose_cons_cons]
      show junc (c :: (d :: a3 ++ b)) = _
      rw [h1, h2, h3, h4]
      omega

theorem noClose_junc : ∀ l : Str, (∀ c ∈ l, c ≠ ')') → junc l = 0 := by
  intro l
  induction l with
  | nil => intro _; rfl
  | cons c t ih =>
    intro h
    rw [junc_cons]
    have hc : c ≠ ')' := h c (by simp)
    simp [hc]
    exact ih (fun d hd => h d (List.mem_cons_of_mem _ hd))

theorem ws_ne_close (c : Char) (h : isWs c = true) : c ≠ ')' := by
  intro he
  subst he
  exact absurd h (by decide)

theorem wordCh_ne_close (c : Char) (h : isWordCh c = true) : c ≠ ')' := by
  intro he
  subst he
  exact absurd h (by decide)

theorem opCh_ne_close (c : Char) (h : isOpCh c = true) : c ≠ ')' := by
  intro he
  subst he
  exact absurd h (by decide)

theorem conn_ne_close (c : Str) (h : isConnPair c) : ∀ x ∈ c, x ≠ ')' := by
  rcases h with rfl | rfl <;>
    (intro x hx
     rcases List.mem_cons.mp hx with rfl | hx2
     · decide
     · simp at hx2
       subst hx2
       decide)

theorem pat_noClose (w1 c w2 : Str) (hw1 : allWs w1) (hc : isConnPair c)
    (hw2 : allWs w2) : ∀ x ∈ w1 ++ c ++ w2, x ≠ ')' := by
  intro x hx
  rcases List.mem_append.mp hx with hx2 | hx2
  · rcases List.mem_append.mp hx2 with hx3 | hx3
    · exact ws_ne_close x (hw1 x hx3)
    · exact conn_ne_close c hc x hx3
  · exact ws_ne_close x (hw2 x hx2)

theorem headWS_pat (w1 c w2 t : Str) (hw1 : allWs w1) (hc : isConnPair c) :
    headWS (w1 ++ c ++ w2 ++ t) = false := by
  cases w1 with
  | nil =>
    rcases hc with rfl | rfl <;> rfl
  | cons d w =>
    have : headWS (((d :: w) ++ c ++ w2) ++ t) = isWordStart d := by
      simp only [List.cons_append]
      rfl
    rw [List.append_assoc, List.append_assoc] at this ⊢
    rw [this]
    exact (ws_facts d (hw1 d (by simp))).2.2.1

theorem lastClose_allWs (w : Str) (hw : allWs w) : lastClose w = false := by
  unfold lastClose
  cases hlast : w.getLast? with
  | none => rfl
  | some c =>
    have hmem : c ∈ w := List.mem_of_mem_getLast? hlast
    have := ws_ne_close c (hw c hmem)
    simp [this]

theorem lastClose_pat (w1 c w2 : Str) (hw1 : allWs w1) (hc : isConnPair c)
    (hw2 : allWs w2) : lastClose (w1 ++ c ++ w2) = false := by
  cases w2 with
  | nil =>
    have hcne : c ≠ [] := by rcases hc with rfl | rfl <;> simp
    rw [List.append_nil, lastClose_append w1 c hcne]
    rcases hc with rfl | rfl <;> rfl
  | cons d w =>
    rw [List.append_assoc, lastClose_append w1 _ (by simp),
      lastClose_append c _ (by simp)]
    exact lastClose_allWs (d :: w) hw2

theorem headWS_allWs (w : Str) (hw : allWs w) : headWS w = false := by
  cases w with
  | nil => rfl
  | cons d t =>
    show isWordStart d = false
    exact (ws_facts d (hw d (by simp))).2.2.1

/-- Generic scan lemma: if every match of `m` preserves the junction count,
the head word-start status and the trailing `)` status of the consumed
text, the whole scan preserves the junction count and the head status. -/
theorem scan_junc_exact (m : Matcher)
    (H : ∀ s e r, m s = some (e, r) → ∃ u, u ≠ [] ∧ s = u ++ r ∧
      junc e = junc u ∧ headWS e = headWS u ∧ lastClose e = lastClose u ∧ e ≠ []) :
    ∀ (n : Nat) (s : Str),
      junc (scanIter m n s) = junc s ∧ headWS (scanIter m n s) = headWS s := by
  intro n
  induction n with
  | zero => intro s; exact ⟨rfl, rfl⟩
  | succ n ih =>
    intro s
    cases s with
    | nil => exact ⟨rfl, rfl⟩
    | cons c cs =>
      cases hm : m (c :: cs) with
      | none =>
        rw [scanIter_cons_none m n c cs hm]
        obtain ⟨ihj, ihh⟩ := ih cs
        constructor
        · rw [junc_cons, junc_cons, ihj, ihh]
        · rfl
      | some er =>
        obtain ⟨e, r⟩ := er
        rw [scanIter_cons_some m n c cs e r hm]
        obtain ⟨u, hune, hu, hj, hh, hl, hene⟩ := H _ _ _ hm
        obtain ⟨ihj, ihh⟩ := ih r
        have hbd : bd e (scanIter m n r) = bd u r := by
          unfold bd
          rw [hl, ihh]
        constructor
        · rw [junc_append, hu, junc_append, hj, ihj, hbd]
        · rw [headWS_append e _ hene, hh, hu, headWS_append u r hune]

theorem m2_junc : ∀ s e r, m2 s = some (e, r) → ∃ u, u ≠ [] ∧ s = u ++ r ∧
    junc e = junc u ∧ headWS e = headWS u ∧ lastClose e = lastClose u ∧ e ≠ [] := by
  intro s e r h
  obtain ⟨w1, c, w2, hw1, hcp, hw2, hs, he⟩ := m2_decomp s e r h
  subst he
  refine ⟨w1 ++ c ++ (w2 ++ [')']), by simp, by simpa using hs, ?_, ?_, ?_, by simp⟩
  · have hA : junc (w1 ++ c ++ w2) = 0 :=
      noClose_junc _ (pat_noClose w1 c w2 hw1 hcp hw2)
    have : w1 ++ c ++ (w2 ++ [')']) = (w1 ++ c ++ w2) ++ [')'] := by
      simp [List.append_assoc]
    rw [this, junc_append, hA]
    simp [junc, bd, headWS, show isWordStart ')' = false from by decide]
  · rw [show w1 ++ c ++ (w2 ++ [')']) = w1 ++ c ++ w2 ++ [')'] from by
      simp [List.append_assoc]]
    rw [headWS_pat w1 c w2 [')'] hw1 hcp]
    rfl
  · rw [show w1 ++ c ++ (w2 ++ [')']) = (w1 ++ c ++ w2) ++ [')'] from by
      simp [List.append_assoc]]
    rw [lastClose_append _ [')'] (by simp)]

theorem m3_junc : ∀ s e r, m3 s = some (e, r) → ∃ u, u ≠ [] ∧ s = u ++ r ∧
    junc e = junc u ∧ headWS e = headWS u ∧ lastClose e = lastClose u ∧ e ≠ [] := by
  intro s e r h
  obtain ⟨w1, c, w2, hw1, hcp, hw2, hs, he⟩ := m3_decomp s e r h
  subst he
  refine ⟨'(' :: (w1 ++ c ++ w2), by simp, hs, ?_, rfl, ?_, by simp⟩
  · refine (noClose_junc _ ?_).symm
    intro x hx
    rcases List.mem_cons.mp hx with rfl | hx2
    · decide
    · exact pat_noClose w1 c w2 hw1 hcp hw2 x hx2
  · have hcne : w1 ++ c ++ w2 ≠ [] := by
      rcases hcp with rfl | rfl <;> simp
    have h1 : lastClose ('(' :: (w1 ++ c ++ w2)) = lastClose (w1 ++ c ++ w2) := by
      have : '(' :: (w1 ++ c ++ w2) = ['('] ++ (w1 ++ c ++ w2) := rfl
      rw [this, lastClose_append _ _ hcne]
    rw [h1, lastClose_pat w1 c w2 hw1 hcp hw2]
    rfl

theorem m4_junc : ∀ s e r, m4 s = some (e, r) → ∃ u, u ≠ [] ∧ s = u ++ r ∧
    junc e = junc u ∧ headWS e = headWS u ∧ lastClose e = lastClose u ∧ e ≠ [] := by
  intro s e r h
  obtain ⟨w1, c1, w2, c2, w3, hw1, hcp1, hw2, _, hcp2, hw3, hs, he⟩ := m4_decomp s e r h
  subst he
  have hu_noclose : ∀ x ∈ w1 ++ c1 ++ w2 ++ c2 ++ w3, x ≠ ')' := by
    intro x hx
    rw [show w1 ++ c1 ++ w2 ++ c2 ++ w3 = (w1 ++ c1 ++ w2) ++ (c2 ++ w3) from by
      simp [List.append_assoc]] at hx
    rcases List.mem_append.mp hx with hx2 | hx2
    · exact pat_noClose w1 c1 w2 hw1 hcp1 hw2 x hx2
    · rcases List.mem_append.mp hx2 with hx3 | hx3
      · exact conn_ne_close c2 hcp2 x hx3
      · exact ws_ne_close x (hw3 x hx3)
  have he_noclose : ∀ x ∈ ' ' :: (c2 ++ [' ']), x ≠ ')' := by
    intro x hx
    rcases List.mem_cons.mp hx with rfl | hx2
    · decide
    · rcases List.mem_append.mp hx2 with hx3 | hx3
      · exact conn_ne_close c2 hcp2 x hx3
      · simp at hx3
        subst hx3
        decide
  refine ⟨w1 ++ c1 ++ w2 ++ c2 ++ w3, ?_, hs, ?_, ?_, ?_, by simp⟩
  · rcases hcp1 with rfl | rfl <;> simp
  · rw [noClose_junc _ he_noclose, noClose_junc _ hu_noclose]
  · have h2 : headWS (w1 ++ c1 ++ w2 ++ (c2 ++ w3)) = false :=
      headWS_pat w1 c1 w2 (c2 ++ w3) hw1 hcp1
    rw [show w1 ++ c1 ++ w2 ++ c2 ++ w3 = w1 ++ c1 ++ w2 ++ (c2 ++ w3) from by
      simp [List.append_assoc]]
    rw [h2]
    rw [show headWS (' ' :: (c2 ++ [' '])) = isWordStart ' ' from rfl]
    decide
  · have h1 : lastClose (' ' :: (c2 ++ [' '])) = false := by
      rw [show ' ' :: (c2 ++ [' ']) = (' ' :: c2) ++ [' '] from by simp]
      rw [lastClose_append _ [' '] (by simp)]
      decide
    have h2 : lastClose (w1 ++ c1 ++ w2 ++ c2 ++ w3) = false := by
      cases w3 with
      | nil =>
        have hcne : c2 ≠ [] := by rcases hcp2 with rfl | rfl <;> simp
        rw [List.append_nil, lastClose_append _ c2 hcne]
        rcases hcp2 with rfl | rfl <;> rfl
      | cons d w =>
        rw [lastClose_append _ (d :: w) (by simp)]
        exact lastClose_allWs (d :: w) hw3
    rw [h1, h2]

theorem m8_junc : ∀ s e r, m8 s = some (e, r) → ∃ u, u ≠ [] ∧ s = u ++ r ∧
    junc e = junc u ∧ headWS e = headWS u ∧ lastClose e = lastClose u ∧ e ≠ [] := by
  intro s e r h
  obtain ⟨w1, c, w2, hw1, hcp, hw2, hs, he⟩ := m8_decomp s e r h
  subst he
  have he_noclose : ∀ x ∈ ' ' :: (c ++ [' ']), x ≠ ')' := by
    intro x hx
    rcases List.mem_cons.mp hx with rfl | hx2
    · decide
    · rcases List.mem_append.mp hx2 with hx3 | hx3
      · exact conn_ne_close c hcp x hx3
      · simp at hx3
        subst hx3
        decide
  refine ⟨w1 ++ c ++ w2, ?_, hs, ?_, ?_, ?_, by simp⟩
  · rcases hcp with rfl | rfl <;> simp
  · rw [noClose_junc _ he_noclose, noClose_junc _ (pat_noClose w1 c w2 hw1 hcp hw2)]
  · have h2 : headWS (w1 ++ c ++ w2 ++ []) = false := headWS_pat w1 c w2 [] hw1 hcp
    rw [List.append_nil] at h2
    rw [h2]
    rw [show headWS (' ' :: (c ++ [' '])) = isWordStart ' ' from rfl]
    decide
  · have h1 : lastClose (' ' :: (c ++ [' '])) = false := by
      rw [show ' ' :: (c ++ [' ']) = (' ' :: c) ++ [' '] from by simp]
      rw [lastClose_append _ [' '] (by simp)]
      decide
    rw [h1, lastClose_pat w1 c w2 hw1 hcp hw2]

theorem m12_junc : ∀ s e r, m12 s = some (e, r) → ∃ u, u ≠ [] ∧ s = u ++ r ∧
    junc e = junc u ∧ headWS e = headWS u ∧ lastClose e = lastClose u ∧ e ≠ [] := by
  intro s e r h
  obtain ⟨d, w, hd, hw, hs, he⟩ := m12_decomp s e r h
  subst he
  have hdw : allWs (d :: w) := by
    intro x hx
    rcases List.mem_cons.mp hx with rfl | hx2
    · exact hd
    · exact hw x hx2
  refine ⟨d :: w, by simp, hs, ?_, ?_, ?_, by simp⟩
  · rw [noClose_junc [' '] (by intro x hx; simp at hx; subst hx; decide),
      noClose_junc (d :: w) (fun x hx => ws_ne_close x (hdw x hx))]
  · rw [headWS_allWs (d :: w) hdw]
    rfl
  · rw [lastClose_allWs (d :: w) hdw]
    rfl

/-! ### Rule 7 strictly consumes a junction per match -/

theorem m7_junc : ∀ s e r, m7 s = some (e, r) → ∃ u, u ≠ [] ∧ s = u ++ r ∧
    junc e = 0 ∧ junc u = 1 ∧ headWS e = headWS u ∧ lastClose e = lastClose u := by
  intro s e r h
  obtain ⟨L, wrd, ops, hL, hwrd, hops, hone, hs, he⟩ := m7_decomp s e r h
  subst he
  have hLne : L ≠ ')' := by
    intro he2
    subst he2
    exact absurd hL (by decide)
  have htail_noclose : ∀ x ∈ wrd ++ ops, x ≠ ')' := by
    intro x hx
    rcases List.mem_append.mp hx with hx2 | hx2
    · exact wordCh_ne_close x (hwrd x hx2)
    · exact opCh_ne_close x (hops x hx2)
  refine ⟨')' :: L :: (wrd ++ ops), by simp, hs, ?_, ?_, rfl, ?_⟩
  · rw [junc_cons]
    have h0 : headWS (' ' :: '&' :: '&' :: ' ' :: L :: (wrd ++ ops)) = false := by
      rw [show headWS (' ' :: '&' :: '&' :: ' ' :: L :: (wrd ++ ops))
          = isWordStart ' ' from rfl]
      decide
    rw [h0]
    have h1 : junc (' ' :: '&' :: '&' :: ' ' :: L :: (wrd ++ ops)) = 0 := by
      refine noClose_junc _ ?_
      intro x hx
      rcases List.mem_cons.mp hx with rfl | hx2
      · decide
      · rcases List.mem_cons.mp hx2 with rfl | hx3
        · decide
        · rcases List.mem_cons.mp hx3 with rfl | hx4
          · decide
          · rcases List.mem_cons.mp hx4 with rfl | hx5
            · decide
            · rcases List.mem_cons.mp hx5 with rfl | hx6
              · exact hLne
              · exact htail_noclose x hx6
    rw [h1]
    simp
  · rw [junc_cons]
    have hh : headWS (L :: (wrd ++ ops)) = true := by
      rw [show headWS (L :: (wrd ++ ops)) = isWordStart L from rfl, hL]
    rw [hh]
    have : junc (L :: (wrd ++ ops)) = 0 := by
      refine noClose_junc _ ?_
      intro x hx
      rcases List.mem_cons.mp hx with rfl | hx2
      · exact hLne
      · exact htail_noclose x hx2
    rw [this]
    simp
  · have hope : ops ≠ [] := hone
    have h1 : lastClose (')' :: ' ' :: '&' :: '&' :: ' ' :: L :: (wrd ++ ops))
        = lastClose ops := by
      rw [show (')' :: ' ' :: '&' :: '&' :: ' ' :: L :: (wrd ++ ops))
          = (')' :: ' ' :: '&' :: '&' :: ' ' :: L :: wrd) ++ ops from by simp]
      exact lastClose_append _ ops hope
    have h2 : lastClose (')' :: L :: (wrd ++ ops)) = lastClose ops := by
      rw [show (')' :: L :: (wrd ++ ops)) = (')' :: L :: wrd) ++ ops from by simp]
      exact lastClose_append _ ops hope
    rw [h1, h2]

theorem m7_junc_ne : ∀ s e r, m7 s = some (e, r) → e ≠ [] := by
  intro s e r h
  obtain ⟨L, wrd, ops, _, _, _, _, _, he⟩ := m7_decomp s e r h
  subst he
  simp

theorem scan_junc_m7_le : ∀ (n : Nat) (s : Str),
    junc (scanIter m7 n s) ≤ junc s ∧ headWS (scanIter m7 n s) = headWS s := by
  intro n
  induction n with
  | zero => intro s; exact ⟨le_refl _, rfl⟩
  | succ n ih =>
    intro s
    cases s with
    | nil => exact ⟨le_refl _, rfl⟩
    | cons c cs =>
      cases hm : m7 (c :: cs) with
      | none =>
        rw [scanIter_cons_none m7 n c cs hm]
        refine ⟨?_, rfl⟩
        rw [junc_cons, junc_cons, (ih cs).2]
        exact Nat.add_le_add_left (ih cs).1 _
      | some er =>
        obtain ⟨e, r⟩ := er
        rw [scanIter_cons_some m7 n c cs e r hm]
        obtain ⟨u, hune, hu, hje, hju, hh, hl⟩ := m7_junc _ _ _ hm
        have hene := m7_junc_ne _ _ _ hm
        obtain ⟨ihj, ihh⟩ := ih r
        have hbd : bd e (scanIter m7 n r) = bd u r := by
          unfold bd
          rw [hl, ihh]
        constructor
        · rw [junc_append, hu, junc_append, hje, hju, hbd]
          omega
        · rw [headWS_append e _ hene, hh, hu, headWS_append u r hune]

theorem scan_junc_m7_idlt : ∀ (n : Nat) (s : Str),
    scanIter m7 n s = s ∨ junc (scanIter m7 n s) < junc s := by
  intro n
  induction n with
  | zero => intro s; exact Or.inl rfl
  | succ n ih =>
    intro s
    cases s with
    | nil => exact Or.inl rfl
    | cons c cs =>
      cases hm : m7 (c :: cs) with
      | none =>
        rw [scanIter_cons_none m7 n c cs hm]
        rcases ih cs with hid | hlt
        · rw [hid]
          exact Or.inl rfl
        · right
          rw [junc_cons, junc_cons, (scan_junc_m7_le n cs).2]
          exact Nat.add_lt_add_left hlt _
      | some er =>
        obtain ⟨e, r⟩ := er
        rw [scanIter_cons_some m7 n c cs e r hm]
        right
        obtain ⟨u, hune, hu, hje, hju, hh, hl⟩ := m7_junc _ _ _ hm
        have hbd : bd e (scanIter m7 n r) = bd u r := by
          unfold bd
          rw [hl, (scan_junc_m7_le n r).2]
        rw [junc_append, hu, junc_append, hje, hju, hbd]
        have := (scan_junc_m7_le n r).1
        omega

theorem rule5_junc_eq (s : Str) : junc (rule5 s) = junc s := by
  rcases rule5_id_or s with hid | ⟨a, w1, c, w2, hw1, hcp, hw2, hs, hres⟩
  · rw [hid]
  · rw [hres]
    conv_rhs => rw [hs]
    rw [junc_append]
    have hju : junc (w1 ++ c ++ w2) = 0 :=
      noClose_junc _ (pat_noClose w1 c w2 hw1 hcp hw2)
    have hhu : headWS (w1 ++ c ++ w2) = false := by
      have := headWS_pat w1 c w2 [] hw1 hcp
      rwa [List.append_nil] at this
    unfold bd
    rw [hju, hhu]
    simp

theorem rule6_junc_eq (s : Str) : junc (rule6 s) = junc s := by
  rcases rule6_id_or s with hid | ⟨w1, c, w2, hw1, hcp, hw2, hs⟩
  · rw [hid]
  · conv_rhs => rw [hs]
    rw [junc_append]
    have hju : junc (w1 ++ c ++ w2) = 0 :=
      noClose_junc _ (pat_noClose w1 c w2 hw1 hcp hw2)
    have hlu : lastClose (w1 ++ c ++ w2) = false := lastClose_pat w1 c w2 hw1 hcp hw2
    unfold bd
    rw [hju, hlu]
    simp

theorem trim_junc_eq (s : Str) : junc (trimStr s) = junc s := by
  obtain ⟨w1, w2, hw1, hw2, hs⟩ := trim_decomp s
  conv_rhs => rw [hs]
  rw [junc_append, junc_append]
  have h1 : junc w1 = 0 := noClose_junc _ (fun c hc => ws_ne_close c (hw1 c hc))
  have h2 : junc w2 = 0 := noClose_junc _ (fun c hc => ws_ne_close c (hw2 c hc))
  have h3 : bd w1 (trimStr s ++ w2) = 0 := by
    unfold bd
    rw [lastClose_allWs w1 hw1]
    simp
  have h4 : bd (trimStr s) w2 = 0 := by
    unfold bd
    rw [headWS_allWs w2 hw2]
    simp
  rw [h1, h2, h3, h4]
  omega

/-! ### Connective-character bookkeeping -/

theorem ampWs : ∀ c, isWs c = true → isAmpCh c = false :=
  fun c hc => (ws_facts c hc).2.1

theorem m2_amp_strict : ∀ s e r, m2 s = some (e, r) →
    ∃ u, s = u ++ r ∧ e.countP isAmpCh < u.countP isAmpCh := by
  intro s e r h
  obtain ⟨u, hu, h1, h2⟩ := m2_countP isAmpCh ampWs (by decide) s e r h
  refine ⟨u, hu, ?_⟩
  have e1 : (if isAmpCh '&' = true then 2 else 0) = 2 := by decide
  have e2 : (if isAmpCh ')' = true then 1 else 0) = 0 := by decide
  rw [h1, h2, e1, e2]
  omega

theorem m3_amp_strict : ∀ s e r, m3 s = some (e, r) →
    ∃ u, s = u ++ r ∧ e.countP isAmpCh < u.countP isAmpCh := by
  intro s e r h
  obtain ⟨u, hu, h1, h2⟩ := m3_countP isAmpCh ampWs (by decide) s e r h
  refine ⟨u, hu, ?_⟩
  have e1 : (if isAmpCh '&' = true then 2 else 0) = 2 := by decide
  have e2 : (if isAmpCh '(' = true then 1 else 0) = 0 := by decide
  rw [h1, h2, e1, e2]
  omega

theorem m4_amp_strict : ∀ s e r, m4 s = some (e, r) →
    ∃ u, s = u ++ r ∧ e.countP isAmpCh < u.countP isAmpCh := by
  intro s e r h
  obtain ⟨u, hu, h1, h2⟩ := m4_countP isAmpCh ampWs (by decide) s e r h
  refine ⟨u, hu, ?_⟩
  have e1 : (if isAmpCh '&' = true then 4 else 0) = 4 := by decide
  have e2 : (if isAmpCh '&' = true then 2 else 0) = 2 := by decide
  rw [h1, h2, e1, e2]
  omega

theorem amp_eq_m8 (x : Str) :
    (applyRep m8 x).countP isAmpCh = x.countP isAmpCh :=
  scan_cP_eq m8 isAmpCh (fun s e r h => by
    obtain ⟨u, hu, h1⟩ := m8_countP isAmpCh ampWs (by decide) s e r h
    exact ⟨u, hu, h1⟩) x.length x

theorem amp_eq_m12 (x : Str) :
    (applyRep m12 x).countP isAmpCh = x.countP isAmpCh :=
  scan_cP_eq m12 isAmpCh (fun s e r h => by
    obtain ⟨u, hu, h1, h2⟩ := m12_countP isAmpCh ampWs s e r h
    exact ⟨u, hu, by rw [h1, h2]⟩) x.length x

theorem rule5_amp_idlt (s : Str) :
    rule5 s = s ∨ (rule5 s).countP isAmpCh < s.countP isAmpCh := by
  rcases rule5_id_or s with hid | ⟨a, w1, c, w2, hw1, hcp, hw2, hs, hres⟩
  · exact Or.inl hid
  · right
    rw [hres]
    conv_rhs => rw [hs]
    have h3 := countP_conn isAmpCh (by decide) c hcp
    rw [show (if isAmpCh '&' = true then 2 else 0) = 2 from by decide] at h3
    simp [List.countP_append, countP_ws_zero isAmpCh ampWs w1 hw1,
      countP_ws_zero isAmpCh ampWs w2 hw2, h3]

/-! ### Match completeness: each rule fires on its literal pattern -/

theorem scanIter_nil (m : Matcher) : ∀ n, scanIter m n [] = [] := by
  intro n
  cases n <;> rfl

theorem grab_ws_conn (c b : Str) (hc : isConnPair c) :
    grab isWs (c ++ b) = ([], c ++ b) := by
  apply grab_none
  rcases hc with rfl | rfl <;> (intro d ts h; cases h; decide)

theorem readConn_conn (c b : Str) (hc : isConnPair c) :
    readConn (c ++ b) = some (c, b) := by
  rcases hc with rfl | rfl <;> simp [readConn]

theorem m2_matches (c w b : Str) (hc : isConnPair c) (hw : allWs w) :
    m2 (c ++ (w ++ ')' :: b)) = some ([')'], b) := by
  have h1 := grab_ws_conn c (w ++ ')' :: b) hc
  have h2 := readConn_conn c (w ++ ')' :: b) hc
  have h3 : grab isWs (w ++ ')' :: b) = (w, ')' :: b) :=
    grab_all isWs w (')' :: b) hw (by intro d ts h; cases h; decide)
  simp [m2, h1, h2, h3]

theorem m3_matches (w c b : Str) (hw : allWs w) (hc : isConnPair c) :
    m3 ('(' :: (w ++ (c ++ b))) = some (['('], (grab isWs b).2) := by
  have h3 : grab isWs (w ++ (c ++ b)) = (w, c ++ b) :=
    grab_all isWs w (c ++ b) hw
      (by rcases hc with rfl | rfl <;> (intro d ts h; cases h; decide))
  have h2 := readConn_conn c b hc
  simp [m3, h3, h2]

theorem m4_matches (c1 w c2 b : Str) (hc1 : isConnPair c1) (hw : allWs w)
    (hwne : w ≠ []) (hc2 : isConnPair c2) :
    m4 (c1 ++ (w ++ (c2 ++ b))) = some (' ' :: (c2 ++ [' ']), (grab isWs b).2) := by
  have h1 := grab_ws_conn c1 (w ++ (c2 ++ b)) hc1
  have h2 := readConn_conn c1 (w ++ (c2 ++ b)) hc1
  have h3 : grab isWs (w ++ (c2 ++ b)) = (w, c2 ++ b) :=
    grab_all isWs w (c2 ++ b) hw
      (by rcases hc2 with rfl | rfl <;> (intro d ts h; cases h; decide))
  have h4 := readConn_conn c2 b hc2
  have h5 : w.isEmpty = false := by
    cases w with
    | nil => exact absurd rfl hwne
    | cons x xs => rfl
  simp [m4, h1, h2, h3, h4, h5]

theorem m5_matches (c : Str) (hc : isConnPair c) : m5 c = some ([], []) := by
  have h1 : grab isWs c = ([], c) := by simpa using grab_ws_conn c [] hc
  have h2 : readConn c = some (c, []) := by simpa using readConn_conn c [] hc
  simp [m5, h1, h2, grab]

theorem m6_matches (c b : Str) (hc : isConnPair c) :
    m6 (c ++ b) = some ([], (grab isWs b).2) := by
  have h1 := grab_ws_conn c b hc
  have h2 := readConn_conn c b hc
  simp [m6, h1, h2]

theorem m8_matches (c b : Str) (hc : isConnPair c) :
    m8 (c ++ b) = some (' ' :: (c ++ [' ']), (grab isWs b).2) := by
  have h1 := grab_ws_conn c b hc
  have h2 := readConn_conn c b hc
  simp [m8, h1, h2]

theorem m5_nil : m5 [] = none := rfl

theorem firstIter_m5_no_match : ∀ (n : Nat) (s : Str), s.length ≤ n →
    firstIter m5 n s = s → ∀ i, m5 (s.drop i) = none := by
  intro n
  induction n with
  | zero =>
    intro s hlen _ i
    have hs : s = [] := List.length_eq_zero.mp (Nat.le_zero.mp hlen)
    subst hs
    rw [List.drop_nil]
    exact m5_nil
  | succ n ih =>
    intro s hlen hid i
    cases s with
    | nil =>
      rw [List.drop_nil]
      exact m5_nil
    | cons c cs =>
      cases hm : m5 (c :: cs) with
      | some er =>
        obtain ⟨e, r⟩ := er
        exfalso
        obtain ⟨w1, cc, w2, _, _, _, _, he, hr⟩ := m5_decomp _ _ _ hm
        have hstep : firstIter m5 (n + 1) (c :: cs) = e ++ r := by
          simp [firstIter, hm]
        have h0 : (c :: cs : Str) = e ++ r := hid.symm.trans hstep
        subst he
        subst hr
        simp at h0
      | none =>
        have hstep : firstIter m5 (n + 1) (c :: cs) = c :: firstIter m5 n cs := by
          simp [firstIter, hm]
        rw [hstep] at hid
        have htail : firstIter m5 n cs = cs := (List.cons.inj hid).2
        cases i with
        | zero => exact hm
        | succ j =>
          have hlen2 : cs.length ≤ n := by simpa using hlen
          exact ih cs hlen2 htail j

theorem rule5_no_match (s : Str) (hid : rule5 s = s) :
    ∀ i, m5 (s.drop i) = none :=
  firstIter_m5_no_match s.length s (le_refl _) hid

theorem rule6_no_lead (r : Str) (hid : rule6 r = r) : ¬StartsWithConn r := by
  rintro ⟨c, b, hc, rfl⟩
  have hm := m6_matches c b hc
  have h6 : rule6 (c ++ b) = (grab isWs b).2 := by simp [rule6, hm]
  rw [h6] at hid
  have h1 := congrArg List.length (grab_append isWs b)
  rw [List.length_append] at h1
  have h2 := congrArg List.length hid
  rw [List.length_append] at h2
  have hcl : c.length = 2 := by rcases hc with rfl | rfl <;> rfl
  omega

/-! ### The spacing invariant of rules 8 and 12 -/

theorem rightSpaced_tail (c : Char) (cs : Str) (h : rightSpaced (c :: cs) = true) :
    rightSpaced cs = true := by
  cases cs with
  | nil => rfl
  | cons d t =>
    simp only [rightSpaced, Bool.and_eq_true] at h
    exact h.2

theorem rightSpaced_suffix : ∀ (a x : Str),
    rightSpaced (a ++ x) = true → rightSpaced x = true := by
  intro a
  induction a with
  | nil => intro x h; exact h
  | cons c a2 ih =>
    intro x h
    exact ih x (rightSpaced_tail c (a2 ++ x) h)

theorem rightSpaced_append_left : ∀ (a b : Str),
    rightSpaced (a ++ b) = true → rightSpaced a = true := by
  intro a
  induction a with
  | nil => intro b _; rfl
  | cons c a2 ih =>
    intro b h
    cases a2 with
    | nil => rfl
    | cons d t =>
      simp only [List.cons_append] at h
      simp only [rightSpaced, Bool.and_eq_true] at h ⊢
      obtain ⟨h1, h2⟩ := h
      constructor
      · by_cases hcon : (c = '&' ∧ d = '&') ∨ (c = '|' ∧ d = '|')
        · rw [if_pos hcon] at h1
          rw [if_pos hcon]
          cases t with
          | nil => rfl
          | cons e ts => exact h1
        · rw [if_neg hcon]
      · exact ih b h2

theorem rightSpaced_cons_ne (c : Char) (X : Str)
    (h : ∀ d t, X = d :: t → ¬((c = '&' ∧ d = '&') ∨ (c = '|' ∧ d = '|'))) :
    rightSpaced (c :: X) = rightSpaced X := by
  cases X with
  | nil => rfl
  | cons d t =>
    have hnc := h d t rfl
    simp [rightSpaced, hnc]

theorem rightSpaced_block (c : Str) (hc : isConnPair c) (X : Str) :
    rightSpaced ((' ' :: (c ++ [' '])) ++ X) = rightSpaced X := by
  rcases hc with rfl | rfl <;>
    cases X with
    | nil => decide
    | cons d t => simp +decide [rightSpaced, wsOrEnd]

theorem scan8_head (n : Nat) (d : Char) (ds : Str) :
    (∃ t, scanIter m8 n (d :: ds) = d :: t) ∨
    (∃ t, scanIter m8 n (d :: ds) = ' ' :: t) := by
  cases n with
  | zero => exact Or.inl ⟨ds, rfl⟩
  | succ n =>
    cases hm : m8 (d :: ds) with
    | none => exact Or.inl ⟨_, scanIter_cons_none m8 n d ds hm⟩
    | some er =>
      obtain ⟨e, r⟩ := er
      obtain ⟨w1, c, w2, _, _, _, _, he⟩ := m8_decomp _ _ _ hm
      right
      refine ⟨(c ++ [' ']) ++ scanIter m8 n r, ?_⟩
      rw [scanIter_cons_some m8 n d ds e r hm, he]
      rfl

theorem scan8_rightSpaced : ∀ (n : Nat) (s : Str), s.length ≤ n →
    rightSpaced (scanIter m8 n s) = true := by
  intro n
  induction n with
  | zero =>
    intro s hlen
    have hs : s = [] := List.length_eq_zero.mp (Nat.le_zero.mp hlen)
    subst hs
    rfl
  | succ n ih =>
    intro s hlen
    cases s with
    | nil =>
      rw [scanIter_nil]
      rfl
    | cons c cs =>
      cases hm : m8 (c :: cs) with
      | none =>
        rw [scanIter_cons_none m8 n c cs hm]
        have hX : rightSpaced (scanIter m8 n cs) = true :=
          ih cs (by simpa using hlen)
        have hbound : ∀ d t, scanIter m8 n cs = d :: t →
            ¬((c = '&' ∧ d = '&') ∨ (c = '|' ∧ d = '|')) := by
          intro d t hX0 hcon
          cases cs with
          | nil =>
            rw [scanIter_nil] at hX0
            simp at hX0
          | cons d0 ds =>
            rcases scan8_head n d0 ds with ⟨t2, ht2⟩ | ⟨t2, ht2⟩
            · rw [ht2] at hX0
              have hd : d0 = d := (List.cons.inj hX0).1
              subst hd
              rcases hcon with ⟨rfl, rfl⟩ | ⟨rfl, rfl⟩
              · have hms : m8 ('&' :: '&' :: ds)
                    = some (' ' :: (['&', '&'] ++ [' ']), (grab isWs ds).2) :=
                  m8_matches ['&', '&'] ds (Or.inl rfl)
                rw [hm] at hms
                exact Option.noConfusion hms
              · have hms : m8 ('|' :: '|' :: ds)
                    = some (' ' :: (['|', '|'] ++ [' ']), (grab isWs ds).2) :=
                  m8_matches ['|', '|'] ds (Or.inr rfl)
                rw [hm] at hms
                exact Option.noConfusion hms
            · rw [ht2] at hX0
              have hd : d = ' ' := ((List.cons.inj hX0).1).symm
              subst hd
              rcases hcon with ⟨_, hb⟩ | ⟨_, hb⟩ <;> exact absurd hb (by decide)
        rw [rightSpaced_cons_ne c _ hbound]
        exact hX
      | some er =>
        obtain ⟨e, r⟩ := er
        rw [scanIter_cons_some m8 n c cs e r hm]
        obtain ⟨w1, cp, w2, hw1, hcp, hw2, hs, he⟩ := m8_decomp _ _ _ hm
        rw [he, rightSpaced_block cp hcp (scanIter m8 n r)]
        apply ih
        have hl := congrArg List.length hs
        simp [List.length_append] at hl
        have hcl : cp.length = 2 := by rcases hcp with rfl | rfl <;> rfl
        simp at hlen
        omega

theorem m12_none_head (c : Char) (cs : Str) (h : m12 (c :: cs) = none) :
    isWs c = false := by
  by_cases hc : isWs c
  · simp [m12, hc] at h
  · simp only [Bool.not_eq_true] at hc
    exact hc

theorem scan12_head (n : Nat) (d : Char) (ds : Str) :
    (∃ t, scanIter m12 n (d :: ds) = d :: t) ∨
    (∃ t, scanIter m12 n (d :: ds) = ' ' :: t) := by
  cases n with
  | zero => exact Or.inl ⟨ds, rfl⟩
  | succ n =>
    by_cases hd : isWs d
    · have hm : m12 (d :: ds) = some ([' '], (grab isWs ds).2) := by
        simp [m12, hd]
      right
      refine ⟨scanIter m12 n (grab isWs ds).2, ?_⟩
      rw [scanIter_cons_some m12 n d ds [' '] (grab isWs ds).2 hm]
      rfl
    · have hm : m12 (d :: ds) = none := by simp [m12, hd]
      exact Or.inl ⟨_, scanIter_cons_none m12 n d ds hm⟩

theorem scan12_tail (n : Nat) (d0 : Char) (ds t' : Str) (hd0 : isWs d0 = false)
    (h : scanIter m12 n (d0 :: ds) = d0 :: t') : ∃ k, t' = scanIter m12 k ds := by
  cases n with
  | zero => exact ⟨0, ((List.cons.inj h).2).symm⟩
  | succ n =>
    have hm : m12 (d0 :: ds) = none := by simp [m12, hd0]
    rw [scanIter_cons_none m12 n d0 ds hm] at h
    exact ⟨n, ((List.cons.inj h).2).symm⟩

theorem scan12_wsOrEnd (n : Nat) (ds : Str) (h : wsOrEnd ds = true) :
    wsOrEnd (scanIter m12 n ds) = true := by
  cases ds with
  | nil =>
    rw [scanIter_nil]
    rfl
  | cons e es =>
    rcases scan12_head n e es with ⟨t, ht⟩ | ⟨t, ht⟩ <;> rw [ht]
    · exact h
    · show isWs ' ' = true
      decide

theorem scan12_rightSpaced : ∀ (n : Nat) (s : Str), rightSpaced s = true →
    rightSpaced (scanIter m12 n s) = true := by
  intro n
  induction n with
  | zero => intro s h; exact h
  | succ n ih =>
    intro s h
    cases s with
    | nil =>
      rw [scanIter_nil]
      rfl
    | cons c cs =>
      cases hm : m12 (c :: cs) with
      | some er =>
        obtain ⟨e, r⟩ := er
        rw [scanIter_cons_some m12 n c cs e r hm]
        obtain ⟨d0, w, hd0, hw, hs, he⟩ := m12_decomp _ _ _ hm
        subst he
        rw [show (([' '] : Str) ++ scanIter m12 n r) = ' ' :: scanIter m12 n r
          from rfl]
        rw [rightSpaced_cons_ne ' ' _ (by
          intro d t _ hcon
          rcases hcon with ⟨h1, _⟩ | ⟨h1, _⟩ <;> exact absurd h1 (by decide))]
        apply ih
        rw [hs] at h
        exact rightSpaced_suffix (d0 :: w) r h
      | none =>
        rw [scanIter_cons_none m12 n c cs hm]
        have hX : rightSpaced (scanIter m12 n cs) = true :=
          ih cs (rightSpaced_tail c cs h)
        by_cases hcon : ∃ d t, scanIter m12 n cs = d :: t ∧
            ((c = '&' ∧ d = '&') ∨ (c = '|' ∧ d = '|'))
        · obtain ⟨d, t, hdt, hc2⟩ := hcon
          cases cs with
          | nil =>
            rw [scanIter_nil] at hdt
            simp at hdt
          | cons d0 ds =>
            rcases scan12_head n d0 ds with ⟨t2, ht2⟩ | ⟨t2, ht2⟩
            · rw [ht2] at hdt
              have h1 : d0 = d := (List.cons.inj hdt).1
              have hcd : c = d0 := by
                rcases hc2 with ⟨hA, hB⟩ | ⟨hA, hB⟩ <;> rw [hA, h1, hB]
              have hcc : (c = '&' ∧ d0 = '&') ∨ (c = '|' ∧ d0 = '|') := by
                rcases hc2 with ⟨hA, hB⟩ | ⟨hA, hB⟩
                · exact Or.inl ⟨hA, by rw [← hcd]; exact hA⟩
                · exact Or.inr ⟨hA, by rw [← hcd]; exact hA⟩
              have hws : wsOrEnd ds = true := by
                simp only [rightSpaced, Bool.and_eq_true] at h
                have h1w := h.1
                rw [if_pos hcc] at h1w
                exact h1w
              have hd0ws : isWs d0 = false := by
                rw [← hcd]
                exact m12_none_head c (d0 :: ds) hm
              rw [ht2]
              simp only [rightSpaced, Bool.and_eq_true]
              constructor
              · rw [if_pos hcc]
                obtain ⟨k, hk⟩ := scan12_tail n d0 ds t2 hd0ws ht2
                rw [hk]
                exact scan12_wsOrEnd k ds hws
              · rw [← ht2]
                exact hX
            · rw [ht2] at hdt
              have hd : d = ' ' := ((List.cons.inj hdt).1).symm
              subst hd
              rcases hc2 with ⟨_, hb⟩ | ⟨_, hb⟩ <;> exact absurd hb (by decide)
        · rw [rightSpaced_cons_ne c _ (by
            intro d t hdt hc2
            exact hcon ⟨d, t, hdt, hc2⟩)]
          exact hX

theorem wsOrEnd_conn (c b : Str) (hc : isConnPair c) : wsOrEnd (c ++ b) = false := by
  rcases hc with rfl | rfl
  · show isWs '&' = false
    decide
  · show isWs '|' = false
    decide

theorem trim_rightSpaced (s : Str) (h : rightSpaced s = true) :
    rightSpaced (trimStr s) = true := by
  obtain ⟨w1, w2, hw1, hw2, hs⟩ := trim_decomp s
  rw [hs] at h
  exact rightSpaced_append_left (trimStr s) w2 (rightSpaced_suffix w1 _ h)

theorem cleanup_tail_rightSpaced (y : Str) :
    rightSpaced (trimStr (applyRep m12 (applyRep m8 y))) = true := by
  apply trim_rightSpaced
  apply scan12_rightSpaced
  exact scan8_rightSpaced y.length y (le_refl _)

theorem rule6_amp_idlt (s : Str) :
    rule6 s = s ∨ (rule6 s).countP isAmpCh < s.countP isAmpCh := by
  rcases rule6_id_or s with hid | ⟨w1, c, w2, hw1, hcp, hw2, hs⟩
  · exact Or.inl hid
  · right
    conv_rhs => rw [hs]
    have h3 := countP_conn isAmpCh (by decide) c hcp
    rw [show (if isAmpCh '&' = true then 2 else 0) = 2 from by decide] at h3
    simp [List.countP_append, countP_ws_zero isAmpCh ampWs w1 hw1,
      countP_ws_zero isAmpCh ampWs w2 hw2, h3]

/-- The master fixed-point characterization: at a fixed point of the pass,
rules 1–7 leave the string unchanged, and the composition of rule 8, rule 12
and the trim maps it to itself.  Proved by three successive potential
arguments: the parenthesis count (kills rules 1, 9, 10, 11), the junction
count (kills rule 7), and the `&`-count (kills rules 2–6). -/
theorem pass_fix_main (r : Str) (h : passOnce r = r) :
    applyRep m1 r = r ∧ applyRep m2 r = r ∧ applyRep m3 r = r ∧
      applyRep m4 r = r ∧ rule5 r = r ∧ rule6 r = r ∧ applyRep m7 r = r ∧
      trimStr (applyRep m12 (applyRep m8 r)) = r := by
  have hP1 : applyRep m1 r = r := pass_fix_rule1 r h
  have hpass : trimStr (applyRep m12 (applyRep m11 (applyRep m10 (applyRep m1
      (applyRep m8 (applyRep m7 (rule6 (rule5 (applyRep m4 (applyRep m3
        (applyRep m2 (applyRep m1 r)))))))))))) = r := h
  rw [hP1] at hpass
  obtain ⟨b2, hb2⟩ : ∃ b, applyRep m2 r = b := ⟨_, rfl⟩
  rw [hb2] at hpass
  obtain ⟨b3, hb3⟩ : ∃ b, applyRep m3 b2 = b := ⟨_, rfl⟩
  rw [hb3] at hpass
  obtain ⟨b4, hb4⟩ : ∃ b, applyRep m4 b3 = b := ⟨_, rfl⟩
  rw [hb4] at hpass
  obtain ⟨b5, hb5⟩ : ∃ b, rule5 b4 = b := ⟨_, rfl⟩
  rw [hb5] at hpass
  obtain ⟨b6, hb6⟩ : ∃ b, rule6 b5 = b := ⟨_, rfl⟩
  rw [hb6] at hpass
  obtain ⟨b7, hb7⟩ : ∃ b, applyRep m7 b6 = b := ⟨_, rfl⟩
  rw [hb7] at hpass
  obtain ⟨b8, hb8⟩ : ∃ b, applyRep m8 b7 = b := ⟨_, rfl⟩
  rw [hb8] at hpass
  obtain ⟨b9, hb9⟩ : ∃ b, applyRep m1 b8 = b := ⟨_, rfl⟩
  rw [hb9] at hpass
  obtain ⟨b10, hb10⟩ : ∃ b, applyRep m10 b9 = b := ⟨_, rfl⟩
  rw [hb10] at hpass
  obtain ⟨b11, hb11⟩ : ∃ b, applyRep m11 b10 = b := ⟨_, rfl⟩
  rw [hb11] at hpass
  obtain ⟨b12, hb12⟩ : ∃ b, applyRep m12 b11 = b := ⟨_, rfl⟩
  rw [hb12] at hpass
  have c2 : b2.countP isParenCh ≤ r.countP isParenCh := by
    rw [← hb2]; exact paren_le_m2 r
  have c3 : b3.countP isParenCh ≤ b2.countP isParenCh := by
    rw [← hb3]; exact paren_le_m3 b2
  have c4 : b4.countP isParenCh ≤ b3.countP isParenCh := by
    rw [← hb4]; exact paren_le_m4 b3
  have c5 : b5.countP isParenCh = b4.countP isParenCh := by
    rw [← hb5]; exact rule5_countP_eq isParenCh parenWs (by decide) (by decide) b4
  have c6 : b6.countP isParenCh = b5.countP isParenCh := by
    rw [← hb6]; exact rule6_countP_eq isParenCh parenWs (by decide) (by decide) b5
  have c7 : b7.countP isParenCh ≤ b6.countP isParenCh := by
    rw [← hb7]; exact paren_le_m7 b6
  have c8 : b8.countP isParenCh ≤ b7.countP isParenCh := by
    rw [← hb8]; exact paren_le_m8 b7
  have c9 : b9.countP isParenCh ≤ b8.countP isParenCh := by
    rw [← hb9]; exact paren_le_m1 b8
  have c10 : b10.countP isParenCh ≤ b9.countP isParenCh := by
    rw [← hb10]; exact paren_le_m10 b9
  have c11 : b11.countP isParenCh ≤ b10.countP isParenCh := by
    rw [← hb11]; exact paren_le_m11 b10
  have c12 : b12.countP isParenCh ≤ b11.countP isParenCh := by
    rw [← hb12]; exact paren_le_m12 b11
  have c13 : r.countP isParenCh = b12.countP isParenCh := by
    rw [← hpass]; exact trim_countP isParenCh parenWs b12
  have hP9 : b9 = b8 := by
    rcases paren_idlt_m1 b8 with hid | hlt
    · rw [← hb9, hid]
    · rw [hb9] at hlt
      omega
  have hP10 : b10 = b9 := by
    rcases paren_idlt_m10 b9 with hid | hlt
    · rw [← hb10, hid]
    · rw [hb10] at hlt
      omega
  have hP11 : b11 = b10 := by
    rcases paren_idlt_m11 b10 with hid | hlt
    · rw [← hb11, hid]
    · rw [hb11] at hlt
      omega
  have hb12' : applyRep m12 b8 = b12 := by
    rw [← hb12, hP11, hP10, hP9]
  have j2 : junc b2 = junc r := by
    rw [← hb2]; exact (scan_junc_exact m2 m2_junc r.length r).1
  have j3 : junc b3 = junc b2 := by
    rw [← hb3]; exact (scan_junc_exact m3 m3_junc b2.length b2).1
  have j4 : junc b4 = junc b3 := by
    rw [← hb4]; exact (scan_junc_exact m4 m4_junc b3.length b3).1
  have j5 : junc b5 = junc b4 := by
    rw [← hb5]; exact rule5_junc_eq b4
  have j6 : junc b6 = junc b5 := by
    rw [← hb6]; exact rule6_junc_eq b5
  have j7 : junc b7 ≤ junc b6 := by
    rw [← hb7]; exact (scan_junc_m7_le b6.length b6).1
  have j8 : junc b8 = junc b7 := by
    rw [← hb8]; exact (scan_junc_exact m8 m8_junc b7.length b7).1
  have j12 : junc b12 = junc b8 := by
    rw [← hb12']; exact (scan_junc_exact m12 m12_junc b8.length b8).1
  have j13 : junc r = junc b12 := by
    rw [← hpass]; exact trim_junc_eq b12
  have hJ7 : b7 = b6 := by
    rcases scan_junc_m7_idlt b6.length b6 with hid | hlt
    · rw [← hb7]; exact hid
    · exfalso
      have hlt2 : junc b7 < junc b6 := by rw [← hb7]; exact hlt
      omega
  have hb8' : applyRep m8 b6 = b8 := by
    rw [← hb8, hJ7]
  have a2 : b2.countP isAmpCh ≤ r.countP isAmpCh := by
    rw [← hb2]
    exact scan_cP_le m2 isAmpCh (fun s2 e2 r2 h2 => by
      obtain ⟨u, hu, hlt⟩ := m2_amp_strict s2 e2 r2 h2
      exact ⟨u, hu, Nat.le_of_lt hlt⟩) r.length r
  have a3 : b3.countP isAmpCh ≤ b2.countP isAmpCh := by
    rw [← hb3]
    exact scan_cP_le m3 isAmpCh (fun s2 e2 r2 h2 => by
      obtain ⟨u, hu, hlt⟩ := m3_amp_strict s2 e2 r2 h2
      exact ⟨u, hu, Nat.le_of_lt hlt⟩) b2.length b2
  have a4 : b4.countP isAmpCh ≤ b3.countP isAmpCh := by
    rw [← hb4]
    exact scan_cP_le m4 isAmpCh (fun s2 e2 r2 h2 => by
      obtain ⟨u, hu, hlt⟩ := m4_amp_strict s2 e2 r2 h2
      exact ⟨u, hu, Nat.le_of_lt hlt⟩) b3.length b3
  have a5 : b5.countP isAmpCh ≤ b4.countP isAmpCh := by
    rcases rule5_amp_idlt b4 with hid | hlt
    · rw [← hb5, hid]
    · rw [← hb5]; exact Nat.le_of_lt hlt
  have a6 : b6.countP isAmpCh ≤ b5.countP isAmpCh := by
    rcases rule6_amp_idlt b5 with hid | hlt
    · rw [← hb6, hid]
    · rw [← hb6]; exact Nat.le_of_lt hlt
  have a8 : b8.countP isAmpCh = b6.countP isAmpCh := by
    rw [← hb8']; exact amp_eq_m8 b6
  have a12 : b12.countP isAmpCh = b8.countP isAmpCh := by
    rw [← hb12']; exact amp_eq_m12 b8
  have a13 : r.countP isAmpCh = b12.countP isAmpCh := by
    rw [← hpass]; exact trim_countP isAmpCh ampWs b12
  have hA2 : b2 = r := by
    rcases scan_id_or_lt m2 isAmpCh m2_amp_strict r.length r with hid | hlt
    · rw [← hb2]; exact hid
    · exfalso
      have hlt2 : b2.countP isAmpCh < r.countP isAmpCh := by
        rw [← hb2]; exact hlt
      omega
  have hA3 : b3 = b2 := by
    rcases scan_id_or_lt m3 isAmpCh m3_amp_strict b2.length b2 with hid | hlt
    · rw [← hb3]; exact hid
    · exfalso
      have hlt2 : b3.countP isAmpCh < b2.countP isAmpCh := by
        rw [← hb3]; exact hlt
      omega
  have hA4 : b4 = b3 := by
    rcases scan_id_or_lt m4 isAmpCh m4_amp_strict b3.length b3 with hid | hlt
    · rw [← hb4]; exact hid
    · exfalso
      have hlt2 : b4.countP isAmpCh < b3.countP isAmpCh := by
        rw [← hb4]; exact hlt
      omega
  have hA5 : b5 = b4 := by
    rcases rule5_amp_idlt b4 with hid | hlt
    · rw [← hb5]; exact hid
    · exfalso
      have hlt2 : b5.countP isAmpCh < b4.countP isAmpCh := by
        rw [← hb5]; exact hlt
      omega
  have hA6 : b6 = b5 := by
    rcases rule6_amp_idlt b5 with hid | hlt
    · rw [← hb6]; exact hid
    · exfalso
      have hlt2 : b6.countP isAmpCh < b5.countP isAmpCh := by
        rw [← hb6]; exact hlt
      omega
  refine ⟨hP1, ?_, ?_, ?_, ?_, ?_, ?_, ?_⟩
  · rw [hb2]; exact hA2
  · rw [← hA2, hb3]; exact hA3
  · rw [← hA2, ← hA3, hb4]; exact hA4
  · rw [← hA2, ← hA3, ← hA4, hb5]; exact hA5
  · rw [← hA2, ← hA3, ← hA4, ← hA5, hb6]; exact hA6
  · rw [← hA2, ← hA3, ← hA4, ← hA5, ← hA6, hb7]; exact hJ7
  · rw [← hA2, ← hA3, ← hA4, ← hA5, ← hA6, hb8', hb12', hpass, hA6, hA5, hA4,
      hA3, hA2]

/-! ### Fuel-independence of the global scan and local stepping -/

theorem scanIter_fuel (m : Matcher)
    (H : ∀ s e r, m s = some (e, r) → ∃ u, u ≠ [] ∧ s = u ++ r) :
    ∀ (a b : Nat) (s : Str), s.length ≤ a → s.length ≤ b →
      scanIter m a s = scanIter m b s := by
  intro a
  induction a with
  | zero =>
    intro b s ha _
    have hs : s = [] := List.length_eq_zero.mp (Nat.le_zero.mp ha)
    subst hs
    rw [scanIter_nil, scanIter_nil]
  | succ a ih =>
    intro b s ha hb
    cases s with
    | nil => rw [scanIter_nil, scanIter_nil]
    | cons c cs =>
      cases b with
      | zero => simp at hb
      | succ b =>
        cases hm : m (c :: cs) with
        | none =>
          rw [scanIter_cons_none m a c cs hm, scanIter_cons_none m b c cs hm,
            ih b cs (by simpa using ha) (by simpa using hb)]
        | some er =>
          obtain ⟨e, r⟩ := er
          rw [scanIter_cons_some m a c cs e r hm,
            scanIter_cons_some m b c cs e r hm]
          obtain ⟨u, hune, hu⟩ := H _ _ _ hm
          have hul : 1 ≤ u.length := by
            cases u with
            | nil => exact absurd rfl hune
            | cons x xs => simp
          have hlen := congrArg List.length hu
          simp [List.length_append] at hlen
          have ha' : cs.length + 1 ≤ a + 1 := by simpa using ha
          have hb' : cs.length + 1 ≤ b + 1 := by simpa using hb
          rw [ih b r (by omega) (by omega)]

theorem m8_consume : ∀ s e r, m8 s = some (e, r) → ∃ u, u ≠ [] ∧ s = u ++ r := by
  intro s e r h
  obtain ⟨w1, c, w2, _, hc, _, hs, _⟩ := m8_decomp s e r h
  exact ⟨w1 ++ c ++ w2, by rcases hc with rfl | rfl <;> simp, hs⟩

theorem m12_consume : ∀ s e r, m12 s = some (e, r) → ∃ u, u ≠ [] ∧ s = u ++ r := by
  intro s e r h
  obtain ⟨d, w, _, _, hs, _⟩ := m12_decomp s e r h
  exact ⟨d :: w, by simp, hs⟩

theorem applyRep_step_none (m : Matcher) (c : Char) (cs : Str)
    (hm : m (c :: cs) = none) :
    applyRep m (c :: cs) = c :: applyRep m cs := by
  unfold applyRep
  rw [List.length_cons, scanIter_cons_none m cs.length c cs hm]

theorem applyRep_step_some (m : Matcher)
    (H : ∀ s e r, m s = some (e, r) → ∃ u, u ≠ [] ∧ s = u ++ r)
    (s e r : Str) (hm : m s = some (e, r)) (hs : s ≠ []) :
    applyRep m s = e ++ applyRep m r := by
  cases s with
  | nil => exact absurd rfl hs
  | cons c cs =>
    unfold applyRep
    rw [List.length_cons, scanIter_cons_some m cs.length c cs e r hm]
    congr 1
    obtain ⟨u, hune, hu⟩ := H _ _ _ hm
    have hul : 1 ≤ u.length := by
      cases u with
      | nil => exact absurd rfl hune
      | cons x xs => simp
    have hlen := congrArg List.length hu
    simp [List.length_append] at hlen
    exact scanIter_fuel m H cs.length r.length r (by omega) (le_refl _)

theorem grab_snd_le (p : Char → Bool) (s : Str) :
    (grab p s).2.length ≤ s.length := by
  have := congrArg List.length (grab_append p s)
  rw [List.length_append] at this
  omega

/-! ### Stepping rules 8 and 12 over explicit prefixes -/

theorem m12rep_space (z : Str) :
    applyRep m12 (' ' :: z) =
      if headWsB z = true then applyRep m12 z else ' ' :: applyRep m12 z := by
  cases z with
  | nil => decide
  | cons d ds =>
    by_cases hd : isWs d
    · rw [if_pos (by simpa [headWsB] using hd)]
      have hm1 : m12 (' ' :: d :: ds) = some ([' '], (grab isWs (d :: ds)).2) := by
        simp [m12, show isWs ' ' = true from by decide]
      have hm2 : m12 (d :: ds) = some ([' '], (grab isWs ds).2) := by
        simp [m12, hd]
      have hg : (grab isWs (d :: ds)).2 = (grab isWs ds).2 := by
        rw [grab_cons_pos isWs d ds hd]
      rw [applyRep_step_some m12 m12_consume _ _ _ hm1 (by simp),
        applyRep_step_some m12 m12_consume _ _ _ hm2 (by simp), hg]
    · rw [if_neg (by simpa [headWsB] using hd)]
      have hgr : grab isWs (d :: ds) = ([], d :: ds) :=
        grab_cons_neg isWs d ds (by simpa using hd)
      have hm : m12 (' ' :: d :: ds) = some ([' '], d :: ds) := by
        simp [m12, show isWs ' ' = true from by decide, hgr]
      rw [applyRep_step_some m12 m12_consume _ _ _ hm (by simp)]
      rfl

theorem readConn_nostart (t : Str) (h : startsConn t = false) :
    readConn t = none := by
  cases t with
  | nil => rfl
  | cons a t1 =>
    cases t1 with
    | nil => rfl
    | cons b t2 =>
      by_cases h1 : a = '&' ∧ b = '&'
      · exfalso
        simp [startsConn, connB, h1.1, h1.2] at h
      · by_cases h2 : a = '|' ∧ b = '|'
        · exfalso
          simp [startsConn, connB, h2.1, h2.2] at h
        · simp [readConn, h1, h2]

theorem startsConn_decomp (t : Str) (h : startsConn t = true) :
    ∃ c r, isConnPair c ∧ t = c ++ r := by
  cases t with
  | nil => simp [startsConn] at h
  | cons a t1 =>
    cases t1 with
    | nil => simp [startsConn] at h
    | cons b t2 =>
      simp only [startsConn, connB, Bool.or_eq_true, Bool.and_eq_true,
        decide_eq_true_eq] at h
      rcases h with ⟨rfl, rfl⟩ | ⟨rfl, rfl⟩
      · exact ⟨['&', '&'], t2, Or.inl rfl, rfl⟩
      · exact ⟨['|', '|'], t2, Or.inr rfl, rfl⟩

theorem m8_none_head (a : Char) (t2 : Str) (ha : isWs a = false)
    (h : startsConn (a :: t2) = false) : m8 (a :: t2) = none := by
  have hg : grab isWs (a :: t2) = ([], a :: t2) := grab_cons_neg isWs a t2 ha
  have hr : readConn (a :: t2) = none := readConn_nostart _ h
  simp [m8, hg, hr]

theorem m8_none_sp (t3 : Str) (h3 : headWsB t3 = false)
    (h : startsConn t3 = false) : m8 (' ' :: t3) = none := by
  have hg3 : grab isWs t3 = ([], t3) := grab_none isWs t3 (by
    intro c ts hct
    subst hct
    simpa [headWsB] using h3)
  have hg : grab isWs (' ' :: t3) = ([' '], t3) := by
    rw [grab_cons_pos isWs ' ' t3 (by decide), hg3]
  have hr : readConn t3 = none := readConn_nostart _ h
  simp [m8, hg, hr]

theorem m8_conn_sp (c : Str) (hc : isConnPair c) (t' : Str)
    (h' : headWsB t' = false) :
    m8 (c ++ ' ' :: t') = some (' ' :: (c ++ [' ']), t') := by
  have hg' : grab isWs t' = ([], t') := grab_none isWs t' (by
    intro d ts hdt
    subst hdt
    simpa [headWsB] using h')
  have hgs : (grab isWs (' ' :: t')).2 = t' := by
    rw [grab_cons_pos isWs ' ' t' (by decide), hg']
  have := m8_matches c (' ' :: t') hc
  rw [hgs] at this
  exact this

theorem m8_conn_end (c : Str) (hc : isConnPair c) :
    m8 c = some (' ' :: (c ++ [' ']), []) := by
  have := m8_matches c [] hc
  rw [List.append_nil] at this
  exact this

theorem m8_sp_conn (c : Str) (hc : isConnPair c) (t' : Str)
    (h' : headWsB t' = false) :
    m8 (' ' :: (c ++ ' ' :: t')) = some (' ' :: (c ++ [' ']), t') := by
  have hg' : grab isWs t' = ([], t') := grab_none isWs t' (by
    intro d ts hdt
    subst hdt
    simpa [headWsB] using h')
  have hgs : (grab isWs (' ' :: t')).2 = t' := by
    rw [grab_cons_pos isWs ' ' t' (by decide), hg']
  have hgc : grab isWs (c ++ ' ' :: t') = ([], c ++ ' ' :: t') :=
    grab_ws_conn c (' ' :: t') hc
  have hgrab : (grab isWs (' ' :: (c ++ ' ' :: t'))).2 = c ++ ' ' :: t' := by
    rw [grab_cons_pos isWs ' ' (c ++ ' ' :: t') (by decide), hgc]
  have hrc : readConn (c ++ ' ' :: t') = some (c, ' ' :: t') :=
    readConn_conn c (' ' :: t') hc
  simp [m8, hgrab, hrc, hgs]

theorem m8_sp_conn_end (c : Str) (hc : isConnPair c) :
    m8 (' ' :: c) = some (' ' :: (c ++ [' ']), []) := by
  have hgc : grab isWs c = ([], c) := by simpa using grab_ws_conn c [] hc
  have hgrab : (grab isWs (' ' :: c)).2 = c := by
    rw [grab_cons_pos isWs ' ' c (by decide), hgc]
  have hrc : readConn c = some (c, []) := by simpa using readConn_conn c [] hc
  simp only [m8]
  rw [hgrab, hrc]
  simp [grab]

theorem m8rep_headWs (d : Char) (ds : Str) (hd : isWs d = false) :
    headWsB (applyRep m8 (d :: ds)) = startsConn (d :: ds) := by
  cases hsc : startsConn (d :: ds) with
  | false =>
    rw [applyRep_step_none m8 d ds (m8_none_head d ds hd hsc)]
    simp [headWsB, hd]
  | true =>
    obtain ⟨c, r, hc, hcr⟩ := startsConn_decomp _ hsc
    have hm := m8_matches c r hc
    rw [← hcr] at hm
    rw [applyRep_step_some m8 m8_consume _ _ _ hm (by simp)]
    rcases hc with rfl | rfl <;> rfl

/-! ### Facts about the spacing predicates -/

theorem endsConn_cons₂ (a b : Char) (t : Str) (ht : t ≠ []) :
    endsConn (a :: b :: t) = endsConn (b :: t) := by
  cases t with
  | nil => exact absurd rfl ht
  | cons x xs => rfl

theorem endsConn_sp : ∀ (x y : Str), y ≠ [] →
    endsConn (x ++ ' ' :: y) = endsConn y := by
  intro x
  induction x with
  | nil =>
    intro y hy
    cases y with
    | nil => exact absurd rfl hy
    | cons d ds =>
      cases ds with
      | nil =>
        show connB ' ' d = false
        simp [connB]
      | cons e es => rfl
  | cons a x2 ih =>
    intro y hy
    rw [List.cons_append]
    cases hx2 : x2 with
    | nil =>
      simp only [List.nil_append]
      rw [endsConn_cons₂ a ' ' y hy]
      have := ih y hy
      rw [hx2] at this
      simpa using this
    | cons a2 t2 =>
      rw [show (a2 :: t2 : Str) ++ ' ' :: y = a2 :: (t2 ++ ' ' :: y) from rfl,
        endsConn_cons₂ a a2 (t2 ++ ' ' :: y) (by simp)]
      have := ih y hy
      rw [hx2] at this
      simpa using this

theorem startsConn_cons_sp (a : Char) (z : Str) :
    startsConn (a :: ' ' :: z) = false := by
  simp [startsConn, connB]

theorem singleWs_tail (a : Char) (s : Str) (h : singleWs (a :: s) = true) :
    singleWs s = true := by
  cases s with
  | nil => rfl
  | cons b t =>
    simp only [singleWs, Bool.and_eq_true] at h
    exact h.2

theorem lSp_tail (ok : Bool) (a : Char) (s : Str) (h : lSp ok (a :: s) = true) :
    lSp (isWs a) s = true := by
  cases s with
  | nil => rfl
  | cons b t =>
    simp only [lSp, Bool.and_eq_true] at h
    exact h.2

theorem lSp_false_nostart (s : Str) (h : lSp false s = true) :
    startsConn s = false := by
  cases s with
  | nil => rfl
  | cons a t =>
    cases t with
    | nil => rfl
    | cons b t2 =>
      simp only [lSp, Bool.and_eq_true] at h
      have h1 := h.1
      cases hcb : connB a b with
      | false => simpa [startsConn] using hcb
      | true =>
        rw [if_pos hcb] at h1
        exact absurd h1 (by decide)

theorem lastWsB_cons (a : Char) (s : Str) (hs : s ≠ []) :
    lastWsB (a :: s) = lastWsB s := by
  unfold lastWsB
  rw [show (a :: s : Str) = [a] ++ s from rfl,
    List.getLast?_append_of_ne_nil _ hs]

theorem lastWsB_append (x y : Str) (hy : y ≠ []) :
    lastWsB (x ++ y) = lastWsB y := by
  unfold lastWsB
  rw [List.getLast?_append_of_ne_nil _ hy]

theorem lSp_mono : ∀ s, lSp false s = true → lSp true s = true := by
  intro s h
  cases s with
  | nil => rfl
  | cons a t =>
    cases t with
    | nil => rfl
    | cons b t2 =>
      simp only [lSp, Bool.and_eq_true] at h ⊢
      exact ⟨by simp, h.2⟩

theorem singleWs_head_ws (b : Char) (t3 : Str) (hws : isWs b = true)
    (hS : singleWs (b :: t3) = true) :
    b = ' ' ∧ (∀ d ds, t3 = d :: ds → isWs d = false) := by
  cases t3 with
  | nil =>
    refine ⟨?_, by intro d ds h; simp at h⟩
    simp only [singleWs] at hS
    rw [if_pos hws] at hS
    by_cases hr : b = ' '
    · exact hr
    · rw [if_neg hr] at hS
      exact absurd hS (by decide)
  | cons d ds =>
    simp only [singleWs, Bool.and_eq_true] at hS
    have h1 := hS.1
    rw [if_pos hws] at h1
    by_cases hnd : b = ' ' ∧ isWs d = false
    · refine ⟨hnd.1, ?_⟩
      intro d2 ds2 h
      rw [← (List.cons.inj h).1]
      exact hnd.2
    · rw [if_neg hnd] at h1
      exact absurd h1 (by decide)

theorem singleWs_conn_peel (c : Str) (hc : isConnPair c) (y : Str)
    (h : singleWs (c ++ y) = true) : singleWs y = true := by
  rcases hc with rfl | rfl <;> exact singleWs_tail _ _ (singleWs_tail _ _ h)

theorem rightSpaced_conn_peel (c : Str) (hc : isConnPair c) (y : Str)
    (h : rightSpaced (c ++ y) = true) : rightSpaced y = true := by
  rcases hc with rfl | rfl <;> exact rightSpaced_tail _ _ (rightSpaced_tail _ _ h)

theorem lSp_conn_peel (c : Str) (hc : isConnPair c) (y : Str) (ok : Bool)
    (h : lSp ok (c ++ y) = true) : lSp false y = true := by
  rcases hc with rfl | rfl <;> exact lSp_tail _ _ _ (lSp_tail ok _ _ h)

theorem spacing_after_conn (c : Str) (hc : isConnPair c) (r0 : Char)
    (rest1 : Str) (hS : singleWs (c ++ r0 :: rest1) = true)
    (hR : rightSpaced (c ++ r0 :: rest1) = true) :
    r0 = ' ' ∧ (∀ d ds, rest1 = d :: ds → isWs d = false) := by
  have hws : isWs r0 = true := by
    rcases hc with rfl | rfl <;>
    · simp only [List.cons_append, List.nil_append, rightSpaced,
        Bool.and_eq_true] at hR
      have h1 := hR.1
      rw [if_pos (by simp)] at h1
      exact h1
  exact singleWs_head_ws r0 rest1 hws (singleWs_conn_peel c hc _ hS)

theorem endsConn_conn (c : Str) (hc : isConnPair c) : endsConn c = true := by
  rcases hc with rfl | rfl <;> decide

theorem headWsB_conn (c : Str) (hc : isConnPair c) (z : Str) :
    headWsB (c ++ z) = false := by
  rcases hc with rfl | rfl <;> rfl

theorem m12rep_conn_copy (c : Str) (hc : isConnPair c) (z : Str) :
    applyRep m12 (c ++ z) = c ++ applyRep m12 z := by
  rcases hc with rfl | rfl
  · show applyRep m12 ('&' :: '&' :: z) = '&' :: '&' :: applyRep m12 z
    rw [applyRep_step_none m12 '&' ('&' :: z)
        (by simp [m12, show isWs '&' = false from by decide]),
      applyRep_step_none m12 '&' z
        (by simp [m12, show isWs '&' = false from by decide])]
  · show applyRep m12 ('|' :: '|' :: z) = '|' :: '|' :: applyRep m12 z
    rw [applyRep_step_none m12 '|' ('|' :: z)
        (by simp [m12, show isWs '|' = false from by decide]),
      applyRep_step_none m12 '|' z
        (by simp [m12, show isWs '|' = false from by decide])]

theorem m12_block (c : Str) (hc : isConnPair c) (t4 : Str)
    (hIH : applyRep m12 (applyRep m8 t4) = padL t4 ++ (t4 ++ padR t4))
    (hhead : headWsB (applyRep m8 t4) = startsConn t4) :
    applyRep m12 ((' ' :: (c ++ [' '])) ++ applyRep m8 t4)
      = ' ' :: (c ++ ' ' :: (t4 ++ padR t4)) := by
  have hassoc : (' ' :: (c ++ [' '])) ++ applyRep m8 t4
      = ' ' :: (c ++ ' ' :: applyRep m8 t4) := by simp
  rw [hassoc, m12rep_space,
    if_neg (by simp [headWsB_conn c hc (' ' :: applyRep m8 t4)]),
    m12rep_conn_copy c hc (' ' :: applyRep m8 t4), m12rep_space, hhead]
  cases hst : startsConn t4 with
  | true =>
    rw [if_pos rfl, hIH, show padL t4 = [' '] from by simp [padL, hst]]
    rfl
  | false =>
    rw [if_neg (by simp), hIH, show padL t4 = [] from by simp [padL, hst]]
    simp

theorem conn_seg (c : Str) (hc : isConnPair c) (y : Str) (hyne : y ≠ [])
    (hyh : headWsB y = false)
    (hIH : applyRep m12 (applyRep m8 y) = padL y ++ (y ++ padR y)) :
    applyRep m12 (applyRep m8 (c ++ ' ' :: y))
      = ' ' :: (c ++ ' ' :: (y ++ padR y)) := by
  rw [applyRep_step_some m8 m8_consume _ _ _ (m8_conn_sp c hc y hyh)
    (by rcases hc with rfl | rfl <;> simp)]
  refine m12_block c hc y hIH ?_
  cases y with
  | nil => exact absurd rfl hyne
  | cons d ds => exact m8rep_headWs d ds (by simpa [headWsB] using hyh)

theorem sp_conn_seg (c : Str) (hc : isConnPair c) (y : Str) (hyne : y ≠ [])
    (hyh : headWsB y = false)
    (hIH : applyRep m12 (applyRep m8 y) = padL y ++ (y ++ padR y)) :
    applyRep m12 (applyRep m8 (' ' :: (c ++ ' ' :: y)))
      = ' ' :: (c ++ ' ' :: (y ++ padR y)) := by
  rw [applyRep_step_some m8 m8_consume _ _ _ (m8_sp_conn c hc y hyh) (by simp)]
  refine m12_block c hc y hIH ?_
  cases y with
  | nil => exact absurd rfl hyne
  | cons d ds => exact m8rep_headWs d ds (by simpa [headWsB] using hyh)

theorem conn_end_seg (c : Str) (hc : isConnPair c) :
    applyRep m12 (applyRep m8 c) = ' ' :: (c ++ [' ']) := by
  rcases hc with rfl | rfl <;> decide

theorem sp_conn_end_seg (c : Str) (hc : isConnPair c) :
    applyRep m12 (applyRep m8 (' ' :: c)) = ' ' :: (c ++ [' ']) := by
  rcases hc with rfl | rfl <;> decide

/-- On a perfectly spaced string (all whitespace is a single `' '`, no
boundary whitespace, every connective spaced or at a boundary), rules 8 and
12 only re-insert the boundary spaces around a leading or trailing
connective. -/
theorem gen_m12_m8 : ∀ (N : Nat) (t : Str), t.length ≤ N →
    singleWs t = true → noBoundWs t = true → rightSpaced t = true →
    leftSpaced t = true →
    applyRep m12 (applyRep m8 t) = padL t ++ (t ++ padR t) := by
  intro N
  induction N with
  | zero =>
    intro t hlen _ _ _ _
    have ht : t = [] := List.length_eq_zero.mp (Nat.le_zero.mp hlen)
    subst ht
    rfl
  | succ N ih =>
    intro t hlen hS hB hR hL
    have hB2 : headWsB t = false ∧ lastWsB t = false := by
      simp only [noBoundWs, Bool.and_eq_true, Bool.not_eq_true'] at hB
      exact hB
    cases ht : startsConn t with
    | true =>
      obtain ⟨c, rest, hc, hcr⟩ := startsConn_decomp t ht
      subst hcr
      cases rest with
      | nil =>
        rcases hc with rfl | rfl <;> decide
      | cons r0 rest1 =>
        obtain ⟨hr0, hd1⟩ := spacing_after_conn c hc r0 rest1 hS hR
        subst hr0
        cases rest1 with
        | nil =>
          exfalso
          have hlst := hB2.2
          rw [lastWsB_append c [' '] (by simp)] at hlst
          exact absurd hlst (by decide)
        | cons d t4p =>
          have hd : isWs d = false := hd1 d t4p rfl
          have hS4 : singleWs (d :: t4p) = true :=
            singleWs_tail ' ' _ (singleWs_conn_peel c hc _ hS)
          have hR4 : rightSpaced (d :: t4p) = true :=
            rightSpaced_tail ' ' _ (rightSpaced_conn_peel c hc _ hR)
          have hL4 : leftSpaced (d :: t4p) = true :=
            lSp_tail false ' ' _ (lSp_conn_peel c hc _ true hL)
          have hlast4 : lastWsB (d :: t4p) = false := by
            have hx := hB2.2
            rw [lastWsB_append c (' ' :: d :: t4p) (by simp),
              lastWsB_cons ' ' (d :: t4p) (by simp)] at hx
            exact hx
          have hnb4 : noBoundWs (d :: t4p) = true := by
            simp [noBoundWs, headWsB, hd, hlast4]
          have hcl : c.length = 2 := by rcases hc with rfl | rfl <;> rfl
          have hlen4 : (d :: t4p).length ≤ N := by
            simp only [List.length_append, List.length_cons] at hlen ⊢
            omega
          have hIH := ih (d :: t4p) hlen4 hS4 hnb4 hR4 hL4
          rw [conn_seg c hc (d :: t4p) (by simp) (by simp [headWsB, hd]) hIH,
            show padL (c ++ ' ' :: d :: t4p) = [' '] from by simp [padL, ht],
            show padR (c ++ ' ' :: d :: t4p) = padR (d :: t4p) from by
              simp only [padR]
              rw [endsConn_sp c (d :: t4p) (by simp)]]
          simp
    | false =>
      cases t with
      | nil => rfl
      | cons a t2 =>
        have ha : isWs a = false := by simpa [headWsB] using hB2.1
        cases t2 with
        | nil =>
          rw [applyRep_step_none m8 a [] (m8_none_head a [] ha rfl),
            show applyRep m8 ([] : Str) = [] from rfl,
            applyRep_step_none m12 a [] (by simp [m12, ha]),
            show applyRep m12 ([] : Str) = [] from rfl,
            show padL [a] = [] from by simp [padL, startsConn],
            show padR [a] = [] from by simp [padR, endsConn]]
          rfl
        | cons b t3 =>
          have hsc2 : startsConn (a :: b :: t3) = false := ht
          by_cases hb : isWs b = true
          · obtain ⟨hb2, hd3⟩ := singleWs_head_ws b t3 hb (singleWs_tail a _ hS)
            subst hb2
            cases t3 with
            | nil =>
              exfalso
              have hx := hB2.2
              rw [lastWsB_cons a [' '] (by simp)] at hx
              exact absurd hx (by decide)
            | cons d t4p =>
              have hd : isWs d = false := hd3 d t4p rfl
              have hS3 : singleWs (d :: t4p) = true :=
                singleWs_tail ' ' _ (singleWs_tail a _ hS)
              have hR3 : rightSpaced (d :: t4p) = true :=
                rightSpaced_tail ' ' _ (rightSpaced_tail a _ hR)
              have hL3 : leftSpaced (d :: t4p) = true :=
                lSp_tail (isWs a) ' ' _ (lSp_tail true a _ hL)
              have hlast3 : lastWsB (d :: t4p) = false := by
                have hx := hB2.2
                rw [lastWsB_cons a (' ' :: d :: t4p) (by simp),
                  lastWsB_cons ' ' (d :: t4p) (by simp)] at hx
                exact hx
              cases hst3 : startsConn (d :: t4p) with
              | true =>
                obtain ⟨c, rest2, hc, hcr3⟩ := startsConn_decomp _ hst3
                rw [hcr3] at hS3 hR3 hL3 hlast3
                cases rest2 with
                | nil =>
                  rw [hcr3]
                  simp only [List.append_nil]
                  rw [applyRep_step_none m8 a (' ' :: c)
                      (m8_none_head a _ ha (startsConn_cons_sp a c)),
                    applyRep_step_none m12 a _ (by simp [m12, ha]),
                    sp_conn_end_seg c hc,
                    show padL (a :: ' ' :: c) = [] from by
                      simp [padL, startsConn_cons_sp],
                    show padR (a :: ' ' :: c) = [' '] from by
                      simp only [padR]
                      rw [show (a :: ' ' :: c : Str) = [a] ++ ' ' :: c from rfl,
                        endsConn_sp [a] c (by
                          rcases hc with rfl | rfl <;> simp),
                        endsConn_conn c hc]
                      rfl]
                  simp
                | cons r2 rest3 =>
                  obtain ⟨hr2, hd5⟩ := spacing_after_conn c hc r2 rest3 hS3 hR3
                  subst hr2
                  cases rest3 with
                  | nil =>
                    exfalso
                    rw [lastWsB_append c [' '] (by simp)] at hlast3
                    exact absurd hlast3 (by decide)
                  | cons e t5 =>
                    have he : isWs e = false := hd5 e t5 rfl
                    have hS5 : singleWs (e :: t5) = true :=
                      singleWs_tail ' ' _ (singleWs_conn_peel c hc _ hS3)
                    have hR5 : rightSpaced (e :: t5) = true :=
                      rightSpaced_tail ' ' _ (rightSpaced_conn_peel c hc _ hR3)
                    have hL5 : leftSpaced (e :: t5) = true :=
                      lSp_tail false ' ' _ (lSp_conn_peel c hc _ true hL3)
                    have hlast5 : lastWsB (e :: t5) = false := by
                      rw [lastWsB_append c (' ' :: e :: t5) (by simp),
                        lastWsB_cons ' ' (e :: t5) (by simp)] at hlast3
                      exact hlast3
                    have hnb5 : noBoundWs (e :: t5) = true := by
                      simp [noBoundWs, headWsB, he, hlast5]
                    have hcl : c.length = 2 := by rcases hc with rfl | rfl <;> rfl
                    have hlen5 : (e :: t5).length ≤ N := by
                      have hlc := congrArg List.length hcr3
                      simp only [List.length_append, List.length_cons] at hlen hlc ⊢
                      omega
                    have hIH := ih (e :: t5) hlen5 hS5 hnb5 hR5 hL5
                    rw [hcr3,
                      applyRep_step_none m8 a (' ' :: (c ++ ' ' :: e :: t5))
                        (m8_none_head a _ ha (startsConn_cons_sp a _)),
                      applyRep_step_none m12 a _ (by simp [m12, ha]),
                      sp_conn_seg c hc (e :: t5) (by simp)
                        (by simp [headWsB, he]) hIH,
                      show padL (a :: ' ' :: (c ++ ' ' :: e :: t5)) = [] from by
                        simp [padL, startsConn_cons_sp],
                      show padR (a :: ' ' :: (c ++ ' ' :: e :: t5))
                          = padR (e :: t5) from by
                        simp only [padR]
                        rw [show (a :: ' ' :: (c ++ ' ' :: e :: t5) : Str)
                            = [a] ++ ' ' :: (c ++ ' ' :: e :: t5) from rfl,
                          endsConn_sp [a] _ (by
                            rcases hc with rfl | rfl <;> simp),
                          endsConn_sp c (e :: t5) (by simp)]]
                    simp
              | false =>
                have hnb3 : noBoundWs (d :: t4p) = true := by
                  simp [noBoundWs, headWsB, hd, hlast3]
                have hlen3 : (d :: t4p).length ≤ N := by
                  simp only [List.length_cons] at hlen ⊢
                  omega
                have hIH := ih (d :: t4p) hlen3 hS3 hnb3 hR3 hL3
                rw [applyRep_step_none m8 a (' ' :: d :: t4p)
                    (m8_none_head a _ ha (startsConn_cons_sp a _)),
                  applyRep_step_none m8 ' ' (d :: t4p)
                    (m8_none_sp (d :: t4p) (by simp [headWsB, hd]) hst3),
                  applyRep_step_none m12 a _ (by simp [m12, ha]),
                  m12rep_space, m8rep_headWs d t4p hd, hst3, if_neg (by simp),
                  hIH,
                  show padL (d :: t4p) = [] from by simp [padL, hst3],
                  show padL (a :: ' ' :: d :: t4p) = [] from by
                    simp [padL, startsConn_cons_sp],
                  show padR (a :: ' ' :: d :: t4p) = padR (d :: t4p) from by
                    simp only [padR]
                    rw [show (a :: ' ' :: d :: t4p : Str)
                        = [a] ++ ' ' :: (d :: t4p) from rfl,
                      endsConn_sp [a] (d :: t4p) (by simp)]]
                simp
          · have hbf : isWs b = false := by simpa using hb
            have hS2 : singleWs (b :: t3) = true := singleWs_tail a _ hS
            have hR2 : rightSpaced (b :: t3) = true := rightSpaced_tail a _ hR
            have hl1 : lSp (isWs a) (b :: t3) = true := lSp_tail true a _ hL
            rw [ha] at hl1
            have hL2 : leftSpaced (b :: t3) = true := lSp_mono _ hl1
            have hst2 : startsConn (b :: t3) = false := lSp_false_nostart _ hl1
            have hlast2 : lastWsB (b :: t3) = false := by
              have hx := hB2.2
              rw [lastWsB_cons a (b :: t3) (by simp)] at hx
              exact hx
            have hnb2 : noBoundWs (b :: t3) = true := by
              simp [noBoundWs, headWsB, hbf, hlast2]
            have hlen2 : (b :: t3).length ≤ N := by
              simp only [List.length_cons] at hlen ⊢
              omega
            have hIH := ih (b :: t3) hlen2 hS2 hnb2 hR2 hL2
            rw [applyRep_step_none m8 a (b :: t3) (m8_none_head a _ ha hsc2),
              applyRep_step_none m12 a _ (by simp [m12, ha]), hIH,
              show padL (b :: t3) = [] from by simp [padL, hst2],
              show padL (a :: b :: t3) = [] from by simp [padL, hsc2]]
            have hpRt : padR (a :: b :: t3) = padR (b :: t3) := by
              simp only [padR]
              cases t3 with
              | nil =>
                rw [show endsConn [a, b] = false from hsc2,
                  show endsConn [b] = false from rfl]
              | cons x xs => rw [endsConn_cons₂ a b (x :: xs) (by simp)]
            rw [hpRt]
            simp

/-! ### Exact trimming and the image invariants of rules 8 + 12 + trim -/

theorem dropWhile_ws_skip : ∀ (w : Str), allWs w →
    ∀ x : Str, List.dropWhile isWs (w ++ x) = List.dropWhile isWs x := by
  intro w
  induction w with
  | nil => intro _ x; rfl
  | cons cw ws ihw =>
    intro hw x
    have hcw : isWs cw = true := hw cw (by simp)
    rw [List.cons_append]
    simp only [List.dropWhile, hcw]
    exact ihw (fun ch hch => hw ch (List.mem_cons_of_mem _ hch)) x

theorem dropWhile_nonws (x : Str) (hx : headWsB x = false) :
    List.dropWhile isWs x = x := by
  cases x with
  | nil => rfl
  | cons d ds =>
    have hd : isWs d = false := by simpa [headWsB] using hx
    simp only [List.dropWhile, hd]

theorem trim_exact (w1 w2 t : Str) (hw1 : allWs w1) (hw2 : allWs w2)
    (hth : headWsB t = false) (htl : lastWsB t = false) (htne : t ≠ []) :
    trimStr (w1 ++ (t ++ w2)) = t := by
  unfold trimStr
  have h1 : headWsB (t ++ w2) = false := by
    cases t with
    | nil => exact absurd rfl htne
    | cons d ds => simpa [headWsB] using hth
  rw [dropWhile_ws_skip w1 hw1 (t ++ w2), dropWhile_nonws (t ++ w2) h1,
    List.reverse_append,
    dropWhile_ws_skip w2.reverse
      (fun ch hch => hw2 ch (List.mem_reverse.mp hch)) t.reverse]
  have h2 : headWsB t.reverse = false := by
    obtain ⟨e, rest, her⟩ : ∃ e rest, t.reverse = e :: rest := by
      cases hrev : t.reverse with
      | nil => exact absurd (by simpa using congrArg List.reverse hrev) htne
      | cons e rest => exact ⟨e, rest, rfl⟩
    have hh : t.reverse.head? = t.getLast? := List.head?_reverse t
    rw [her] at hh
    unfold lastWsB at htl
    rw [← hh] at htl
    rw [her]
    simpa [headWsB] using htl
  rw [dropWhile_nonws t.reverse h2, List.reverse_reverse]

theorem allWs_padL (s : Str) : allWs (padL s) := by
  unfold padL
  split_ifs
  · intro ch hch
    have hch2 : ch = ' ' := by simpa using hch
    subst hch2
    decide
  · intro ch hch
    simp at hch

theorem allWs_padR (s : Str) : allWs (padR s) := by
  unfold padR
  split_ifs
  · intro ch hch
    have hch2 : ch = ' ' := by simpa using hch
    subst hch2
    decide
  · intro ch hch
    simp at hch

/-- On a perfectly spaced string the whole tail of the pass (rules 8, 12 and
the trim) is the identity. -/
theorem g_fixed (t : Str) (hS : singleWs t = true) (hB : noBoundWs t = true)
    (hR : rightSpaced t = true) (hL : leftSpaced t = true) :
    trimStr (applyRep m12 (applyRep m8 t)) = t := by
  rw [gen_m12_m8 t.length t (le_refl _) hS hB hR hL]
  cases t with
  | nil => decide
  | cons a t2 =>
    have hB2 : headWsB (a :: t2) = false ∧ lastWsB (a :: t2) = false := by
      simp only [noBoundWs, Bool.and_eq_true, Bool.not_eq_true'] at hB
      exact hB
    exact trim_exact _ _ _ (allWs_padL _) (allWs_padR _) hB2.1 hB2.2 (by simp)

theorem singleWs_cons_nonws (c : Char) (X : Str) (hc : isWs c = false) :
    singleWs (c :: X) = singleWs X := by
  cases X with
  | nil => simp [singleWs, hc]
  | cons d t => simp [singleWs, hc]

theorem scan12_head_nonws (n : Nat) (d : Char) (ds : Str)
    (hd : isWs d = false) : ∃ t, scanIter m12 n (d :: ds) = d :: t := by
  cases n with
  | zero => exact ⟨ds, rfl⟩
  | succ n =>
    exact ⟨_, scanIter_cons_none m12 n d ds (by simp [m12, hd])⟩

theorem scan12_singleWs : ∀ (n : Nat) (s : Str), s.length ≤ n →
    singleWs (scanIter m12 n s) = true := by
  intro n
  induction n with
  | zero =>
    intro s hlen
    have hs : s = [] := List.length_eq_zero.mp (Nat.le_zero.mp hlen)
    subst hs
    rfl
  | succ n ih =>
    intro s hlen
    cases s with
    | nil =>
      rw [scanIter_nil]
      rfl
    | cons c cs =>
      by_cases hc : isWs c
      · have hm : m12 (c :: cs) = some ([' '], (grab isWs cs).2) := by
          simp [m12, hc]
        rw [scanIter_cons_some m12 n c cs [' '] _ hm]
        have hr := grab_snd_le isWs cs
        have hX := ih (grab isWs cs).2 (by
          simp only [List.length_cons] at hlen
          omega)
        cases hgr : (grab isWs cs).2 with
        | nil =>
          rw [scanIter_nil]
          decide
        | cons d ds =>
          have hd : isWs d = false := grab_rest_head isWs cs d ds hgr
          obtain ⟨t, ht⟩ := scan12_head_nonws n d ds hd
          rw [ht]
          rw [hgr, ht] at hX
          show ((if isWs ' ' = true
            then (if ' ' = ' ' ∧ isWs d = false then true else false)
            else true) && singleWs (d :: t)) = true
          rw [hX]
          simp [hd]
      · have hcf : isWs c = false := by simpa using hc
        rw [scanIter_cons_none m12 n c cs (by simp [m12, hcf]),
          singleWs_cons_nonws c _ hcf]
        exact ih cs (by simpa using hlen)

theorem singleWs_suffix : ∀ (a x : Str),
    singleWs (a ++ x) = true → singleWs x = true := by
  intro a
  induction a with
  | nil => intro x h; exact h
  | cons c a2 ih =>
    intro x h
    exact ih x (singleWs_tail c (a2 ++ x) h)

theorem singleWs_append_left : ∀ (a b : Str),
    singleWs (a ++ b) = true → singleWs a = true := by
  intro a
  induction a with
  | nil => intro b _; rfl
  | cons c a2 ih =>
    intro b h
    cases a2 with
    | nil =>
      cases hb : b with
      | nil =>
        rw [hb] at h
        simpa using h
      | cons d t =>
        rw [hb] at h
        simp only [List.cons_append, List.nil_append, singleWs,
          Bool.and_eq_true] at h
        have h1 := h.1
        by_cases hcw : isWs c = true
        · rw [if_pos hcw] at h1
          by_cases hsp : c = ' ' ∧ isWs d = false
          · simp [singleWs, hcw, hsp.1]
          · rw [if_neg hsp] at h1
            exact absurd h1 (by decide)
        · have hcf : isWs c = false := by simpa using hcw
          simp [singleWs, hcf]
    | cons d t =>
      simp only [List.cons_append] at h
      simp only [singleWs, Bool.and_eq_true] at h ⊢
      exact ⟨h.1, ih b h.2⟩

theorem headWsB_dropWhile (x : Str) :
    headWsB (List.dropWhile isWs x) = false := by
  induction x with
  | nil => rfl
  | cons c cs ih =>
    by_cases hc : isWs c
    · simpa [List.dropWhile, hc] using ih
    · have hcf : isWs c = false := by simpa using hc
      simp [List.dropWhile, hcf, headWsB]

theorem noBound_trim (x : Str) : noBoundWs (trimStr x) = true := by
  unfold trimStr noBoundWs
  have h1 : headWsB (List.dropWhile isWs x) = false := headWsB_dropWhile x
  have h2 : headWsB (List.dropWhile isWs (List.dropWhile isWs x).reverse)
      = false := headWsB_dropWhile _
  have hlast : lastWsB (List.dropWhile isWs
      (List.dropWhile isWs x).reverse).reverse = false := by
    unfold lastWsB
    rw [List.getLast?_reverse]
    cases hv : List.dropWhile isWs (List.dropWhile isWs x).reverse with
    | nil => rfl
    | cons v vs =>
      have := h2
      rw [hv] at this
      simpa [headWsB] using this
  have hhead : headWsB (List.dropWhile isWs
      (List.dropWhile isWs x).reverse).reverse = false := by
    cases hv : List.dropWhile isWs (List.dropWhile isWs x).reverse with
    | nil => rfl
    | cons v vs =>
      obtain ⟨e, rest, her⟩ : ∃ e rest, (v :: vs).reverse = e :: rest := by
        cases hrev : (v :: vs).reverse with
        | nil => simp at hrev
        | cons e rest => exact ⟨e, rest, rfl⟩
      rw [her]
      have hh : (v :: vs).reverse.head? = (v :: vs).getLast? :=
        List.head?_reverse (v :: vs)
      rw [her] at hh
      have hsuffix : List.takeWhile isWs (List.dropWhile isWs x).reverse
          ++ (v :: vs) = (List.dropWhile isWs x).reverse := by
        rw [← hv]
        exact List.takeWhile_append_dropWhile _ _
      have hlast2 : (v :: vs).getLast? = (List.dropWhile isWs x).reverse.getLast? := by
        rw [← hsuffix, List.getLast?_append_of_ne_nil _ (by simp)]
      rw [hlast2, List.getLast?_reverse] at hh
      -- hh : some e = (List.dropWhile isWs x).head?
      cases hx : List.dropWhile isWs x with
      | nil => rw [hx] at hh; simp at hh
      | cons u us =>
        rw [hx] at hh
        simp only [List.head?] at hh
        have he : e = u := by simpa using hh
        subst he
        have := h1
        rw [hx] at this
        simpa [headWsB] using this
  rw [hhead, hlast]
  rfl

theorem lSp_cons_sp (ok : Bool) (X : Str) : lSp ok (' ' :: X) = lSp true X := by
  cases X with
  | nil => rfl
  | cons d t =>
    simp [lSp, connB, show isWs ' ' = true from by decide]

theorem lSp_block (c : Str) (hc : isConnPair c) (ok : Bool) (X : Str) :
    lSp ok ((' ' :: (c ++ [' '])) ++ X) = lSp true X := by
  rcases hc with rfl | rfl <;>
    cases X with
    | nil => rfl
    | cons d t =>
      simp +decide [lSp, connB, show isWs ' ' = true from by decide]

theorem scan8_leftSpaced : ∀ (n : Nat) (s : Str), s.length ≤ n → ∀ ok : Bool,
    lSp ok (scanIter m8 n s) = true := by
  intro n
  induction n with
  | zero =>
    intro s hlen ok
    have hs : s = [] := List.length_eq_zero.mp (Nat.le_zero.mp hlen)
    subst hs
    rfl
  | succ n ih =>
    intro s hlen ok
    cases s with
    | nil =>
      rw [scanIter_nil]
      rfl
    | cons c cs =>
      cases hm : m8 (c :: cs) with
      | none =>
        rw [scanIter_cons_none m8 n c cs hm]
        cases hXc : scanIter m8 n cs with
        | nil => rfl
        | cons d t =>
          simp only [lSp, Bool.and_eq_true]
          constructor
          · cases hcb : connB c d with
            | false => simp
            | true =>
              exfalso
              cases cs with
              | nil =>
                rw [scanIter_nil] at hXc
                simp at hXc
              | cons d0 ds =>
                rcases scan8_head n d0 ds with ⟨t2, ht2⟩ | ⟨t2, ht2⟩
                · rw [ht2] at hXc
                  have hd0 : d0 = d := (List.cons.inj hXc).1
                  subst hd0
                  simp only [connB, Bool.or_eq_true, Bool.and_eq_true,
                    decide_eq_true_eq] at hcb
                  rcases hcb with ⟨rfl, rfl⟩ | ⟨rfl, rfl⟩
                  · have hms : m8 ('&' :: '&' :: ds)
                        = some (' ' :: (['&', '&'] ++ [' ']), (grab isWs ds).2) :=
                      m8_matches ['&', '&'] ds (Or.inl rfl)
                    rw [hm] at hms
                    exact Option.noConfusion hms
                  · have hms : m8 ('|' :: '|' :: ds)
                        = some (' ' :: (['|', '|'] ++ [' ']), (grab isWs ds).2) :=
                      m8_matches ['|', '|'] ds (Or.inr rfl)
                    rw [hm] at hms
                    exact Option.noConfusion hms
                · rw [ht2] at hXc
                  have hd : d = ' ' := ((List.cons.inj hXc).1).symm
                  subst hd
                  simp [connB] at hcb
          · rw [← hXc]
            exact ih cs (by simpa using hlen) (isWs c)
      | some er =>
        obtain ⟨e, r⟩ := er
        rw [scanIter_cons_some m8 n c cs e r hm]
        obtain ⟨w1, cp, w2, hw1, hcp, hw2, hs, he⟩ := m8_decomp _ _ _ hm
        rw [he, lSp_block cp hcp ok (scanIter m8 n r)]
        have hl := congrArg List.length hs
        have hcl : cp.length = 2 := by rcases hcp with rfl | rfl <;> rfl
        simp [List.length_append] at hl
        simp at hlen
        exact ih r (by omega) true

theorem lSp_peel_allws : ∀ (u : Str) (ok : Bool) (r : Str), u ≠ [] → allWs u →
    lSp ok (u ++ r) = true → lSp true r = true := by
  intro u
  induction u with
  | nil => intro ok r h _ _; exact absurd rfl h
  | cons cu us ihu =>
    intro ok r _ hw h
    have h2 := lSp_tail ok cu (us ++ r) h
    cases us with
    | nil =>
      rw [hw cu (by simp)] at h2
      simpa using h2
    | cons cu2 us2 =>
      exact ihu (isWs cu) r (by simp)
        (fun ch hch => hw ch (List.mem_cons_of_mem _ hch)) h2

theorem scan12_leftSpaced : ∀ (n : Nat) (s : Str) (ok : Bool),
    lSp ok s = true → lSp ok (scanIter m12 n s) = true := by
  intro n
  induction n with
  | zero => intro s ok h; exact h
  | succ n ih =>
    intro s ok h
    cases s with
    | nil =>
      rw [scanIter_nil]
      rfl
    | cons c cs =>
      cases hm : m12 (c :: cs) with
      | some er =>
        obtain ⟨e, r⟩ := er
        rw [scanIter_cons_some m12 n c cs e r hm]
        obtain ⟨d, w, hd, hw, hs, he⟩ := m12_decomp _ _ _ hm
        subst he
        rw [show (([' '] : Str) ++ scanIter m12 n r) = ' ' :: scanIter m12 n r
          from rfl, lSp_cons_sp]
        apply ih r true
        rw [hs] at h
        exact lSp_peel_allws (d :: w) ok r (by simp)
          (by
            intro ch hch
            rcases List.mem_cons.mp hch with rfl | hch2
            · exact hd
            · exact hw ch hch2) h
      | none =>
        rw [scanIter_cons_none m12 n c cs hm]
        have htl := lSp_tail ok c cs h
        have hX := ih cs (isWs c) htl
        cases hXc : scanIter m12 n cs with
        | nil => rfl
        | cons d t =>
          simp only [lSp, Bool.and_eq_true]
          refine ⟨?_, by rw [← hXc]; exact hX⟩
          cases hcb : connB c d with
          | false => simp
          | true =>
            cases cs with
            | nil =>
              rw [scanIter_nil] at hXc
              simp at hXc
            | cons d0 ds =>
              rcases scan12_head n d0 ds with ⟨t2, ht2⟩ | ⟨t2, ht2⟩
              · rw [ht2] at hXc
                have hd0 : d0 = d := (List.cons.inj hXc).1
                subst hd0
                have h1 : ok = true := by
                  simp only [lSp, Bool.and_eq_true] at h
                  have hx := h.1
                  rw [if_pos hcb] at hx
                  exact hx
                simp [h1]
              · rw [ht2] at hXc
                have hd2 : d = ' ' := ((List.cons.inj hXc).1).symm
                subst hd2
                simp [connB] at hcb

theorem lSp_append_left : ∀ (a : Str) (ok : Bool) (b : Str),
    lSp ok (a ++ b) = true → lSp ok a = true := by
  intro a
  induction a with
  | nil => intro ok b _; rfl
  | cons c a2 ih =>
    intro ok b h
    cases a2 with
    | nil => rfl
    | cons d t =>
      simp only [List.cons_append] at h
      simp only [lSp, Bool.and_eq_true] at h ⊢
      exact ⟨h.1, ih (isWs c) b h.2⟩

theorem trim_leftSpaced (s : Str) (h : leftSpaced s = true) :
    leftSpaced (trimStr s) = true := by
  obtain ⟨w1, w2, hw1, hw2, hs⟩ := trim_decomp s
  rw [hs] at h
  by_cases hw1e : w1 = []
  · subst hw1e
    simp only [List.nil_append] at h
    exact lSp_append_left _ true w2 h
  · exact lSp_append_left _ true w2
      (lSp_peel_allws w1 true (trimStr s ++ w2) hw1e hw1 h)

/-- The four spacing invariants of the image of rules 8 + 12 + trim. -/
theorem image_inv (y : Str) :
    singleWs (trimStr (applyRep m12 (applyRep m8 y))) = true ∧
    noBoundWs (trimStr (applyRep m12 (applyRep m8 y))) = true ∧
    rightSpaced (trimStr (applyRep m12 (applyRep m8 y))) = true ∧
    leftSpaced (trimStr (applyRep m12 (applyRep m8 y))) = true := by
  refine ⟨?_, noBound_trim _, cleanup_tail_rightSpaced y, ?_⟩
  · have h12 : singleWs (applyRep m12 (applyRep m8 y)) = true :=
      scan12_singleWs _ _ (le_refl _)
    obtain ⟨w1, w2, hw1, hw2, hs⟩ := trim_decomp (applyRep m12 (applyRep m8 y))
    rw [hs] at h12
    exact singleWs_append_left _ w2 (singleWs_suffix w1 _ h12)
  · have h12 : leftSpaced (applyRep m12 (applyRep m8 y)) = true :=
      scan12_leftSpaced _ _ true (scan8_leftSpaced y.length y (le_refl _) true)
    exact trim_leftSpaced _ h12

theorem g_fix_of_Sweak (s : Str) (h : SweakB s = true) :
    trimStr (applyRep m12 (applyRep m8 s)) = s := by
  simp only [SweakB, Bool.and_eq_true] at h
  exact g_fixed s h.1.1.1 h.1.1.2 h.1.2 h.2

theorem Sweak_of_g (y : Str) :
    SweakB (trimStr (applyRep m12 (applyRep m8 y))) = true := by
  obtain ⟨h1, h2, h3, h4⟩ := image_inv y
  simp [SweakB, h1, h2, h3, h4]

/-- Every pass that changes the string either strictly decreases the
lexicographic measure (paren count, junction count, conn-char count), or
acts purely by the spacing tail (rules 8, 12, trim). -/
theorem pass_step (s : Str) :
    (passOnce s).countP isParenCh < s.countP isParenCh ∨
    ((passOnce s).countP isParenCh = s.countP isParenCh ∧
      junc (passOnce s) < junc s) ∨
    ((passOnce s).countP isParenCh = s.countP isParenCh ∧
      junc (passOnce s) = junc s ∧
      (passOnce s).countP isAmpCh < s.countP isAmpCh) ∨
    ((passOnce s).countP isParenCh = s.countP isParenCh ∧
      junc (passOnce s) = junc s ∧
      (passOnce s).countP isAmpCh = s.countP isAmpCh ∧
      passOnce s = trimStr (applyRep m12 (applyRep m8 s))) := by
  have hpass : passOnce s = trimStr (applyRep m12 (applyRep m11 (applyRep m10
      (applyRep m1 (applyRep m8 (applyRep m7 (rule6 (rule5 (applyRep m4
        (applyRep m3 (applyRep m2 (applyRep m1 s)))))))))))) := rfl
  obtain ⟨b1, hb1⟩ : ∃ b, applyRep m1 s = b := ⟨_, rfl⟩
  rw [hb1] at hpass
  obtain ⟨b2, hb2⟩ : ∃ b, applyRep m2 b1 = b := ⟨_, rfl⟩
  rw [hb2] at hpass
  obtain ⟨b3, hb3⟩ : ∃ b, applyRep m3 b2 = b := ⟨_, rfl⟩
  rw [hb3] at hpass
  obtain ⟨b4, hb4⟩ : ∃ b, applyRep m4 b3 = b := ⟨_, rfl⟩
  rw [hb4] at hpass
  obtain ⟨b5, hb5⟩ : ∃ b, rule5 b4 = b := ⟨_, rfl⟩
  rw [hb5] at hpass
  obtain ⟨b6, hb6⟩ : ∃ b, rule6 b5 = b := ⟨_, rfl⟩
  rw [hb6] at hpass
  obtain ⟨b7, hb7⟩ : ∃ b, applyRep m7 b6 = b := ⟨_, rfl⟩
  rw [hb7] at hpass
  obtain ⟨b8, hb8⟩ : ∃ b, applyRep m8 b7 = b := ⟨_, rfl⟩
  rw [hb8] at hpass
  obtain ⟨b9, hb9⟩ : ∃ b, applyRep m1 b8 = b := ⟨_, rfl⟩
  rw [hb9] at hpass
  obtain ⟨b10, hb10⟩ : ∃ b, applyRep m10 b9 = b := ⟨_, rfl⟩
  rw [hb10] at hpass
  obtain ⟨b11, hb11⟩ : ∃ b, applyRep m11 b10 = b := ⟨_, rfl⟩
  rw [hb11] at hpass
  obtain ⟨b12, hb12⟩ : ∃ b, applyRep m12 b11 = b := ⟨_, rfl⟩
  rw [hb12] at hpass
  have c1 : b1.countP isParenCh ≤ s.countP isParenCh := by
    rw [← hb1]; exact paren_le_m1 s
  have c2 : b2.countP isParenCh ≤ b1.countP isParenCh := by
    rw [← hb2]; exact paren_le_m2 b1
  have c3 : b3.countP isParenCh ≤ b2.countP isParenCh := by
    rw [← hb3]; exact paren_le_m3 b2
  have c4 : b4.countP isParenCh ≤ b3.countP isParenCh := by
    rw [← hb4]; exact paren_le_m4 b3
  have c5 : b5.countP isParenCh = b4.countP isParenCh := by
    rw [← hb5]; exact rule5_countP_eq isParenCh parenWs (by decide) (by decide) b4
  have c6 : b6.countP isParenCh = b5.countP isParenCh := by
    rw [← hb6]; exact rule6_countP_eq isParenCh parenWs (by decide) (by decide) b5
  have c7 : b7.countP isParenCh ≤ b6.countP isParenCh := by
    rw [← hb7]; exact paren_le_m7 b6
  have c8 : b8.countP isParenCh ≤ b7.countP isParenCh := by
    rw [← hb8]; exact paren_le_m8 b7
  have c9 : b9.countP isParenCh ≤ b8.countP isParenCh := by
    rw [← hb9]; exact paren_le_m1 b8
  have c10 : b10.countP isParenCh ≤ b9.countP isParenCh := by
    rw [← hb10]; exact paren_le_m10 b9
  have c11 : b11.countP isParenCh ≤ b10.countP isParenCh := by
    rw [← hb11]; exact paren_le_m11 b10
  have c12 : b12.countP isParenCh ≤ b11.countP isParenCh := by
    rw [← hb12]; exact paren_le_m12 b11
  have c13 : (passOnce s).countP isParenCh = b12.countP isParenCh := by
    rw [hpass]; exact trim_countP isParenCh parenWs b12
  rcases Nat.lt_or_ge ((passOnce s).countP isParenCh) (s.countP isParenCh)
    with hPlt | hPge
  · exact Or.inl hPlt
  · have hPeq : (passOnce s).countP isParenCh = s.countP isParenCh := by omega
    have hI1 : b1 = s := by
      rcases paren_idlt_m1 s with hid | hlt
      · rw [← hb1]; exact hid
      · exfalso
        rw [hb1] at hlt
        omega
    have hI9 : b9 = b8 := by
      rcases paren_idlt_m1 b8 with hid | hlt
      · rw [← hb9]; exact hid
      · exfalso
        rw [hb9] at hlt
        omega
    have hI10 : b10 = b9 := by
      rcases paren_idlt_m10 b9 with hid | hlt
      · rw [← hb10]; exact hid
      · exfalso
        rw [hb10] at hlt
        omega
    have hI11 : b11 = b10 := by
      rcases paren_idlt_m11 b10 with hid | hlt
      · rw [← hb11]; exact hid
      · exfalso
        rw [hb11] at hlt
        omega
    have hb12x : applyRep m12 b8 = b12 := by
      rw [← hb12, hI11, hI10, hI9]
    have j2 : junc b2 = junc b1 := by
      rw [← hb2]; exact (scan_junc_exact m2 m2_junc b1.length b1).1
    have j3 : junc b3 = junc b2 := by
      rw [← hb3]; exact (scan_junc_exact m3 m3_junc b2.length b2).1
    have j4 : junc b4 = junc b3 := by
      rw [← hb4]; exact (scan_junc_exact m4 m4_junc b3.length b3).1
    have j5 : junc b5 = junc b4 := by
      rw [← hb5]; exact rule5_junc_eq b4
    have j6 : junc b6 = junc b5 := by
      rw [← hb6]; exact rule6_junc_eq b5
    have j7 : junc b7 ≤ junc b6 := by
      rw [← hb7]; exact (scan_junc_m7_le b6.length b6).1
    have j8 : junc b8 = junc b7 := by
      rw [← hb8]; exact (scan_junc_exact m8 m8_junc b7.length b7).1
    have j12 : junc b12 = junc b8 := by
      rw [← hb12x]; exact (scan_junc_exact m12 m12_junc b8.length b8).1
    have j13 : junc (passOnce s) = junc b12 := by
      rw [hpass]; exact trim_junc_eq b12
    have hj1 : junc b1 = junc s := by rw [hI1]
    rcases Nat.lt_or_ge (junc (passOnce s)) (junc s) with hJlt | hJge
    · exact Or.inr (Or.inl ⟨hPeq, hJlt⟩)
    · have hJeq : junc (passOnce s) = junc s := by omega
      have hI7 : b7 = b6 := by
        rcases scan_junc_m7_idlt b6.length b6 with hid | hlt
        · rw [← hb7]; exact hid
        · exfalso
          have hlt2 : junc b7 < junc b6 := by rw [← hb7]; exact hlt
          omega
      have hb8x : applyRep m8 b6 = b8 := by
        rw [← hb8, hI7]
      have a2 : b2.countP isAmpCh ≤ b1.countP isAmpCh := by
        rw [← hb2]
        exact scan_cP_le m2 isAmpCh (fun s2 e2 r2 h2 => by
          obtain ⟨u, hu, hlt⟩ := m2_amp_strict s2 e2 r2 h2
          exact ⟨u, hu, Nat.le_of_lt hlt⟩) b1.length b1
      have a3 : b3.countP isAmpCh ≤ b2.countP isAmpCh := by
        rw [← hb3]
        exact scan_cP_le m3 isAmpCh (fun s2 e2 r2 h2 => by
          obtain ⟨u, hu, hlt⟩ := m3_amp_strict s2 e2 r2 h2
          exact ⟨u, hu, Nat.le_of_lt hlt⟩) b2.length b2
      have a4 : b4.countP isAmpCh ≤ b3.countP isAmpCh := by
        rw [← hb4]
        exact scan_cP_le m4 isAmpCh (fun s2 e2 r2 h2 => by
          obtain ⟨u, hu, hlt⟩ := m4_amp_strict s2 e2 r2 h2
          exact ⟨u, hu, Nat.le_of_lt hlt⟩) b3.length b3
      have a5 : b5.countP isAmpCh ≤ b4.countP isAmpCh := by
        rcases rule5_amp_idlt b4 with hid | hlt
        · rw [← hb5, hid]
        · rw [← hb5]; exact Nat.le_of_lt hlt
      have a6 : b6.countP isAmpCh ≤ b5.countP isAmpCh := by
        rcases rule6_amp_idlt b5 with hid | hlt
        · rw [← hb6, hid]
        · rw [← hb6]; exact Nat.le_of_lt hlt
      have a8 : b8.countP isAmpCh = b6.countP isAmpCh := by
        rw [← hb8x]; exact amp_eq_m8 b6
      have a12 : b12.countP isAmpCh = b8.countP isAmpCh := by
        rw [← hb12x]; exact amp_eq_m12 b8
      have a13 : (passOnce s).countP isAmpCh = b12.countP isAmpCh := by
        rw [hpass]; exact trim_countP isAmpCh ampWs b12
      have ha1 : b1.countP isAmpCh = s.countP isAmpCh := by rw [hI1]
      rcases Nat.lt_or_ge ((passOnce s).countP isAmpCh) (s.countP isAmpCh)
        with hAlt | hAge
      · exact Or.inr (Or.inr (Or.inl ⟨hPeq, hJeq, hAlt⟩))
      · have hAeq : (passOnce s).countP isAmpCh = s.countP isAmpCh := by omega
        have hA2 : b2 = b1 := by
          rcases scan_id_or_lt m2 isAmpCh m2_amp_strict b1.length b1 with hid | hlt
          · rw [← hb2]; exact hid
          · exfalso
            have hlt2 : b2.countP isAmpCh < b1.countP isAmpCh := by
              rw [← hb2]; exact hlt
            omega
        have hA3 : b3 = b2 := by
          rcases scan_id_or_lt m3 isAmpCh m3_amp_strict b2.length b2 with hid | hlt
          · rw [← hb3]; exact hid
          · exfalso
            have hlt2 : b3.countP isAmpCh < b2.countP isAmpCh := by
              rw [← hb3]; exact hlt
            omega
        have hA4 : b4 = b3 := by
          rcases scan_id_or_lt m4 isAmpCh m4_amp_strict b3.length b3 with hid | hlt
          · rw [← hb4]; exact hid
          · exfalso
            have hlt2 : b4.countP isAmpCh < b3.countP isAmpCh := by
              rw [← hb4]; exact hlt
            omega
        have hA5 : b5 = b4 := by
          rcases rule5_amp_idlt b4 with hid | hlt
          · rw [← hb5]; exact hid
          · exfalso
            have hlt2 : b5.countP isAmpCh < b4.countP isAmpCh := by
              rw [← hb5]; exact hlt
            omega
        have hA6 : b6 = b5 := by
          rcases rule6_amp_idlt b5 with hid | hlt
          · rw [← hb6]; exact hid
          · exfalso
            have hlt2 : b6.countP isAmpCh < b5.countP isAmpCh := by
              rw [← hb6]; exact hlt
            omega
        refine Or.inr (Or.inr (Or.inr ⟨hPeq, hJeq, hAeq, ?_⟩))
        rw [hpass, ← hb12x, ← hb8x, hA6, hA5, hA4, hA3, hA2, hI1]

theorem cleanupFuel_step (n : Nat) (s : Str) (hne : passOnce s ≠ s) :
    cleanupFuel (n + 1) s = cleanupFuel n (passOnce s) := by
  simp only [cleanupFuel, if_neg hne]

theorem cleanup_terminates_aux : ∀ (p : Nat), ∀ (j : Nat), ∀ (a : Nat),
    ∀ s : Str, s.countP isParenCh = p → junc s = j → s.countP isAmpCh = a →
    ∃ n r, cleanupFuel n s = some r := by
  intro p
  induction p using Nat.strong_induction_on with
  | h p ihp =>
    intro j
    induction j using Nat.strong_induction_on with
    | h j ihj =>
      intro a
      induction a using Nat.strong_induction_on with
      | h a iha =>
        intro s hp hj ha
        subst hp
        subst hj
        subst ha
        rcases eq_or_ne (passOnce s) s with hfix | hne
        · exact ⟨1, s, by simp [cleanupFuel, hfix]⟩
        · rcases pass_step s with h2 | ⟨hpe, h3⟩ | ⟨hpe, hje, h4⟩ |
            ⟨hpe, hje, hae, h5⟩
          · obtain ⟨n, r, hn⟩ := ihp ((passOnce s).countP isParenCh) h2
              (junc (passOnce s)) ((passOnce s).countP isAmpCh) (passOnce s)
              rfl rfl rfl
            exact ⟨n + 1, r, by rw [cleanupFuel_step n s hne]; exact hn⟩
          · obtain ⟨n, r, hn⟩ := ihj (junc (passOnce s)) h3
              ((passOnce s).countP isAmpCh) (passOnce s) hpe rfl rfl
            exact ⟨n + 1, r, by rw [cleanupFuel_step n s hne]; exact hn⟩
          · obtain ⟨n, r, hn⟩ := iha ((passOnce s).countP isAmpCh) h4
              (passOnce s) hpe hje rfl
            exact ⟨n + 1, r, by rw [cleanupFuel_step n s hne]; exact hn⟩
          · by_cases hsw : SweakB s = true
            · exact absurd (h5.trans (g_fix_of_Sweak s hsw)) hne
            · have hswt : SweakB (passOnce s) = true := by
                rw [h5]
                exact Sweak_of_g s
              rcases eq_or_ne (passOnce (passOnce s)) (passOnce s)
                with hfix2 | hne2
              · refine ⟨2, passOnce s, ?_⟩
                rw [cleanupFuel_step 1 s hne]
                simp [cleanupFuel, hfix2]
              · rcases pass_step (passOnce s) with h2' | ⟨hpe', h3'⟩ |
                  ⟨hpe', hje', h4'⟩ | ⟨_, _, _, h5'⟩
                · obtain ⟨n, r, hn⟩ := ihp
                    ((passOnce (passOnce s)).countP isParenCh) (by omega)
                    (junc (passOnce (passOnce s)))
                    ((passOnce (passOnce s)).countP isAmpCh)
                    (passOnce (passOnce s)) rfl rfl rfl
                  refine ⟨n + 2, r, ?_⟩
                  rw [cleanupFuel_step (n + 1) s hne,
                    cleanupFuel_step n (passOnce s) hne2]
                  exact hn
                · obtain ⟨n, r, hn⟩ := ihj (junc (passOnce (passOnce s)))
                    (by omega) ((passOnce (passOnce s)).countP isAmpCh)
                    (passOnce (passOnce s)) (by omega) rfl rfl
                  refine ⟨n + 2, r, ?_⟩
                  rw [cleanupFuel_step (n + 1) s hne,
                    cleanupFuel_step n (passOnce s) hne2]
                  exact hn
                · obtain ⟨n, r, hn⟩ := iha
                    ((passOnce (passOnce s)).countP isAmpCh) (by omega)
                    (passOnce (passOnce s)) (by omega) (by omega) rfl
                  refine ⟨n + 2, r, ?_⟩
                  rw [cleanupFuel_step (n + 1) s hne,
                    cleanupFuel_step n (passOnce s) hne2]
                  exact hn
                · exact absurd (h5'.trans (g_fix_of_Sweak (passOnce s) hswt))
                    hne2

theorem m4_none (t : Str)
    (h : ∀ c ts, t = c :: ts → (c ≠ '&' ∧ c ≠ '|' ∧ isWs c = false)) :
    m4 t = none := by
  have hgr : grab isWs t = ([], t) :=
    grab_none isWs t (fun c ts hts => (h c ts hts).2.2)
  have hrc : readConn t = none :=
    readConn_none t (fun c ts hts => ⟨(h c ts hts).1, (h c ts hts).2.1⟩)
  simp [m4, hgr, hrc]

/-- C7 amended: the double-operator rule itself (rule 4 of a pass), applied
to a string whose unique connective pair is isolated between connective-free,
whitespace-free context, replaces the pair by the *second* connective
surrounded by single spaces. -/
theorem rule4_collapse (x w y c1 c2 : Str)
    (hc1 : isConnPair c1) (hc2 : isConnPair c2)
    (hw : allWs w) (hwne : w ≠ [])
    (hx : ∀ c ∈ x, c ≠ '&' ∧ c ≠ '|' ∧ isWs c = false)
    (hy : ∀ c ∈ y, c ≠ '&' ∧ c ≠ '|' ∧ isWs c = false) :
    applyRep m4 (x ++ c1 ++ w ++ c2 ++ y) = x ++ ' ' :: (c2 ++ [' ']) ++ y := by
  have hc2ne : ∀ c ts, c2 ++ y = c :: ts → isWs c = false := by
    intro c ts h
    rcases hc2 with h2 | h2 <;> rw [h2] at h <;> cases h <;> decide
  have hyhead : ∀ c ts, y = c :: ts → isWs c = false := by
    intro c ts h
    exact (hy c (by rw [h]; simp)).2.2
  have hg2 : grab isWs (w ++ (c2 ++ y)) = (w, c2 ++ y) :=
    grab_all isWs w (c2 ++ y) hw hc2ne
  have hg3 : grab isWs y = ([], y) := grab_none isWs y hyhead
  have hwE : w.isEmpty = false := by
    cases w with
    | nil => exact absurd rfl hwne
    | cons a b => rfl
  have hm4R : m4 (c1 ++ (w ++ (c2 ++ y))) = some (' ' :: (c2 ++ [' ']), y) := by
    rcases hc1 with h1 | h1 <;> rcases hc2 with h2 | h2 <;>
      (subst h1
       rw [h2] at hg2 ⊢
       simp only [List.cons_append, List.nil_append] at hg2 ⊢
       simp [m4, readConn, grab, hg2, hg3, hwE, hwne,
         show isWs '&' = false from by decide,
         show isWs '|' = false from by decide])
  have hnone : ∀ i, i < x.length → m4 (x.drop i ++ (c1 ++ (w ++ (c2 ++ y)))) = none := by
    intro i hi
    refine m4_none _ ?_
    intro c ts h
    cases hd : x.drop i with
    | nil =>
      have hlen2 := List.length_drop i x
      rw [hd] at hlen2
      simp at hlen2
      omega
    | cons d ds =>
      rw [hd] at h
      cases h
      exact hx c (List.mem_of_mem_drop (by rw [hd]; simp))
  have hlen : (x ++ c1 ++ w ++ c2 ++ y).length
      = x.length + (c1 ++ (w ++ (c2 ++ y))).length := by
    simp only [List.length_append]
    omega
  have hassoc : x ++ c1 ++ w ++ c2 ++ y = x ++ (c1 ++ (w ++ (c2 ++ y))) := by
    simp [List.append_assoc]
  rw [applyRep, hlen, hassoc, scanIter_copy m4 x _ _ hnone]
  have hyz : ∀ k, scanIter m4 k y = y := by
    intro k
    refine scanIter_none_of m4 _ y ?_
    intro i
    refine m4_none _ ?_
    intro c ts h
    exact hy c (List.mem_of_mem_drop (by rw [h]; simp))
  have hR : scanIter m4 (c1 ++ (w ++ (c2 ++ y))).length (c1 ++ (w ++ (c2 ++ y)))
      = ' ' :: (c2 ++ [' ']) ++ y := by
    rcases hc1 with h1 | h1 <;>
      (subst h1
       simp only [List.cons_append, List.length_cons]
       rw [scanIter_cons_some m4 _ _ _ _ _ (by
         simpa [List.cons_append] using hm4R)]
       rw [hyz]
       simp [List.append_assoc])
  rw [hR]
  simp [List.append_assoc]

/-- Witness for C7's amended rule-4 collapse: `a&& ||b` becomes `a || b`. -/
theorem rule4_collapse_w :
    applyRep m4 "a&& ||b".toList = "a || b".toList := by
  rw [show ("a&& ||b".toList : Str)
      = ['a'] ++ ['&', '&'] ++ [' '] ++ ['|', '|'] ++ ['b'] from by decide]
  rw [rule4_collapse ['a'] [' '] ['b'] ['&', '&'] ['|', '|']
    (Or.inl rfl) (Or.inr rfl) (by unfold allWs; decide) (by decide)
    (by decide) (by decide)]
  decide

theorem cleanupFuel_fix (n : Nat) (x r : Str) (h : cleanupFuel n x = some r) :
    passOnce r = r := by
  induction n generalizing x with
  | zero => simp [cleanupFuel] at h
  | succ n ih =>
    rw [cleanupFuel] at h
    rcases eq_or_ne (passOnce x) x with hp | hp
    · rw [if_pos hp] at h
      obtain rfl : x = r := Option.some.inj h
      exact hp
    · rw [if_neg hp] at h
      exact ih _ h

/-- C1: the normalizer is idempotent.  Whenever the fixed-point loop of
`cleanupQuery` terminates on `x` with result `r` (within any fuel `n`),
running `cleanupQuery` on `r` terminates with the same fuel and returns
`r` itself: `cleanupQuery (cleanupQuery x) = cleanupQuery x`. -/
theorem cleanup_idempotent (n : Nat) (x r : Str) (h : cleanupFuel n x = some r) :
    cleanupFuel n r = some r := by
  have hfix := cleanupFuel_fix n x r h
  cases n with
  | zero => simp [cleanupFuel] at h
  | succ n => simp [cleanupFuel, hfix]

/-- Witness for C1 at the concrete input `"( )"`, whose cleanup is `""`. -/
theorem cleanup_idempotent_w :
    cleanupFuel 2 "( )".toList = some [] ∧ cleanupFuel 2 [] = some [] :=
  ⟨by decide, cleanup_idempotent 2 "( )".toList [] (by decide)⟩

/-- C2: termination.  For every input string the iterated rewrite loop of
`cleanupQuery` reaches a fixed point after finitely many passes: some finite
fuel makes the fuelled loop return a result.  The passes decrease the
measure (parenthesis count, junction count, connective-character count)
lexicographically, except for pure re-spacing passes, which immediately
produce a perfectly spaced string on which the next differing pass must
decrease the measure. -/
theorem cleanup_terminates (x : Str) : ∃ n r, cleanupFuel n x = some r :=
  cleanup_terminates_aux (x.countP isParenCh) (junc x) (x.countP isAmpCh) x
    rfl rfl rfl

/-- C3: no dangling connectives.  Whenever the cleanup loop terminates, its
output never starts or ends with `&&`/`||`, never contains `(&&`, `(||`,
`&&)`, `||)` with only whitespace between bracket and connective, and never
contains two connectives separated only by (possibly empty) whitespace. -/
theorem cleanup_no_dangling (n : Nat) (x r : Str) (h : cleanupFuel n x = some r) :
    ¬StartsWithConn r ∧ ¬EndsWithConn r ∧ ¬HasConnAfterOpen r ∧
      ¬HasConnBeforeClose r ∧ ¬HasAdjConns r := by
  obtain ⟨h1, h2, h3, h4, h5, h6, h7, h812⟩ :=
    pass_fix_main r (cleanupFuel_fix n x r h)
  have hrs : rightSpaced r = true := by
    rw [← h812]
    exact cleanup_tail_rightSpaced r
  refine ⟨rule6_no_lead r h6, ?_, ?_, ?_, ?_⟩
  · rintro ⟨a, c, hc, hr⟩
    have hnm := rule5_no_match r h5 a.length
    rw [hr, List.drop_left, m5_matches c hc] at hnm
    exact Option.noConfusion hnm
  · rintro ⟨a, w, c, b, hc, hw, hr⟩
    have hr2 : r = a ++ ('(' :: (w ++ (c ++ b))) := by
      rw [hr]
      simp [List.append_assoc]
    have hnm := scan_id_no_match m3 isAmpCh m3_amp_strict rfl r.length r
      (le_refl _) h3 a.length
    rw [hr2, List.drop_left, m3_matches w c b hw hc] at hnm
    exact Option.noConfusion hnm
  · rintro ⟨a, c, w, b, hc, hw, hr⟩
    have hr2 : r = a ++ (c ++ (w ++ ')' :: b)) := by
      rw [hr]
      simp [List.append_assoc]
    have hnm := scan_id_no_match m2 isAmpCh m2_amp_strict rfl r.length r
      (le_refl _) h2 a.length
    rw [hr2, List.drop_left, m2_matches c w b hc hw] at hnm
    exact Option.noConfusion hnm
  · rintro ⟨a, c1, w, c2, b, hc1, hc2, hw, hr⟩
    by_cases hwn : w = []
    · subst hwn
      have hr2 : r = a ++ (c1 ++ (c2 ++ b)) := by
        rw [hr]
        simp [List.append_assoc]
      rw [hr2] at hrs
      have hsuf := rightSpaced_suffix a _ hrs
      rcases hc1 with rfl | rfl <;>
      · simp only [List.cons_append, List.nil_append, List.append_eq, rightSpaced,
          Bool.and_eq_true] at hsuf
        have hbad := hsuf.1
        rw [if_pos (by simp)] at hbad
        rw [wsOrEnd_conn c2 b hc2] at hbad
        exact Bool.noConfusion hbad
    · have hr2 : r = a ++ (c1 ++ (w ++ (c2 ++ b))) := by
        rw [hr]
        simp [List.append_assoc]
      have hnm := scan_id_no_match m4 isAmpCh m4_amp_strict rfl r.length r
        (le_refl _) h4 a.length
      rw [hr2, List.drop_left, m4_matches c1 w c2 b hc1 hw hwn hc2] at hnm
      exact Option.noConfusion hnm

/-- Witness for C3 at the concrete input `"a"`, which cleans up to itself in
one pass. -/
theorem cleanup_no_dangling_w :
    ¬StartsWithConn ['a'] ∧ ¬EndsWithConn ['a'] ∧ ¬HasConnAfterOpen ['a'] ∧
      ¬HasConnBeforeClose ['a'] ∧ ¬HasAdjConns ['a'] :=
  cleanup_no_dangling 1 ['a'] ['a'] (by decide)

/-- C4 counterexample: on the input `"("` the normalizer terminates and
returns `"("`, whose `(`/`)` counts differ — the output is *not* balanced
for all inputs. -/
theorem cleanup_balanced_cex :
    cleanupFuel 1 ['('] = some ['('] ∧
      (['('] : Str).count '(' ≠ (['('] : Str).count ')' := by
  decide

/-- C4 amended: the normalizer removes parentheses only in matched pairs —
the difference between the `(` count and the `)` count is preserved from
input to output (so balanced inputs stay balanced), and the output never
contains `()` with only whitespace inside.  Universal balance of the output
fails only for inputs that were themselves unbalanced. -/
theorem cleanup_balance_amended (n : Nat) (x r : Str)
    (h : cleanupFuel n x = some r) :
    ((r.countP isOpenCh : Int) - r.countP isCloseCh
      = (x.countP isOpenCh : Int) - x.countP isCloseCh)
    ∧ ¬HasEmptyGroup r := by
  constructor
  · have := cleanup_diff n x r h
    omega
  · exact fix_no_empty_group r (cleanupFuel_fix n x r h)

/-- Witness for C4's amended claim at the concrete input `"(( ))"`. -/
theorem cleanup_balance_amended_w :
    cleanupFuel 3 "(( ))".toList = some [] ∧
    ((((([] : Str).countP isOpenCh : Int) - ([] : Str).countP isCloseCh
      = (("(( ))".toList).countP isOpenCh : Int)
        - ("(( ))".toList).countP isCloseCh))
      ∧ ¬HasEmptyGroup []) :=
  ⟨by decide, cleanup_balance_amended 3 "(( ))".toList [] (by decide)⟩

/-- C5: validity-gating of `addExpression`: `""`/`null`/`undefined` leave
the buffer unchanged; booleans always append the unquoted literal; any
other non-empty value is appended wrapped in double quotes verbatim. -/
theorem addExpression_validity_gating (field op : Str) (v : Value) (st : QState) :
    ((v = .vNull ∨ v = .vUndefined ∨ v = .vStr []) →
      (addExpression field op v st).query = st.query)
    ∧ (∀ b, (addExpression field op (.vBool b) st).query =
        st.query ++ field ++ op ++ (if b then "true".toList else "false".toList))
    ∧ (∀ s, s ≠ [] → (addExpression field op (.vStr s) st).query =
        st.query ++ field ++ op ++ '"' :: (s ++ ['"'])) := by
  refine ⟨?_, ?_, ?_⟩
  · rintro (rfl | rfl | rfl) <;> simp [addExpression, isBoolV, isValidValue]
  · intro b
    cases b <;> simp [addExpression, isBoolV, isValidValue, valText]
  · intro s hs
    cases s with
    | nil => exact absurd rfl hs
    | cons c cs => simp [addExpression, isBoolV, isValidValue, valText]

/-- Witness for C5 at concrete inputs: an empty-string value, a `false`
value and a nonempty string value. -/
theorem addExpression_validity_gating_w :
    (addExpression ['f'] ['='] (.vStr []) initState).query = initState.query ∧
    (addExpression ['f'] ['='] (.vBool false) initState).query =
      initState.query ++ ['f'] ++ ['='] ++
        (if false then "true".toList else "false".toList) ∧
    (addExpression ['f'] ['='] (.vStr ['x']) initState).query =
      initState.query ++ ['f'] ++ ['='] ++ '"' :: (['x'] ++ ['"']) :=
  ⟨(addExpression_validity_gating ['f'] ['='] (.vStr []) initState).1
      (Or.inr (Or.inr rfl)),
   (addExpression_validity_gating ['f'] ['='] (.vBool false) initState).2.1 false,
   (addExpression_validity_gating ['f'] ['='] (.vStr ['x']) initState).2.2 ['x']
      (by decide)⟩

/-- C9 counterexample: encoding an *invalid* value does not update
`lastQueryValue`: with the buffer's `lastQueryValue` at `"x"`, encoding the
empty-string value leaves it at `"x"`, not at the value's (empty) text. -/
theorem addExpression_lastValue_cex :
    (addExpression ['a'] ['='] (.vStr []) ⟨[], ['x']⟩).lastQueryValue = ['x'] ∧
    valText (.vStr []) = [] ∧ (['x'] : Str) ≠ [] := by
  decide

/-- C9 amended: `addExpression` sets `lastQueryValue` to the value's text
exactly when the value is a boolean or passes the validity rule, and leaves
it unchanged for invalid values (`null`, `undefined`, `""`). -/
theorem addExpression_lastValue (field op : Str) (v : Value) (st : QState) :
    (addExpression field op v st).lastQueryValue =
      if isBoolV v || isValidValue v then valText v else st.lastQueryValue := by
  cases v with
  | vNull => simp [addExpression, isBoolV, isValidValue]
  | vUndefined => simp [addExpression, isBoolV, isValidValue]
  | vBool b => simp [addExpression, isBoolV, isValidValue]
  | vStr s => cases s <;> simp [addExpression, isBoolV, isValidValue, valText]

theorem inGo_query (field : Str) : ∀ (l : List Value) (st : QState),
    (∀ v ∈ l, isBoolV v = false ∧ isValidValue v = true) →
    (inGo field l st).query = st.query ++ orJoin (l.map (likeFrag field)) := by
  intro l
  induction l with
  | nil => intro st _; simp [inGo, orJoin]
  | cons v rest ih =>
    intro st h
    have hv := h v (by simp)
    cases rest with
    | nil =>
      simp [inGo, orJoin, likeFrag, addExpression, hv.1, hv.2]
    | cons v2 rest2 =>
      have hsub : ∀ u ∈ v2 :: rest2, isBoolV u = false ∧ isValidValue u = true := by
        intro u hu
        exact h u (List.mem_cons_of_mem _ hu)
      show (inGo field (v2 :: rest2) (orOp (addExpression field opLike v st))).query = _
      rw [ih _ hsub]
      simp [orOp, addExpression, hv.1, hv.2, orJoin, likeFrag]

/-- C6: `in(field, values)` filters by the validity rule (dropping `null`,
`undefined` and `""`), emits one like-condition per surviving value in
order, joined by ` || ` with none after the last, and is a complete no-op
when no value survives.  (Stated for value lists without booleans, the
domain on which each fragment has the quoted `field~"value"` shape.) -/
theorem inOp_spec (field : Str) (values : List Value) (st : QState)
    (hb : ∀ v ∈ values, isBoolV v = false) :
    (inOp field values st).query =
      st.query ++ orJoin ((values.filter fun v => isValidValue v).map (likeFrag field))
    ∧ ((values.filter fun v => isValidValue v) = [] → inOp field values st = st) := by
  constructor
  · unfold inOp
    by_cases hE : (values.filter fun v => isValidValue v).isEmpty
    · rw [if_pos hE]
      rw [List.isEmpty_iff] at hE
      simp [hE, orJoin]
    · rw [if_neg hE]
      refine inGo_query field _ st ?_
      intro v hvmem
      have hmem := List.mem_filter.mp hvmem
      exact ⟨hb v hmem.1, hmem.2⟩
  · intro h
    unfold inOp
    simp [h]

/-- Witness for C6: the spec scenario
`in("category", ["a", "", "b", null, "c", undefined])`. -/
theorem inOp_spec_w :
    (inOp "category".toList
        [Value.vStr "a".toList, Value.vStr [], Value.vStr "b".toList,
          Value.vNull, Value.vStr "c".toList, Value.vUndefined]
        initState).query =
      "category~\"a\" || category~\"b\" || category~\"c\"".toList :=
  ((inOp_spec "category".toList
      [Value.vStr "a".toList, Value.vStr [], Value.vStr "b".toList,
        Value.vNull, Value.vStr "c".toList, Value.vUndefined]
      initState (by decide)).1).trans (by decide)

/-- C8: `build()` always resets the accumulator to the initial state (empty
`buffer` and `lastValue`) whenever it returns, and on an untouched handle
it returns the empty string — so calling it twice in a row returns the
empty string both times (the second call starts from the same
`initState`), and the model is total there (no exception). -/
theorem build_resets (n : Nat) (st : QState) :
    (∀ out st2, buildFuel n st = some (out, st2) → st2 = initState) ∧
    buildFuel 1 initState = some ([], initState) := by
  constructor
  · intro out st2 h
    unfold buildFuel at h
    cases hc : cleanupFuel n (trimStr st.query) with
    | none => rw [hc] at h; exact absurd h (by simp)
    | some r =>
      rw [hc] at h
      simp only [Option.some.injEq, Prod.mk.injEq] at h
      exact h.2.symm
  · decide

/-- Witness for C8: both conjuncts at the untouched handle, discharging the
hypothesis of the reset property with the concrete successful build. -/
theorem build_resets_w :
    buildFuel 1 initState = some ([], initState) ∧ initState = initState :=
  ⟨(build_resets 1 initState).2,
   (build_resets 1 initState).1 [] initState (build_resets 1 initState).2⟩

/-- C10: the normalizer is not quote-aware.  Two chains of builder calls
with valid non-empty values whose `build()` output differs from the naive
buffer: a doubled space inside the quoted value is collapsed, and a
connective-before-closing-parenthesis inside the quoted value is rewritten
away. -/
theorem build_rewrites_inside_quotes :
    (likeOp "a".toList (.vStr "x  y".toList) initState).query = "a~\"x  y\"".toList
    ∧ buildFuel 3 (likeOp "a".toList (.vStr "x  y".toList) initState)
        = some ("a~\"x y\"".toList, initState)
    ∧ "a~\"x y\"".toList ≠ "a~\"x  y\"".toList
    ∧ (likeOp "a".toList (.vStr "x && )".toList) initState).query = "a~\"x && )\"".toList
    ∧ buildFuel 3 (likeOp "a".toList (.vStr "x && )".toList) initState)
        = some ("a~\"x)\"".toList, initState)
    ∧ "a~\"x)\"".toList ≠ "a~\"x && )\"".toList := by
  refine ⟨by decide, by decide, by decide, by decide, by decide, by decide⟩

/-- C7 counterexample: the input `"( && || )"` contains the adjacent
connective pair `&& ||` separated only by whitespace, yet one rewrite pass
reduces the whole string to `""` — the pair is *not* replaced by the second
connective (the output contains no ` || ` at all), because the
bracket rules consume the connectives first. -/
theorem pass_collapse_cex :
    passOnce "( && || )".toList = [] ∧
    ∀ a b : Str, ([] : Str) ≠ a ++ (' ' :: '|' :: '|' :: ' ' :: []) ++ b := by
  constructor
  · decide
  · intro a b h
    have hl := congrArg List.length h
    simp [List.length_append] at hl
    omega

end PBQuery
